import Mathlib

/-
Verification of the cobalt Akoma Ntoso document layer (cobalt/akn.py and
cobalt/collection.py) against its natural-language specification.

The XML tree is shallowly embedded as `Elem` (tag, attributes, children);
tags are stored the way lxml stores them, i.e. as the fully qualified
string "\x7bnamespace-uri\x7dlocalname" for namespaced elements and the bare
name for non-namespaced ones.  In-place lxml mutation is embedded as
functional update: every mutating operation takes the tree and returns the
updated tree; a Python exception (AttributeError / TypeError / parse
failure) is embedded as `none` / `Except.error`.

The FrbrUri value type lives in cobalt/uri.py, which is not part of the
source under verification; it is modelled from the specification (section 2
and section 6 of the spec) as a record of coordinate fields with three
derivation methods and a parser.
-/

namespace Cobalt

/-- An XML element: lxml-style qualified tag, attribute list in document
order, and element children in document order. -/
structure Elem where
  tag : String
  attrs : List (String × String)
  children : List Elem

/-- Lookup of an attribute value in an attribute list (first match). -/
def getAttrL : List (String × String) → String → Option String
  | [], _ => none
  | (k, v) :: rest, a => if k = a then some v else getAttrL rest a

/-- Element attribute lookup, `elem.get(a)` in lxml: `none` when absent. -/
def Elem.getAttr (e : Elem) (a : String) : Option String :=
  getAttrL e.attrs a

/-- Setting an attribute in an attribute list: replace the first binding in
place, or append a new one, as lxml's `elem.set` does. -/
def setAttrL : List (String × String) → String → String → List (String × String)
  | [], a, v => [(a, v)]
  | (k, w) :: rest, a, v => if k = a then (a, v) :: rest else (k, w) :: setAttrL rest a v

/-- Element attribute update, `elem.set(a, v)` in lxml. -/
def Elem.setAttr (e : Elem) (a v : String) : Elem :=
  { e with attrs := setAttrL e.attrs a v }

/-- The lxml qualified-tag spelling of local name `n` in namespace `ns`. -/
def qn (ns n : String) : String := "\x7b" ++ ns ++ "\x7d" ++ n

/-- First child with the given qualified tag, which is what objectify's
attribute-style access `node.p` resolves to. -/
def fchildL : List Elem → String → Option Elem
  | [], _ => none
  | c :: cs, t => if c.tag = t then some c else fchildL cs t

/-- objectify attribute access `e.n` within namespace `ns`: first child
whose qualified tag is `qn ns n`; `none` embeds the AttributeError. -/
def Elem.fchild (e : Elem) (ns n : String) : Option Elem :=
  fchildL e.children (qn ns n)

/-- Functional counterpart of mutating the first child with tag `t` through
a live lxml reference: apply `f` to the first matching child, rebuild the
list; `none` when there is no matching child or `f` fails. -/
def modChildL : List Elem → String → (Elem → Option Elem) → Option (List Elem)
  | [], _, _ => none
  | c :: cs, t, f =>
    if c.tag = t then (f c).map (· :: cs)
    else (modChildL cs t f).map (c :: ·)

/-- Apply `f` to the first `ns`-namespaced child named `p` of `e`. -/
def modChildNamed (ns p : String) (f : Elem → Option Elem) (e : Elem) : Option Elem :=
  match modChildL e.children (qn ns p) f with
  | some cs => some { e with children := cs }
  | none => none

/-- Apply `f` at the end of a chain of objectify attribute accesses
(`e.p1.p2...pn`), rebuilding the tree along the chain. -/
def modSegs (ns : String) : List String → (Elem → Option Elem) → Elem → Option Elem
  | [], f, e => f e
  | p :: ps, f, e => modChildNamed ns p (modSegs ns ps f) e

/-- Follow a chain of objectify attribute accesses, the loop body of
`AkomaNtosoDocument.get_element` (cobalt/akn.py lines 113-118): `none` as
soon as a segment is absent. -/
def getElemSegs (ns : String) : List String → Elem → Option Elem
  | [], e => some e
  | p :: ps, e =>
    match e.fchild ns p with
    | some c => getElemSegs ns ps c
    | none => none

/-- `AkomaNtosoDocument.get_element(name, root)` (cobalt/akn.py lines
103-118): split the dotted path and follow each segment as a direct
named-child lookup, returning `none` if any segment is absent. -/
def get_element (ns name : String) (root : Elem) : Option Elem :=
  getElemSegs ns (name.splitOn ".") root

/- ----------------------------------------------------------------- -/
/- Namespace table and resolver (cobalt/akn.py lines 22-26, 79-86).   -/
/- ----------------------------------------------------------------- -/

def akn2uri : String := "http://www.akomantoso.org/2.0"

def akn3uri : String := "http://docs.oasis-open.org/legaldocml/ns/akn/3.0"

def AKN_NAMESPACES : List (String × String) :=
  [("2.0", akn2uri), ("3.0", akn3uri)]

def DEFAULT_VERSION : String := "3.0"

/-- Lexicographic order on code points, Python's string comparison. -/
def charsLeB : List Char → List Char → Bool
  | [], _ => true
  | _ :: _, [] => false
  | a :: as, b :: bs =>
    if a.toNat < b.toNat then true
    else if a.toNat = b.toNat then charsLeB as bs
    else false

/-- Insertion step of Python's `sorted(..., reverse=True)` over the
(version, uri) pairs: descending lexicographic order on the version key
(the keys of AKN_NAMESPACES are pairwise distinct). -/
def insertDescKey (p : String × String) : List (String × String) → List (String × String)
  | [] => [p]
  | q :: rest => if charsLeB q.1.data p.1.data then p :: q :: rest else q :: insertDescKey p rest

/-- Python's `sorted(list(AKN_NAMESPACES.items()), reverse=True)`. -/
def sortPairsDesc (l : List (String × String)) : List (String × String) :=
  l.foldr insertDescKey []

/-- Python's `', '.join(...)`. -/
def joinComma : List String → String
  | [] => ""
  | [x] => x
  | x :: y :: rest => x ++ ", " ++ joinComma (y :: rest)

/-- `AkomaNtosoDocument.get_namespace` (cobalt/akn.py lines 79-86): walk
the known namespace URIs in descending version order and return the first
one declared by the tree; otherwise a ValueError whose message lists the
known URIs and the URIs actually found.  `nss` embeds
`list(self.root.nsmap.values())`. -/
def get_namespace (nss : List String) : Except String String :=
  let akn_namespaces := (sortPairsDesc AKN_NAMESPACES).map (·.2)
  match akn_namespaces.find? (fun ns => nss.contains ns) with
  | some ns => Except.ok ns
  | none =>
    Except.error ("Expected to find one of the following Akoma Ntoso XML namespaces: "
      ++ joinComma akn_namespaces ++ ". Only these namespaces were found: " ++ joinComma nss)

/- ----------------------------------------------------------------- -/
/- Root validation: parse (cobalt/akn.py lines 64-74, 238-251).       -/
/- ----------------------------------------------------------------- -/

/-- The fault classes `parse` can raise: ValueError with its message, or
the IndexError from `tag.split(sep, 1)[1]` when the separator is absent. -/
inductive PErr where
  | valueError (msg : String)
  | indexError
deriving DecidableEq

/-- Python's `tag.split('\x7d', 1)[1]`: the text after the first closing
brace; `none` embeds the IndexError raised when the tag has no brace
(i.e. the element is not namespace-qualified). -/
def splitTag1 (t : String) : Option String :=
  if t.data.contains '\x7d' then
    some (String.mk (
      (t.data.dropWhile (fun c => decide (c ≠ '\x7d'))).tail))
  else none

/-- `AkomaNtosoDocument.parse` (cobalt/akn.py lines 64-74): check that the
root element's local name is akomaNtoso. -/
def baseParse (root : Elem) : Except PErr Elem :=
  match splitTag1 root.tag with
  | none => Except.error PErr.indexError
  | some name =>
    if name ≠ "akomaNtoso" then
      Except.error (PErr.valueError
        ("XML root element must be akomaNtoso, but got " ++ name ++ " instead"))
    else Except.ok root

/-- `StructuredDocument.parse` (cobalt/akn.py lines 238-251): base
validation, then at least one child, then the first child's local name
must equal the document type constant `dt`. -/
def structParse (dt : String) (root : Elem) : Except PErr Elem := do
  let r ← baseParse root
  if r.children.length < 1 then
    Except.error (PErr.valueError "XML root element must have at least one child")
  else
    match r.children.head? with
    | none => Except.error (PErr.valueError "XML root element must have at least one child")
    | some c =>
      match splitTag1 c.tag with
      | none => Except.error PErr.indexError
      | some name =>
        if name ≠ dt then
          Except.error (PErr.valueError
            ("Expected " ++ dt ++ " as first child of root element, but got " ++ name ++ " instead"))
        else Except.ok r

/-- Local name as the specification reads it: the part after the namespace
brace when the tag is qualified, the whole tag otherwise.  This follows
the spec's words (used to state claims about "the root element's local
name"); the code's own extraction is `splitTag1`. -/
def specLocalName (t : String) : String :=
  match splitTag1 t with
  | some n => n
  | none => t

/- ----------------------------------------------------------------- -/
/- datestring and date parsing (cobalt/akn.py lines 20, 29-35).       -/
/- ----------------------------------------------------------------- -/

/-- A date value with year/month/day components. -/
structure SimpleDate where
  year : Nat
  month : Nat
  day : Nat
deriving DecidableEq

/-- The three kinds of argument `datestring` distinguishes: None, a str,
and a date object. -/
inductive DateArg where
  | noneV
  | strV (s : String)
  | dateV (d : SimpleDate)
deriving DecidableEq

/-- Left-pad the decimal rendering of `n` with zeros to width `w`,
Python's %0wd. -/
def padNum (w n : Nat) : String :=
  let s := toString n
  String.mk (List.replicate (w - s.length) '0') ++ s

/-- `datestring` (cobalt/akn.py lines 29-35). -/
def datestring : DateArg → String
  | DateArg.noneV => ""
  | DateArg.strV s => s
  | DateArg.dateV d => padNum 4 d.year ++ "-" ++ padNum 2 d.month ++ "-" ++ padNum 2 d.day

/-- Split a character list at every occurrence of `c` (Python
`str.split(c)` over the characters). -/
def splitOnChar (c : Char) : List Char → List (List Char)
  | [] => [[]]
  | x :: xs =>
    match splitOnChar c xs with
    | [] => [[x]]
    | h :: t => if x = c then [] :: h :: t else (x :: h) :: t

/-- Join character lists with a separator character: the inverse of
`splitOnChar`. -/
def joinChar (c : Char) : List (List Char) → List Char
  | [] => []
  | [a] => a
  | a :: b :: rest => a ++ c :: joinChar c (b :: rest)

/-- Character-level prefix test (`str.startswith`). -/
def startsWithB : List Char → List Char → Bool
  | [], _ => true
  | _ :: _, [] => false
  | a :: p, b :: s2 => a = b && startsWithB p s2

/-- Decimal digits to a natural number. -/
def natOfDigits (l : List Char) : Nat :=
  l.foldl (fun a c => a * 10 + (c.toNat - 48)) 0

/-- Modelled from the spec: the external date-parsing collaborator
(`iso8601.parse_date(...).date()`, spec section 6), restricted to the
"ISO-8601-ish" calendar-date form YYYY-MM-DD the layer itself writes:
three dash-separated non-empty digit groups; `none` embeds a parse
exception. -/
def parse_date (s : String) : Option SimpleDate :=
  match splitOnChar '-' s.data with
  | [ys, ms, ds] =>
    if ys ≠ [] ∧ ms ≠ [] ∧ ds ≠ [] ∧ (ys ++ ms ++ ds).all (fun c => c.isDigit) then
      some ⟨natOfDigits ys, natOfDigits ms, natOfDigits ds⟩
    else none
  | _ => none

/- ----------------------------------------------------------------- -/
/- FrbrUri, modelled from the spec.                                   -/
/- ----------------------------------------------------------------- -/

/-- Modelled from the spec: the identifying-URI value type from
cobalt/uri.py, which is not under src/.  Spec section 2 and section 6: a
value object with named coordinate fields (jurisdiction/country, locality,
document-kind/doctype, subtype, date, number, work-component, language,
actor, scheme-prefix) and mutable coordinates for language,
expression-date, work-component and subtype.  The scheme prefix is kept as
the raw string the callers pass (`''` for the 2.0 form, `'akn'`
otherwise).  The expression date is kept with its leading `@` (the akn.py
setter itself writes `'@' + datestring(...)` into this field), with `""`
meaning absent. -/
structure FrbrUri where
  pfx : String
  country : String
  locality : Option String
  doctype : String
  subtype : Option String
  actor : Option String
  date : String
  number : String
  work_component : Option String
  language : String
  expression_date : String
deriving DecidableEq

namespace FrbrUri

/-- Modelled from the spec: the place coordinate, jurisdiction plus an
optional locality joined by a dash (spec section 3 "jurisdiction/place"). -/
def place (u : FrbrUri) : String :=
  u.country ++ (match u.locality with | some l => "-" ++ l | none => "")

/-- Modelled from the spec: the work-component suffix `/!name` appended to
a derived URI form when the component is requested and present. -/
def compSuffix (u : FrbrUri) (withComp : Bool) : String :=
  if withComp then
    match u.work_component with
    | some c => "/!" ++ c
    | none => ""
  else ""

/-- Modelled from the spec: the work-scope URI body — scheme prefix,
place, document kind, optional subtype, date, number (spec section 6; the
actor coordinate is carried but never serialized by this repository, whose
callers always pass actor=None). -/
def workUriBase (u : FrbrUri) : String :=
  (if u.pfx = "" then "" else "/" ++ u.pfx)
    ++ "/" ++ u.place ++ "/" ++ u.doctype
    ++ (match u.subtype with | some st => "/" ++ st | none => "")
    ++ "/" ++ u.date ++ "/" ++ u.number

/-- Modelled from the spec: the work-scope URI, optionally carrying the
work-component suffix. -/
def work_uri (u : FrbrUri) (withComp : Bool) : String :=
  u.workUriBase ++ u.compSuffix withComp

/-- Modelled from the spec: the expression-scope URI — the work URI body
followed by the language coordinate and the expression date, optionally
carrying the work-component suffix. -/
def expression_uri (u : FrbrUri) (withComp : Bool) : String :=
  u.workUriBase ++ "/" ++ u.language ++ u.expression_date ++ u.compSuffix withComp

/-- Modelled from the spec: the manifestation-scope URI; manifestation and
expression URIs are treated as textually identical by this layer (spec
section 4.5 step 5). -/
def manifestation_uri (u : FrbrUri) (withComp : Bool) : String :=
  u.expression_uri withComp

/-- Modelled from the spec: `FrbrUri.uri()` as akn.py line 355 uses it —
the work-scope URI without the work-component suffix. -/
def uri (u : FrbrUri) : String :=
  u.work_uri false

/-- Segments of a string split at every '/'. -/
def segsOf (s : String) : List String :=
  (splitOnChar '/' s.data).map String.mk

/-- Modelled from the spec: the scheme-prefix segment ("akn" when present). -/
def parsePfx (rest : List String) : String × List String :=
  match rest with
  | p :: r => if p = "akn" then ("akn", r) else ("", p :: r)
  | [] => ("", [])

/-- Modelled from the spec: the place segment, split at the first dash
into jurisdiction and locality. -/
def parsePlaceSeg (placeSeg : String) : String × Option String :=
  match splitOnChar '-' placeSeg.data with
  | c :: l :: ls => (String.mk c, some (String.mk (joinChar '-' (l :: ls))))
  | _ => (placeSeg, none)

/-- Modelled from the spec: the optional subtype segment, recognised by
not starting with a digit (the date segment always does). -/
def parseSubSeg (rest : List String) : Option String × List String :=
  match rest with
  | d :: r =>
    if d.data.head?.elim false (fun c => c.isDigit) then ((none : Option String), d :: r)
    else (some d, r)
  | [] => (none, [])

/-- Modelled from the spec: the expression segment `language[@date]`,
left alone when it is a `!component` segment. -/
def parseLangSeg (rest : List String) : String × String × List String :=
  match rest with
  | l :: r =>
    if l.data.head?.elim false (fun c => c = '!') then ("", "", l :: r)
    else
      match splitOnChar '@' l.data with
      | lang :: d :: ds =>
        (String.mk lang, String.mk ('@' :: joinChar '@' (d :: ds)), r)
      | _ => (l, "", r)
  | [] => ("", "", [])

/-- Modelled from the spec: the optional trailing `!component` segment. -/
def parseCompSeg (rest : List String) : Option String × List String :=
  match rest with
  | c :: r =>
    if c.data.head?.elim false (fun ch => ch = '!') then (some (String.mk c.data.tail), r)
    else ((none : Option String), c :: r)
  | [] => (none, [])

/-- Modelled from the spec: parsing an identifying URI from a string (spec
section 6 "parsing from a string").  Grammar, mirroring the derived
forms: `[/pfx]/place/doctype[/subtype]/date/number[/language[@expdate]][/!component]`,
where the date segment is recognised by its leading digit and the
component segment by its leading `!`. -/
def parse (s : String) : Option FrbrUri := do
  match segsOf s with
  | "" :: rest => do
    let (pfx, rest) := parsePfx rest
    match rest with
    | placeSeg :: doctypeSeg :: rest => do
      let (country, locality) := parsePlaceSeg placeSeg
      if placeSeg = "" ∨ doctypeSeg = "" then none
      else
        let (subtype, rest) := parseSubSeg rest
        match rest with
        | dateSeg :: numberSeg :: rest => do
          if ¬ dateSeg.data.head?.elim false (fun c => c.isDigit) then none
          else if numberSeg = "" then none
          else
            let (language, expression_date, rest) := parseLangSeg rest
            let (work_component, rest) := parseCompSeg rest
            match rest with
            | [] =>
              some { pfx := pfx, country := country, locality := locality,
                     doctype := doctypeSeg, subtype := subtype, actor := none,
                     date := dateSeg, number := numberSeg,
                     work_component := work_component,
                     language := language, expression_date := expression_date }
            | _ => none
        | _ => none
    | _ => none
  | _ => none

end FrbrUri

/- ----------------------------------------------------------------- -/
/- Index paths into the tree (functional image of live lxml refs).    -/
/- ----------------------------------------------------------------- -/

/-- Subtree at a child-index path. -/
def getAt : List Nat → Elem → Option Elem
  | [], e => some e
  | i :: p, e =>
    match e.children[i]? with
    | some c => getAt p c
    | none => none

/-- Functional update of the subtree at a child-index path. -/
def modifyAt : List Nat → (Elem → Option Elem) → Elem → Option Elem
  | [], f, e => f e
  | i :: p, f, e =>
    match e.children[i]? with
    | some c => (modifyAt p f c).map (fun c2 => { e with children := e.children.set i c2 })
    | none => none

/-- Two index paths lead into disjoint subtrees: they share a prefix and
then disagree. -/
def divergeB : List Nat → List Nat → Bool
  | i :: p, j :: q => if i = j then divergeB p q else true
  | _, _ => false

/-- Boolean prefix test on index paths. -/
def isPrefixB : List Nat → List Nat → Bool
  | [], _ => true
  | _ :: _, [] => false
  | i :: p, j :: q => i = j && isPrefixB p q

/-- Index of the first child with a given qualified tag. -/
def findIdxTag : List Elem → String → Option Nat
  | [], _ => none
  | c :: cs, t => if c.tag = t then some 0 else (findIdxTag cs t).map (· + 1)

/-- Index path resolved by a chain of objectify attribute accesses. -/
def resolveSegsPath (ns : String) : List String → Elem → Option (List Nat)
  | [], _ => some []
  | p :: ps, e =>
    match findIdxTag e.children (qn ns p) with
    | some i =>
      match e.children[i]? with
      | some c => (resolveSegsPath ns ps c).map (i :: ·)
      | none => none
    | none => none

/-- Insert `x` right after the first child with tag `t` (lxml `addnext`). -/
def insertAfterTag : List Elem → String → Elem → Option (List Elem)
  | [], _, _ => none
  | c :: cs, t, x => if c.tag = t then some (c :: x :: cs) else (insertAfterTag cs t x).map (c :: ·)

/-- Remove the first child with tag `t` (lxml `remove`); `none` embeds the
AttributeError of looking the child up when it is absent. -/
def removeFirstTag : List Elem → String → Option (List Elem)
  | [], _ => none
  | c :: cs, t => if c.tag = t then some cs else (removeFirstTag cs t).map (c :: ·)

/- All descendant paths of an element in document (preorder) order. -/
mutual
def allDescPaths : Elem → List (List Nat)
  | ⟨_, _, cs⟩ => descGo cs 0
def descGo : List Elem → Nat → List (List Nat)
  | [], _ => []
  | c :: cs, i => [i] :: ((allDescPaths c).map (i :: ·) ++ descGo cs (i + 1))
end

/-- `element.find('.//\x7bns\x7dmeta/\x7bns\x7didentification')` (cobalt/akn.py
line 353): the first identification element, in document order, whose
parent is a meta element somewhere beneath `e`. -/
def findMetaIdentPath (ns : String) (e : Elem) : Option (List Nat) :=
  (allDescPaths e).find? (fun p =>
    decide (2 ≤ p.length)
    && (match getAt p e with
        | some x => decide (x.tag = qn ns "identification")
        | none => false)
    && (match getAt p.dropLast e with
        | some x => decide (x.tag = qn ns "meta")
        | none => false))

/- ----------------------------------------------------------------- -/
/- Structured-document accessors (cobalt/akn.py lines 253-330).       -/
/- ----------------------------------------------------------------- -/

/-- Loop body of the `title` getter (cobalt/akn.py lines 271-280) over the
FRBRalias children of FRBRWork: an alias named "title" returns its value
immediately, otherwise the last alias value seen wins as fallback. -/
def titleLoop (ns : String) : List Elem → Option String → Option String
  | [], acc => acc
  | c :: rest, acc =>
    if c.tag = qn ns "FRBRalias" then
      if c.getAttr "name" = some "title" then c.getAttr "value"
      else titleLoop ns rest (c.getAttr "value")
    else titleLoop ns rest acc

/-- The `title` getter (cobalt/akn.py lines 271-280).  `none` covers both
a missing identification chain (AttributeError) and the absence of any
alias. -/
def title_get (ns dt : String) (root : Elem) : Option String :=
  match getElemSegs ns [dt, "meta", "identification", "FRBRWork"] root with
  | some w => titleLoop ns w.children none
  | none => none

/-- Overwrite the value attribute of the first title-named FRBRalias
child (`aliases[0].set('value', value)` over the xpath result). -/
def modTitleAlias (ns value : String) : List Elem → Option (List Elem)
  | [] => none
  | c :: cs =>
    if c.tag = qn ns "FRBRalias" && c.getAttr "name" = some "title" then
      some ((c.setAttr "value" value) :: cs)
    else (modTitleAlias ns value cs).map (c :: ·)

/-- The `title` setter applied inside FRBRWork (cobalt/akn.py lines
282-290): if an alias named "title" exists, overwrite its value; otherwise
`ensure_element` is called (its `after` argument
`...FRBRWork.FRBRuri` is evaluated first and must exist), which returns
the first existing FRBRalias child of any name when there is one — that
alias is then renamed to "title" — and only creates a fresh FRBRalias
right after FRBRuri when FRBRWork has no alias at all. -/
def setTitleInWork (ns : String) (value : String) (w : Elem) : Option Elem :=
  if w.children.any (fun c => c.tag = qn ns "FRBRalias" && c.getAttr "name" = some "title") then
    -- aliases[0].set('value', value): the first title-named alias, in document order
    (modTitleAlias ns value w.children).map (fun cs => { w with children := cs })
  else
    match fchildL w.children (qn ns "FRBRuri") with
    | none => none
    | some _ =>
      match modChildL w.children (qn ns "FRBRalias")
          (fun a => some ((a.setAttr "name" "title").setAttr "value" value)) with
      | some cs => some { w with children := cs }
      | none =>
        (insertAfterTag w.children (qn ns "FRBRuri")
          (Elem.mk (qn ns "FRBRalias") [("name", "title"), ("value", value)] [])).map
          (fun cs => { w with children := cs })

/-- The `title` setter (cobalt/akn.py lines 282-290). -/
def set_title (ns dt : String) (root : Elem) (value : String) : Option Elem :=
  modSegs ns [dt, "meta", "identification", "FRBRWork"] (setTitleInWork ns value) root

/-- The `work_date` setter (cobalt/akn.py lines 297-299). -/
def set_work_date (ns dt : String) (root : Elem) (v : DateArg) : Option Elem :=
  modSegs ns [dt, "meta", "identification", "FRBRWork", "FRBRdate"]
    (fun e => some (e.setAttr "date" (datestring v))) root

/-- The `manifestation_date` setter (cobalt/akn.py lines 317-319). -/
def set_manifestation_date (ns dt : String) (root : Elem) (v : DateArg) : Option Elem :=
  modSegs ns [dt, "meta", "identification", "FRBRManifestation", "FRBRdate"]
    (fun e => some (e.setAttr "date" (datestring v))) root

/-- The `language` getter (cobalt/akn.py lines 321-324): the `language`
attribute of FRBRlanguage, defaulting to "eng" when the attribute is
absent; `none` embeds the AttributeError of a missing element chain. -/
def language_get (ns dt : String) (root : Elem) : Option String :=
  (getElemSegs ns [dt, "meta", "identification", "FRBRExpression", "FRBRlanguage"] root).map
    (fun e => (e.getAttr "language").getD "eng")

/-- The `expression_date` getter (cobalt/akn.py lines 301-304):
`parse_date` of the `date` attribute of the Expression FRBRdate. -/
def expression_date_get (ns dt : String) (root : Elem) : Option SimpleDate :=
  ((getElemSegs ns [dt, "meta", "identification", "FRBRExpression", "FRBRdate"] root).bind
    (fun e => e.getAttr "date")).bind parse_date

/-- The `frbr_uri` getter (cobalt/akn.py lines 332-337): parse the
Manifestation FRBRuri value; `none` when the attribute is absent or the
empty string (Python falsiness) or unparseable. -/
def frbr_uri_get (ns dt : String) (root : Elem) : Option FrbrUri :=
  match (getElemSegs ns [dt, "meta", "identification", "FRBRManifestation", "FRBRuri"] root).bind
      (fun e => e.getAttr "value") with
  | some v => if v = "" then none else FrbrUri.parse v
  | none => none

/-- The `main_content` accessor (cobalt/akn.py lines 259-263). -/
def main_content_get (ns dt mct : String) (root : Elem) : Option Elem :=
  (root.fchild ns dt).bind (fun m => m.fchild ns mct)

/- ----------------------------------------------------------------- -/
/- Component discovery (cobalt/akn.py lines 383-397).                 -/
/- ----------------------------------------------------------------- -/

/-- Sequence a list of optional values. -/
def seqOpt {α : Type} : List (Option α) → Option (List α)
  | [] => some []
  | none :: _ => none
  | some a :: rest => (seqOpt rest).map (a :: ·)

/-- The `attachment`/`component` inner tag matching an outer
`attachments`/`components` container tag, from the xpath
`./a:attachments/a:attachment/a:*/a:meta | ./a:components/a:component/a:*/a:meta`. -/
def innerTag (ns t : String) : Option String :=
  if t = qn ns "attachments" then some (qn ns "attachment")
  else if t = qn ns "components" then some (qn ns "component")
  else none

/-- Metas matched by the components xpath under the main element, with the
index path (relative to main) of the component element the meta belongs
to (`meta.getparent()`), in document order. -/
def compMetas (ns : String) (mainE : Elem) : List (List Nat × Elem) :=
  mainE.children.enum.flatMap (fun ia =>
    match innerTag ns ia.2.tag with
    | none => []
    | some inner =>
      ia.2.children.enum.flatMap (fun ib =>
        if ib.2.tag = inner then
          ib.2.children.enum.flatMap (fun ic =>
            if startsWithB ("\x7b" ++ ns ++ "\x7d").data ic.2.tag.data then
              ic.2.children.flatMap (fun m =>
                if m.tag = qn ns "meta" then [([ia.1, ib.1, ic.1], m)] else [])
            else [])
        else []))

/-- OrderedDict insertion: replacing the value of an existing key keeps
its position, a new key is appended. -/
def ordInsert (l : List (Option String × List Nat)) (k : Option String) (v : List Nat) :
    List (Option String × List Nat) :=
  if l.any (fun e => e.1 = k) then l.map (fun e => if e.1 = k then (k, v) else e)
  else l ++ [(k, v)]

/-- `StructuredDocument.components` (cobalt/akn.py lines 383-397), with
each component's element rendered as its index path from the root: the
main element keyed by the work component of its Work FRBRthis URI, then
every attachment/component meta in document order.  `none` embeds a
failed lookup or URI parse. -/
def componentEntries (ns dt : String) (root : Elem) : Option (List (Option String × List Nat)) := do
  let i0 ← findIdxTag root.children (qn ns dt)
  let mainE ← root.children[i0]?
  let tv ← (getElemSegs ns ["meta", "identification", "FRBRWork", "FRBRthis"] mainE).bind
    (fun e => e.getAttr "value")
  let u ← FrbrUri.parse tv
  let entries ← seqOpt ((compMetas ns mainE).map (fun pm => do
    let tv2 ← (getElemSegs ns ["identification", "FRBRWork", "FRBRthis"] pm.2).bind
      (fun e => e.getAttr "value")
    let u2 ← FrbrUri.parse tv2
    return (u2.work_component, i0 :: pm.1)))
  return entries.foldl (fun acc e => ordInsert acc e.1 e.2) [(u.work_component, [i0])]

/- ----------------------------------------------------------------- -/
/- The frbr_uri setter (cobalt/akn.py lines 339-373).                 -/
/- ----------------------------------------------------------------- -/

/-- The in-place `elem.set('value', v)` call. -/
def setVal (v : String) (x : Elem) : Option Elem :=
  some (x.setAttr "value" v)

/-- The `ensure_element(el, at=blk, after=blkAfter).set('value', v)` step
of the setter's loop: write the value on the first `el` child, creating
it right after the first `after` child when absent. -/
def ensureSetVal (ns el after v : String) (w : Elem) : Option Elem :=
  match fchildL w.children (qn ns el) with
  | some _ => modChildNamed ns el (setVal v) w
  | none =>
    (insertAfterTag w.children (qn ns after)
      (Elem.mk (qn ns el) [("value", v)] [])).map
      (fun cs => { w with children := cs })

/-- Rewrite of one component's identification block, the body of the
setter's loop (cobalt/akn.py lines 355-373), with `u` already carrying
this component's work-component name. -/
def updateIdent (ns : String) (u : FrbrUri) (ident : Elem) : Option Elem := do
  let s1 ← modChildNamed ns "FRBRWork"
    (modChildNamed ns "FRBRuri" (setVal u.uri)) ident
  let s2 ← modChildNamed ns "FRBRWork"
    (modChildNamed ns "FRBRthis" (setVal (u.work_uri true))) s1
  let s3 ← modChildNamed ns "FRBRWork"
    (modChildNamed ns "FRBRcountry" (setVal u.place)) s2
  let s4 ← modChildNamed ns "FRBRWork" (ensureSetVal ns "FRBRnumber" "FRBRcountry" u.number) s3
  let s5 ← (match u.subtype with
    | some st =>
      modChildNamed ns "FRBRWork" (ensureSetVal ns "FRBRsubtype" "FRBRcountry" st) s4
    | none =>
      -- try: FRBRWork.remove(FRBRWork.FRBRsubtype) except AttributeError: pass
      some ((modChildNamed ns "FRBRWork" (fun w =>
        (removeFirstTag w.children (qn ns "FRBRsubtype")).map
          (fun cs => { w with children := cs })) s4).getD s4))
  let s6 ← modChildNamed ns "FRBRExpression"
    (modChildNamed ns "FRBRuri" (setVal (u.expression_uri false))) s5
  let s7 ← modChildNamed ns "FRBRExpression"
    (modChildNamed ns "FRBRthis" (setVal (u.expression_uri true))) s6
  let s8 ← modChildNamed ns "FRBRManifestation"
    (modChildNamed ns "FRBRuri" (setVal (u.expression_uri false))) s7
  modChildNamed ns "FRBRManifestation"
    (modChildNamed ns "FRBRthis" (setVal (u.expression_uri true))) s8

/-- Well-formedness of an identification block: the three FRBR blocks
are present with the children the setter's loop writes to. -/
def identWFb (ns : String) (ident : Elem) : Bool :=
  (match ident.fchild ns "FRBRWork" with
   | some w => (w.fchild ns "FRBRuri").isSome && (w.fchild ns "FRBRthis").isSome
       && (w.fchild ns "FRBRcountry").isSome
   | none => false)
  && (match ident.fchild ns "FRBRExpression" with
      | some x => (x.fchild ns "FRBRuri").isSome && (x.fchild ns "FRBRthis").isSome
      | none => false)
  && (match ident.fchild ns "FRBRManifestation" with
      | some m => (m.fchild ns "FRBRuri").isSome && (m.fchild ns "FRBRthis").isSome
      | none => false)

/-- Value attribute of `ident.blk.el`. -/
def readIdentVal (ns blk el : String) (ident : Elem) : Option String :=
  ((ident.fchild ns blk).bind (fun b => b.fchild ns el)).bind
    (fun x => Elem.getAttr x "value")

/-- The eight URI strings the setter's loop leaves on an identification
block for the `FrbrUri` value `u`: both Manifestation strings carry the
expression-scoped forms. -/
def identSet (ns : String) (u : FrbrUri) (ident : Elem) : Prop :=
  readIdentVal ns "FRBRWork" "FRBRuri" ident = some u.uri
  ∧ readIdentVal ns "FRBRWork" "FRBRthis" ident = some (u.work_uri true)
  ∧ readIdentVal ns "FRBRWork" "FRBRcountry" ident = some u.place
  ∧ readIdentVal ns "FRBRWork" "FRBRnumber" ident = some u.number
  ∧ readIdentVal ns "FRBRExpression" "FRBRuri" ident = some (u.expression_uri false)
  ∧ readIdentVal ns "FRBRExpression" "FRBRthis" ident = some (u.expression_uri true)
  ∧ readIdentVal ns "FRBRManifestation" "FRBRuri" ident = some (u.expression_uri false)
  ∧ readIdentVal ns "FRBRManifestation" "FRBRthis" ident = some (u.expression_uri true)

/-- Head of the setter (cobalt/akn.py lines 339-348): overwrite the
incoming value's language with the document's language, its expression
date with `'@' + datestring(expression_date)`, and default its work
component to "main". -/
def syncPrelude (ns dt : String) (root : Elem) (u0 : FrbrUri) : Option FrbrUri := do
  let langEl ← getElemSegs ns [dt, "meta", "identification", "FRBRExpression", "FRBRlanguage"] root
  let lang := (langEl.getAttr "language").getD "eng"
  let ed ← expression_date_get ns dt root
  let u1 := { u0 with language := lang,
                      expression_date := "@" ++ datestring (DateArg.dateV ed) }
  return if u1.work_component = none then { u1 with work_component := some "main" } else u1

/-- One iteration of the setter's component loop (cobalt/akn.py lines
351-373): point the URI at this component's name, locate the component's
identification block, rewrite it in place.  Python works through live
element references; since the loop only rewrites inside identification
blocks, the recorded index path of each component element stays valid and
the functional update at that path is the image of the in-place one. -/
def syncStep (ns : String) (acc : Elem × FrbrUri) (entry : Option String × List Nat) :
    Option (Elem × FrbrUri) := do
  let u2 := { acc.2 with work_component := entry.1 }
  let comp ← getAt entry.2 acc.1
  let rel ← findMetaIdentPath ns comp
  let root2 ← modifyAt (entry.2 ++ rel) (updateIdent ns u2) acc.1
  return (root2, u2)

/-- The setter's component loop. -/
def syncFold (ns : String) : List (Option String × List Nat) → Elem × FrbrUri → Option (Elem × FrbrUri)
  | [], acc => some acc
  | e :: rest, acc => (syncStep ns acc e).bind (syncFold ns rest)

/-- The `frbr_uri` setter (cobalt/akn.py lines 339-373) applied to an
`FrbrUri` argument.  The returned `FrbrUri` is the final state of the
caller's (mutated in place) argument object. -/
def set_frbr_uri (ns dt : String) (root : Elem) (u0 : FrbrUri) : Option (Elem × FrbrUri) := do
  let u1 ← syncPrelude ns dt root u0
  let comps ← componentEntries ns dt root
  syncFold ns comps (root, u1)

/-- `self.frbr_uri = self.frbr_uri` (cobalt/akn.py lines 310, 330): read
the manifestation URI back and run the full synchronization. -/
def resyncSelf (ns dt : String) (root : Elem) : Option (Elem × FrbrUri) := do
  let u ← frbr_uri_get ns dt root
  set_frbr_uri ns dt root u

/-- The `language` setter (cobalt/akn.py lines 326-330).  Python mutates
the tree in place, so when the resynchronization fails the `language`
attribute has still been written; the Bool records whether the
resynchronization succeeded, and the returned tree is the state the
caller observes either way. -/
def set_language (ns dt : String) (root : Elem) (value : String) : Option (Elem × Bool) := do
  let r1 ← modSegs ns [dt, "meta", "identification", "FRBRExpression", "FRBRlanguage"]
    (fun e => some (e.setAttr "language" value)) root
  match resyncSelf ns dt r1 with
  | some (r2, _) => some (r2, true)
  | none => some (r1, false)

/-- The `expression_date` setter (cobalt/akn.py lines 306-310), with the
same failure convention as `set_language`. -/
def set_expression_date (ns dt : String) (root : Elem) (v : DateArg) : Option (Elem × Bool) := do
  let r1 ← modSegs ns [dt, "meta", "identification", "FRBRExpression", "FRBRdate"]
    (fun e => some (e.setAttr "date" (datestring v))) root
  match resyncSelf ns dt r1 with
  | some (r2, _) => some (r2, true)
  | none => some (r1, false)

/- ----------------------------------------------------------------- -/
/- Lifecycle and reference metadata (cobalt/akn.py lines 399-422).    -/
/- ----------------------------------------------------------------- -/

/-- The reference predicate of `_ensure_reference`: a TLCOrganization with
eId "cobalt" (`references.find('./\x7bns\x7dTLCOrganization[@eId="cobalt"]')`). -/
def isCobaltOrg (ns : String) (c : Elem) : Bool :=
  c.tag = qn ns "TLCOrganization" && c.getAttr "eId" = some "cobalt"

/-- The reference element `_ensure_reference` creates for the cobalt
source tuple (cobalt/akn.py lines 62, 416-420). -/
def cobaltOrgElem (ns : String) : Elem :=
  Elem.mk (qn ns "TLCOrganization")
    [("eId", "cobalt"), ("href", "https://github.com/laws-africa/cobalt"),
     ("showAs", "cobalt")] []

/-- The `_ensure_reference` update of the references block: reuse a
matching reference if one exists, else insert the new reference at the
front. -/
def ensureOrgInRefs (ns : String) (refs : Elem) : Option Elem :=
  if refs.children.any (isCobaltOrg ns) then some refs
  else some { refs with children := cobaltOrgElem ns :: refs.children }

/-- `_ensure_reference('TLCOrganization', 'cobalt', 'cobalt', url)`
(cobalt/akn.py lines 412-422) as called from `_ensure_lifecycle`: by this
point the lifecycle block exists and its source attribute is set, so the
recursive `_ensure_lifecycle()` call inside it returns that block without
further mutation and is embedded as the block's lookup.  Ensures the
references block (created right after the lifecycle block when absent)
and, when no TLCOrganization with eId "cobalt" exists in it, prepends
one. -/
def ensureReferenceAfterLifecycle (ns dt : String) (root : Elem) : Option Elem :=
  modSegs ns [dt, "meta"] (fun metaEl => do
    let cs1 ← (match fchildL metaEl.children (qn ns "references") with
      | some _ => some metaEl.children
      | none => insertAfterTag metaEl.children (qn ns "lifecycle")
          (Elem.mk (qn ns "references") [] []))
    let cs2 ← modChildL cs1 (qn ns "references") (ensureOrgInRefs ns)
    return { metaEl with children := cs2 }) root

/-- `_ensure_lifecycle` (cobalt/akn.py lines 399-410): pick the insertion
anchor (publication, else identification — both absent is an unhandled
AttributeError), find or create the lifecycle block right after the
anchor, and on first creation (or an existing block without a source)
set its source attribute and ensure the cobalt organization reference.
Returns the updated tree together with the block the method returns. -/
def ensure_lifecycle (ns dt : String) (root : Elem) : Option (Elem × Elem) := do
  let metaEl ← getElemSegs ns [dt, "meta"] root
  let afterT ← (match metaEl.fchild ns "publication" with
    | some _ => some (qn ns "publication")
    | none => (metaEl.fchild ns "identification").map (fun _ => qn ns "identification"))
  match getElemSegs ns [dt, "meta", "lifecycle"] root with
  | some node =>
    if node.getAttr "source" = none then do
      let root2 ← modSegs ns [dt, "meta", "lifecycle"]
        (fun n => some (n.setAttr "source" "#cobalt")) root
      let root3 ← ensureReferenceAfterLifecycle ns dt root2
      let node2 ← getElemSegs ns [dt, "meta", "lifecycle"] root3
      return (root3, node2)
    else return (root, node)
  | none => do
    let root1 ← modSegs ns [dt, "meta"] (fun m =>
      (insertAfterTag m.children afterT (Elem.mk (qn ns "lifecycle") [] [])).map
        (fun cs => { m with children := cs })) root
    let root2 ← modSegs ns [dt, "meta", "lifecycle"]
      (fun n => some (n.setAttr "source" "#cobalt")) root1
    let root3 ← ensureReferenceAfterLifecycle ns dt root2
    let node2 ← getElemSegs ns [dt, "meta", "lifecycle"] root3
    return (root3, node2)

/- ----------------------------------------------------------------- -/
/- The collection document type (cobalt/collection.py) and the empty   -/
/- document skeleton (cobalt/akn.py lines 156-222).                   -/
/- ----------------------------------------------------------------- -/

namespace Collection

def structure_type : String := "collectionStructure"

def main_content_tag : String := "collectionBody"

def document_type : String := "collection"

end Collection

/-- Dictionary lookup `AKN_NAMESPACES[version]`; `none` embeds the
KeyError for an unsupported version. -/
def lookupVersion (version : String) : Option String :=
  (AKN_NAMESPACES.find? (fun p => p.1 = version)).map (fun p => p.2)

/-- The FrbrUri built by `empty_document` (cobalt/akn.py lines 161-172). -/
def emptyDocUri (dt today version : String) : FrbrUri :=
  { pfx := if version = "2.0" then "" else "akn",
    country := "za", locality := none, doctype := dt, subtype := none,
    actor := none, date := today, number := "1",
    work_component := some "main", language := "eng",
    expression_date := "" }

/-- `StructuredDocument.empty_document` (cobalt/akn.py lines 156-222),
rendered directly as the element tree the XML string parses to, for a
document type with constants `dt`/`mct` (the `empty_document_content` and
`empty_document_attrs` hooks in their base forms). -/
def empty_document (dt mct version today : String) : Option Elem :=
  match lookupVersion version with
  | none => none
  | some ns =>
    let u := emptyDocUri dt today version
    some (Elem.mk (qn ns "akomaNtoso") [] [
      Elem.mk (qn ns dt) [("name", dt.toLower)] [
        Elem.mk (qn ns "meta") [] [
          Elem.mk (qn ns "identification") [("source", "#cobalt")] [
            Elem.mk (qn ns "FRBRWork") [] [
              Elem.mk (qn ns "FRBRthis") [("value", u.work_uri true)] [],
              Elem.mk (qn ns "FRBRuri") [("value", u.work_uri false)] [],
              Elem.mk (qn ns "FRBRalias") [("value", "Untitled"), ("name", "title")] [],
              Elem.mk (qn ns "FRBRdate") [("date", today), ("name", "Generation")] [],
              Elem.mk (qn ns "FRBRauthor") [("href", "")] [],
              Elem.mk (qn ns "FRBRcountry") [("value", u.place)] [],
              Elem.mk (qn ns "FRBRnumber") [("value", u.number)] []],
            Elem.mk (qn ns "FRBRExpression") [] [
              Elem.mk (qn ns "FRBRthis") [("value", u.expression_uri true)] [],
              Elem.mk (qn ns "FRBRuri") [("value", u.expression_uri false)] [],
              Elem.mk (qn ns "FRBRdate") [("date", today), ("name", "Generation")] [],
              Elem.mk (qn ns "FRBRauthor") [("href", "")] [],
              Elem.mk (qn ns "FRBRlanguage") [("language", u.language)] []],
            Elem.mk (qn ns "FRBRManifestation") [] [
              Elem.mk (qn ns "FRBRthis") [("value", u.manifestation_uri true)] [],
              Elem.mk (qn ns "FRBRuri") [("value", u.manifestation_uri false)] [],
              Elem.mk (qn ns "FRBRdate") [("date", today), ("name", "Generation")] [],
              Elem.mk (qn ns "FRBRauthor") [("href", "")] []]],
          Elem.mk (qn ns "references") [("source", "#cobalt")] [
            Elem.mk (qn ns "TLCOrganization")
              [("eId", "cobalt"), ("href", "https://github.com/laws-africa/cobalt"),
               ("showAs", "cobalt")] []]],
        Elem.mk (qn ns mct) [] []]])

/- =================================================================== -/
/- Basic lemmas about the embedded tree operations.                     -/
/- =================================================================== -/

theorem getAttrL_setAttrL_same (l : List (String × String)) (a v : String) :
    getAttrL (setAttrL l a v) a = some v := by
  induction l with
  | nil => simp [setAttrL, getAttrL]
  | cons kw t ih =>
    obtain ⟨k, w⟩ := kw
    by_cases hk : k = a
    · simp [setAttrL, hk, getAttrL]
    · simp [setAttrL, hk, getAttrL, ih]

theorem getAttrL_setAttrL_ne (l : List (String × String)) (a b v : String) (h : b ≠ a) :
    getAttrL (setAttrL l a v) b = getAttrL l b := by
  induction l with
  | nil => simp [setAttrL, getAttrL, Ne.symm h]
  | cons kw t ih =>
    obtain ⟨k, w⟩ := kw
    by_cases hk : k = a
    · subst hk
      simp [setAttrL, getAttrL, Ne.symm h]
    · by_cases hkb : k = b
      · subst hkb
        simp [setAttrL, hk, getAttrL]
      · simp [setAttrL, hk, getAttrL, hkb, ih]

theorem Elem.getAttr_setAttr_same (e : Elem) (a v : String) :
    (e.setAttr a v).getAttr a = some v :=
  getAttrL_setAttrL_same e.attrs a v

theorem Elem.getAttr_setAttr_ne (e : Elem) (a b v : String) (h : b ≠ a) :
    (e.setAttr a v).getAttr b = e.getAttr b :=
  getAttrL_setAttrL_ne e.attrs a b v h

theorem Elem.tag_setAttr (e : Elem) (a v : String) : (e.setAttr a v).tag = e.tag := rfl

theorem Elem.children_setAttr (e : Elem) (a v : String) :
    (e.setAttr a v).children = e.children := rfl

/-- Injectivity of the qualified-name spelling in the local name. -/
theorem qn_inj_name {ns a b : String} (h : qn ns a = qn ns b) : a = b := by
  have hd : (qn ns a).data = (qn ns b).data := by rw [h]
  simp only [qn, String.data_append] at hd
  have := List.append_cancel_left hd
  cases a; cases b; simp_all

theorem qn_ne_name {ns a b : String} (h : a ≠ b) : qn ns a ≠ qn ns b :=
  fun hab => h (qn_inj_name hab)

/- =================================================================== -/
/- C8: get_element follows dotted-path segments, never raises.          -/
/- =================================================================== -/

/-- The specification's reading of dotted-path lookup: follow each path
segment as a direct named-child lookup from the starting element. -/
inductive ReachesBy (ns : String) : Elem → List String → Elem → Prop where
  | nil : ∀ e, ReachesBy ns e [] e
  | step : ∀ e c r p ps, e.fchild ns p = some c → ReachesBy ns c ps r →
      ReachesBy ns e (p :: ps) r

theorem getElemSegs_some_iff (ns : String) (segs : List String) :
    ∀ (root r : Elem), getElemSegs ns segs root = some r ↔ ReachesBy ns root segs r := by
  induction segs with
  | nil =>
    intro root r
    constructor
    · intro h
      simp only [getElemSegs, Option.some.injEq] at h
      exact h ▸ ReachesBy.nil root
    · intro h
      cases h
      rfl
  | cons p ps ih =>
    intro root r
    constructor
    · intro h
      simp only [getElemSegs] at h
      cases hc : root.fchild ns p with
      | none => rw [hc] at h; exact absurd h (by simp)
      | some c =>
        rw [hc] at h
        exact ReachesBy.step root c r p ps hc ((ih c r).1 h)
    · intro h
      cases h with
      | step _ c _ _ _ hc hr =>
        simp only [getElemSegs, hc]
        exact (ih c r).2 hr

/-- C8: for every dotted path and every starting element, `get_element`
returns exactly the element reached by following each path segment as a
direct named-child lookup, and returns the `none` sentinel exactly when no
element is so reachable (it is a total function: absence never raises). -/
theorem c8_get_element_follows_segments (ns name : String) (root : Elem) :
    (∀ r, get_element ns name root = some r ↔ ReachesBy ns root (name.splitOn ".") r)
    ∧ (get_element ns name root = none ↔
        ∀ r, ¬ ReachesBy ns root (name.splitOn ".") r) := by
  constructor
  · intro r
    exact getElemSegs_some_iff ns (name.splitOn ".") root r
  · constructor
    · intro h r hr
      have := (getElemSegs_some_iff ns (name.splitOn ".") root r).2 hr
      rw [get_element] at h
      rw [h] at this
      exact absurd this (by simp)
    · intro h
      cases hg : get_element ns name root with
      | none => rfl
      | some r =>
        exact absurd ((getElemSegs_some_iff ns (name.splitOn ".") root r).1 hg) (h r)

/-- Witness for C8 at a concrete input: the Work URI element of the empty
collection document is reached by the segments of the dotted path. -/
theorem c8_witness :
    (∀ r, get_element akn3uri "meta.identification"
        (Elem.mk (qn akn3uri "x") []
          [Elem.mk (qn akn3uri "meta") [] [Elem.mk (qn akn3uri "identification") [] []]])
        = some r ↔
      ReachesBy akn3uri
        (Elem.mk (qn akn3uri "x") []
          [Elem.mk (qn akn3uri "meta") [] [Elem.mk (qn akn3uri "identification") [] []]])
        ("meta.identification".splitOn ".") r)
    ∧ (get_element akn3uri "meta.identification"
        (Elem.mk (qn akn3uri "x") []
          [Elem.mk (qn akn3uri "meta") [] [Elem.mk (qn akn3uri "identification") [] []]])
        = none ↔
      ∀ r, ¬ ReachesBy akn3uri
        (Elem.mk (qn akn3uri "x") []
          [Elem.mk (qn akn3uri "meta") [] [Elem.mk (qn akn3uri "identification") [] []]])
        ("meta.identification".splitOn ".") r) :=
  c8_get_element_follows_segments akn3uri "meta.identification"
    (Elem.mk (qn akn3uri "x") []
      [Elem.mk (qn akn3uri "meta") [] [Elem.mk (qn akn3uri "identification") [] []]])

/- =================================================================== -/
/- C4: namespace resolution.                                            -/
/- =================================================================== -/

theorem joinComma_mem (l : List String) (u : String) (h : u ∈ l) :
    ∃ p q, joinComma l = p ++ u ++ q := by
  induction l with
  | nil => cases h
  | cons x rest ih =>
    cases rest with
    | nil =>
      simp only [List.mem_singleton] at h
      exact ⟨"", "", by simp [joinComma, h]⟩
    | cons y t =>
      rcases List.mem_cons.1 h with h1 | h2
      · exact ⟨"", ", " ++ joinComma (y :: t), by
          simp [joinComma, h1, String.append_assoc]⟩
      · obtain ⟨p, q, hpq⟩ := ih h2
        exact ⟨x ++ ", " ++ p, q, by
          simp [joinComma, hpq, String.append_assoc]⟩

theorem get_namespace_eq (nss : List String) :
    get_namespace nss =
      (if akn3uri ∈ nss then Except.ok akn3uri
       else if akn2uri ∈ nss then Except.ok akn2uri
       else Except.error
        ("Expected to find one of the following Akoma Ntoso XML namespaces: "
          ++ joinComma [akn3uri, akn2uri]
          ++ ". Only these namespaces were found: " ++ joinComma nss)) := by
  have hs : (sortPairsDesc AKN_NAMESPACES).map (fun p => p.2) = [akn3uri, akn2uri] := by
    decide
  simp only [get_namespace, hs, List.find?]
  by_cases h3 : akn3uri ∈ nss
  · simp [h3]
  · by_cases h2 : akn2uri ∈ nss <;>
      simp [h3, h2]

/-- C4: namespace resolution returns the known namespace URI with the
highest version label among those declared (a tree declaring the 3.0
namespace, in particular one declaring both, resolves to the 3.0 URI; a
tree declaring only the 2.0 one resolves to it); when no known namespace
is declared it fails with a ValueError whose message names both known
namespace URIs and every namespace URI actually found. -/
theorem c4_get_namespace (nss : List String) :
    (akn3uri ∈ nss → get_namespace nss = Except.ok akn3uri)
    ∧ (akn3uri ∉ nss → akn2uri ∈ nss →
        get_namespace nss = Except.ok akn2uri)
    ∧ (akn3uri ∉ nss → akn2uri ∉ nss →
        ∃ msg, get_namespace nss = Except.error msg
          ∧ (∃ p q, msg = p ++ akn3uri ++ q)
          ∧ (∃ p q, msg = p ++ akn2uri ++ q)
          ∧ (∀ u ∈ nss, ∃ p q, msg = p ++ u ++ q)) := by
  refine ⟨fun h3 => ?_, fun h3 h2 => ?_, fun h3 h2 => ?_⟩
  · simp [get_namespace_eq, h3]
  · simp [get_namespace_eq, h3, h2]
  · refine ⟨"Expected to find one of the following Akoma Ntoso XML namespaces: "
        ++ joinComma [akn3uri, akn2uri] ++ ". Only these namespaces were found: "
        ++ joinComma nss,
      by simp [get_namespace_eq, h3, h2], ?_, ?_, ?_⟩
    · obtain ⟨p, q, hpq⟩ := joinComma_mem [akn3uri, akn2uri] akn3uri (by simp)
      exact ⟨"Expected to find one of the following Akoma Ntoso XML namespaces: " ++ p,
        q ++ ". Only these namespaces were found: " ++ joinComma nss, by
          rw [hpq]; simp [String.append_assoc]⟩
    · obtain ⟨p, q, hpq⟩ := joinComma_mem [akn3uri, akn2uri] akn2uri (by simp)
      exact ⟨"Expected to find one of the following Akoma Ntoso XML namespaces: " ++ p,
        q ++ ". Only these namespaces were found: " ++ joinComma nss, by
          rw [hpq]; simp [String.append_assoc]⟩
    · intro u hu
      obtain ⟨p, q, hpq⟩ := joinComma_mem nss u hu
      exact ⟨"Expected to find one of the following Akoma Ntoso XML namespaces: "
          ++ joinComma [akn3uri, akn2uri] ++ ". Only these namespaces were found: " ++ p,
        q, by rw [hpq]; simp [String.append_assoc]⟩

/-- Witness for C4 at concrete inputs: a namespace list declaring both
known URIs resolves to the 3.0 one, and one declaring neither fails with
a message naming all four URIs involved. -/
theorem c4_witness :
    (akn3uri ∈ [akn2uri, akn3uri] →
      get_namespace [akn2uri, akn3uri] = Except.ok akn3uri)
    ∧ (akn3uri ∉ ["ns-a", "ns-b"] →
        akn2uri ∉ ["ns-a", "ns-b"] →
        ∃ msg, get_namespace ["ns-a", "ns-b"] = Except.error msg
          ∧ (∃ p q, msg = p ++ akn3uri ++ q)
          ∧ (∃ p q, msg = p ++ akn2uri ++ q)
          ∧ (∀ u ∈ ["ns-a", "ns-b"], ∃ p q, msg = p ++ u ++ q)) :=
  ⟨(c4_get_namespace [akn2uri, akn3uri]).1,
   (c4_get_namespace ["ns-a", "ns-b"]).2.2⟩

/- =================================================================== -/
/- C5: structured-document parse validation.                            -/
/- =================================================================== -/

/-- A well-formed XML tree whose root element carries no namespace: its
local name is its whole tag.  `objectify.fromstring` accepts such input,
so `StructuredDocument.parse` can receive it. -/
def c5root : Elem :=
  Elem.mk "akomaNtoso" [] [Elem.mk (qn akn3uri Collection.document_type) [] []]

/-- C5 counterexample: on a root whose local name is "akomaNtoso", which
has a child, and whose first child's local name equals the document type,
the claim says parse returns the root; instead, because the root tag
carries no namespace brace, `tag.split('\x7d', 1)[1]` raises an
IndexError — neither a ValidationError-class condition nor a successful
return. -/
theorem c5_counterexample :
    specLocalName c5root.tag = "akomaNtoso"
    ∧ c5root.children.head? = some (Elem.mk (qn akn3uri Collection.document_type) [] [])
    ∧ specLocalName (Elem.mk (qn akn3uri Collection.document_type) [] []).tag
        = Collection.document_type
    ∧ structParse Collection.document_type c5root = Except.error PErr.indexError := by
  refine ⟨by decide, rfl, by decide, rfl⟩

/-- C5 (amended): provided the root element's tag is namespace-qualified
(so the code's local-name extraction does not itself fault), parse fails
with a ValueError naming the actual tag found exactly when the root's
local name is not "akomaNtoso"; otherwise it fails when the root has no
children; otherwise, for a namespace-qualified first child, it fails
naming the actual tag when the first child's local name differs from the
document type constant, and returns the root element when it matches. -/
theorem c5_struct_parse (dt : String) (root : Elem) (ln : String)
    (h1 : splitTag1 root.tag = some ln) :
    (ln ≠ "akomaNtoso" → structParse dt root = Except.error (PErr.valueError
        ("XML root element must be akomaNtoso, but got " ++ ln ++ " instead")))
    ∧ (ln = "akomaNtoso" → root.children = [] → structParse dt root =
        Except.error (PErr.valueError "XML root element must have at least one child"))
    ∧ (∀ c cn, ln = "akomaNtoso" → root.children.head? = some c →
        splitTag1 c.tag = some cn → cn ≠ dt → structParse dt root = Except.error
          (PErr.valueError ("Expected " ++ dt ++ " as first child of root element, but got "
            ++ cn ++ " instead")))
    ∧ (∀ c cn, ln = "akomaNtoso" → root.children.head? = some c →
        splitTag1 c.tag = some cn → cn = dt → structParse dt root = Except.ok root) := by
  refine ⟨fun hln => ?_, fun hln hc => ?_, fun c cn hln hc hsp hcn => ?_,
    fun c cn hln hc hsp hcn => ?_⟩
  · simp [structParse, baseParse, h1, hln, Bind.bind, Except.bind]
  · subst hln
    simp [structParse, baseParse, h1, hc, Bind.bind, Except.bind]
  · subst hln
    have hne : root.children ≠ [] := by
      intro hnil
      rw [hnil] at hc
      exact absurd hc (by simp)
    have hlen : ¬ root.children.length < 1 := by
      simpa [Nat.lt_iff_add_one_le, List.length_eq_zero] using hne
    simp [structParse, baseParse, h1, hlen, hc, hsp, hcn, Bind.bind, Except.bind]
  · subst hln
    subst hcn
    have hne : root.children ≠ [] := by
      intro hnil
      rw [hnil] at hc
      exact absurd hc (by simp)
    have hlen : ¬ root.children.length < 1 := by
      simpa [Nat.lt_iff_add_one_le, List.length_eq_zero] using hne
    simp [structParse, baseParse, h1, hlen, hc, hsp, Bind.bind, Except.bind]

/-- Witness for C5 at a concrete input: a fully namespace-qualified empty
collection skeleton parses successfully. -/
theorem c5_witness :
    splitTag1 (Elem.mk (qn akn3uri "akomaNtoso") []
        [Elem.mk (qn akn3uri Collection.document_type) [] []]).tag = some "akomaNtoso"
    ∧ structParse Collection.document_type
        (Elem.mk (qn akn3uri "akomaNtoso") []
          [Elem.mk (qn akn3uri Collection.document_type) [] []])
      = Except.ok (Elem.mk (qn akn3uri "akomaNtoso") []
          [Elem.mk (qn akn3uri Collection.document_type) [] []]) :=
  ⟨by decide,
   (c5_struct_parse Collection.document_type
      (Elem.mk (qn akn3uri "akomaNtoso") []
        [Elem.mk (qn akn3uri Collection.document_type) [] []])
      "akomaNtoso" (by decide)).2.2.2
    (Elem.mk (qn akn3uri Collection.document_type) [] [])
    Collection.document_type rfl rfl (by decide) rfl⟩

/- =================================================================== -/
/- C3: the empty document skeleton.                                     -/
/- =================================================================== -/

/-- C3: for both supported format versions ("2.0" and "3.0"), the
empty-document skeleton of the collection document type exists, passes
the root-name / child-count / first-child-name validation of parse and
the namespace validation over its declared namespace, its title reads
"Untitled", and its main content element has no children. -/
theorem c3_empty_document (today : String) :
    (∃ d, empty_document Collection.document_type Collection.main_content_tag "2.0" today
        = some d
      ∧ structParse Collection.document_type d = Except.ok d
      ∧ get_namespace [akn2uri] = Except.ok akn2uri
      ∧ title_get akn2uri Collection.document_type d = some "Untitled"
      ∧ ∃ mc, main_content_get akn2uri Collection.document_type Collection.main_content_tag d
            = some mc ∧ mc.children = [])
    ∧ (∃ d, empty_document Collection.document_type Collection.main_content_tag "3.0" today
        = some d
      ∧ structParse Collection.document_type d = Except.ok d
      ∧ get_namespace [akn3uri] = Except.ok akn3uri
      ∧ title_get akn3uri Collection.document_type d = some "Untitled"
      ∧ ∃ mc, main_content_get akn3uri Collection.document_type Collection.main_content_tag d
            = some mc ∧ mc.children = []) := by
  refine ⟨⟨_, rfl, rfl, rfl, rfl, _, rfl, rfl⟩, ⟨_, rfl, rfl, rfl, rfl, _, rfl, rfl⟩⟩


/- =================================================================== -/
/- Lemmas: first-child lookup versus first-child modification.          -/
/- =================================================================== -/

theorem modChildL_spec (t : String) (f : Elem → Option Elem)
    (hf : ∀ c c2, f c = some c2 → c2.tag = c.tag) :
    ∀ (cs cs2 : List Elem), modChildL cs t f = some cs2 →
      (∃ c c2, fchildL cs t = some c ∧ f c = some c2 ∧ fchildL cs2 t = some c2)
      ∧ (∀ t2, t2 ≠ t → fchildL cs2 t2 = fchildL cs t2) := by
  intro cs
  induction cs with
  | nil => intro cs2 h; cases h
  | cons c cs ih =>
    intro cs2 h
    by_cases hc : c.tag = t
    · simp only [modChildL, hc, if_pos] at h
      cases hfc : f c with
      | none => rw [hfc] at h; cases h
      | some c2 =>
        rw [hfc] at h
        simp only [Option.map_some', Option.some.injEq] at h
        subst h
        have htag : c2.tag = c.tag := hf _ _ hfc
        refine ⟨⟨c, c2, by simp [fchildL, hc], hfc, by simp [fchildL, htag, hc]⟩, ?_⟩
        intro t2 ht2
        have hc2 : c2.tag ≠ t2 := by rw [htag, hc]; exact Ne.symm ht2
        have hcn : c.tag ≠ t2 := by rw [hc]; exact Ne.symm ht2
        simp [fchildL, hc2, hcn]
    · simp only [modChildL, hc, if_neg, if_false] at h
      cases hrec : modChildL cs t f with
      | none => rw [hrec] at h; cases h
      | some cs1 =>
        rw [hrec] at h
        simp only [Option.map_some', Option.some.injEq] at h
        subst h
        obtain ⟨⟨c0, c02, hfind, hfc0, hfind2⟩, hoth⟩ := ih cs1 hrec
        refine ⟨⟨c0, c02, by simp [fchildL, hc, hfind], hfc0, by simp [fchildL, hc, hfind2]⟩, ?_⟩
        intro t2 ht2
        by_cases hct2 : c.tag = t2
        · simp [fchildL, hct2]
        · simp [fchildL, hct2, hoth t2 ht2]

theorem insertAfterTag_spec (t : String) (x : Elem) :
    ∀ (cs cs2 : List Elem), insertAfterTag cs t x = some cs2 →
      (∀ t2, t2 ≠ x.tag → fchildL cs2 t2 = fchildL cs t2)
      ∧ (fchildL cs x.tag = none → fchildL cs2 x.tag = some x) := by
  intro cs
  induction cs with
  | nil => intro cs2 h; cases h
  | cons c cs ih =>
    intro cs2 h
    by_cases hc : c.tag = t
    · simp only [insertAfterTag, hc, if_pos, Option.some.injEq] at h
      subst h
      constructor
      · intro t2 ht2
        by_cases hct2 : c.tag = t2
        · simp [fchildL, hct2]
        · simp [fchildL, hct2, Ne.symm ht2]
      · intro hnone
        simp only [fchildL] at hnone ⊢
        by_cases hcx : c.tag = x.tag
        · rw [if_pos hcx] at hnone; cases hnone
        · rw [if_neg hcx] at hnone ⊢
          simp
    · simp only [insertAfterTag, hc, if_neg, if_false] at h
      cases hrec : insertAfterTag cs t x with
      | none => rw [hrec] at h; cases h
      | some cs1 =>
        rw [hrec] at h
        simp only [Option.map_some', Option.some.injEq] at h
        subst h
        obtain ⟨hoth, hnew⟩ := ih cs1 hrec
        constructor
        · intro t2 ht2
          by_cases hct2 : c.tag = t2
          · simp [fchildL, hct2]
          · simp [fchildL, hct2, hoth t2 ht2]
        · intro hnone
          simp only [fchildL] at hnone ⊢
          by_cases hcx : c.tag = x.tag
          · rw [if_pos hcx] at hnone; cases hnone
          · rw [if_neg hcx] at hnone ⊢
            exact hnew hnone

theorem removeFirstTag_spec (t : String) :
    ∀ (cs cs2 : List Elem), removeFirstTag cs t = some cs2 →
      ∀ t2, t2 ≠ t → fchildL cs2 t2 = fchildL cs t2 := by
  intro cs
  induction cs with
  | nil => intro cs2 h; cases h
  | cons c cs ih =>
    intro cs2 h t2 ht2
    by_cases hc : c.tag = t
    · simp only [removeFirstTag, hc, if_pos, Option.some.injEq] at h
      subst h
      have : c.tag ≠ t2 := by rw [hc]; exact Ne.symm ht2
      simp [fchildL, this]
    · simp only [removeFirstTag, hc, if_neg, if_false] at h
      cases hrec : removeFirstTag cs t with
      | none => rw [hrec] at h; cases h
      | some cs1 =>
        rw [hrec] at h
        simp only [Option.map_some', Option.some.injEq] at h
        subst h
        by_cases hct2 : c.tag = t2
        · simp [fchildL, hct2]
        · simp [fchildL, hct2, ih cs1 hrec t2 ht2]

/-- Element-level reading of `modChildNamed`: tag and attributes of the
parent survive, the named child is mapped through `f`, all other names
read unchanged. -/
theorem modChildNamed_spec (ns p : String) (f : Elem → Option Elem) (e e2 : Elem)
    (h : modChildNamed ns p f e = some e2)
    (hf : ∀ c c2, f c = some c2 → c2.tag = c.tag) :
    e2.tag = e.tag ∧ e2.attrs = e.attrs
    ∧ (∃ c c2, e.fchild ns p = some c ∧ f c = some c2 ∧ e2.fchild ns p = some c2)
    ∧ (∀ q, q ≠ p → e2.fchild ns q = e.fchild ns q) := by
  unfold modChildNamed at h
  cases hm : modChildL e.children (qn ns p) f with
  | none => rw [hm] at h; cases h
  | some cs =>
    rw [hm] at h
    simp only [Option.some.injEq] at h
    subst h
    obtain ⟨⟨c, c2, hfind, hfc, hfind2⟩, hoth⟩ := modChildL_spec (qn ns p) f hf e.children cs hm
    exact ⟨rfl, rfl, ⟨c, c2, hfind, hfc, hfind2⟩,
      fun q hq => hoth (qn ns q) (qn_ne_name hq)⟩

theorem modChildNamed_tag (ns p : String) (f : Elem → Option Elem) (e e2 : Elem)
    (h : modChildNamed ns p f e = some e2) : e2.tag = e.tag := by
  unfold modChildNamed at h
  cases hm : modChildL e.children (qn ns p) f with
  | none => rw [hm] at h; cases h
  | some cs => rw [hm] at h; simp only [Option.some.injEq] at h; subst h; rfl

theorem modSegs_tag (ns : String) (segs : List String) (f : Elem → Option Elem)
    (hf : ∀ c c2, f c = some c2 → c2.tag = c.tag) :
    ∀ e e2, modSegs ns segs f e = some e2 → e2.tag = e.tag := by
  cases segs with
  | nil => exact fun e e2 h => hf e e2 h
  | cons p ps => exact fun e e2 h => modChildNamed_tag ns p (modSegs ns ps f) e e2 h

/-- Reading back through the same chain after a chain modification. -/
theorem getElemSegs_modSegs (ns : String) (segs : List String) (f : Elem → Option Elem)
    (hf : ∀ c c2, f c = some c2 → c2.tag = c.tag) :
    ∀ e e2, modSegs ns segs f e = some e2 →
      ∃ x x2, getElemSegs ns segs e = some x ∧ f x = some x2
        ∧ getElemSegs ns segs e2 = some x2 := by
  induction segs with
  | nil =>
    intro e e2 h
    exact ⟨e, e2, rfl, h, rfl⟩
  | cons p ps ih =>
    intro e e2 h
    have hinner : ∀ c c2, modSegs ns ps f c = some c2 → c2.tag = c.tag :=
      modSegs_tag ns ps f hf
    obtain ⟨-, -, ⟨c, c2, hfind, hfc, hfind2⟩, -⟩ :=
      modChildNamed_spec ns p (modSegs ns ps f) e e2 h hinner
    obtain ⟨x, x2, hx, hx2, hx3⟩ := ih c c2 hfc
    refine ⟨x, x2, ?_, hx2, ?_⟩
    · simp only [getElemSegs, hfind, hx]
    · simp only [getElemSegs, hfind2, hx3]

/-- Chains compose by concatenation. -/
theorem getElemSegs_append (ns : String) (s1 s2 : List String) :
    ∀ e, getElemSegs ns (s1 ++ s2) e = (getElemSegs ns s1 e).bind (getElemSegs ns s2) := by
  induction s1 with
  | nil => intro e; simp [getElemSegs]
  | cons p ps ih =>
    intro e
    simp only [List.cons_append, getElemSegs]
    cases e.fchild ns p with
    | none => simp
    | some c => simp [ih c]

/- =================================================================== -/
/- C6: the title setter.                                                -/
/- =================================================================== -/

theorem modTitleAlias_split (ns value : String) (a : Elem)
    (ha : a.tag = qn ns "FRBRalias") (han : a.getAttr "name" = some "title") :
    ∀ (pre post : List Elem),
      (∀ b ∈ pre, ¬ (b.tag = qn ns "FRBRalias" ∧ b.getAttr "name" = some "title")) →
      modTitleAlias ns value (pre ++ a :: post)
        = some (pre ++ (a.setAttr "value" value) :: post) := by
  intro pre
  induction pre with
  | nil => intro post _; simp [modTitleAlias, ha, han]
  | cons b bs ih =>
    intro post hpre
    have hb : ¬ (b.tag = qn ns "FRBRalias" ∧ b.getAttr "name" = some "title") :=
      hpre b (by simp)
    simp only [List.cons_append, modTitleAlias, List.append_eq]
    rw [if_neg (by simpa using hb)]
    rw [ih post (fun x hx => hpre x (by simp [hx]))]
    rfl

theorem modChildL_split (t : String) (f : Elem → Option Elem) (a : Elem) (ha : a.tag = t) :
    ∀ (pre post : List Elem), (∀ b ∈ pre, b.tag ≠ t) →
      modChildL (pre ++ a :: post) t f = (f a).map (fun a2 => pre ++ a2 :: post) := by
  intro pre
  induction pre with
  | nil => intro post _; cases hfa : f a <;> simp [modChildL, ha, hfa]
  | cons b bs ih =>
    intro post hpre
    have hb := hpre b (by simp)
    simp only [List.cons_append, modChildL, List.append_eq]
    rw [if_neg hb, ih post (fun x hx => hpre x (by simp [hx]))]
    cases f a <;> simp

theorem modChildL_none (t : String) (f : Elem → Option Elem) :
    ∀ (cs : List Elem), (∀ b ∈ cs, b.tag ≠ t) → modChildL cs t f = none := by
  intro cs
  induction cs with
  | nil => intro _; rfl
  | cons b bs ih =>
    intro h
    simp [modChildL, h b (by simp), ih (fun x hx => h x (by simp [hx]))]

theorem insertAfterTag_split (t : String) (x a : Elem) (ha : a.tag = t) :
    ∀ (pre post : List Elem), (∀ b ∈ pre, b.tag ≠ t) →
      insertAfterTag (pre ++ a :: post) t x = some (pre ++ a :: x :: post) := by
  intro pre
  induction pre with
  | nil => intro post _; simp [insertAfterTag, ha]
  | cons b bs ih =>
    intro post hpre
    have hb := hpre b (by simp)
    simp [insertAfterTag, hb, ih post (fun y hy => hpre y (by simp [hy]))]

theorem fchildL_split (t : String) (a : Elem) (ha : a.tag = t) :
    ∀ (pre post : List Elem), (∀ b ∈ pre, b.tag ≠ t) →
      fchildL (pre ++ a :: post) t = some a := by
  intro pre
  induction pre with
  | nil => intro post _; simp [fchildL, ha]
  | cons b bs ih =>
    intro post hpre
    have hb := hpre b (by simp)
    simp [fchildL, hb, ih post (fun y hy => hpre y (by simp [hy]))]

theorem fchildL_none (t : String) :
    ∀ (cs : List Elem), (∀ b ∈ cs, b.tag ≠ t) → fchildL cs t = none := by
  intro cs
  induction cs with
  | nil => intro _; rfl
  | cons b bs ih =>
    intro h
    simp [fchildL, h b (by simp), ih (fun x hx => h x (by simp [hx]))]

theorem modChildL_of_fchildL (t : String) (g : Elem → Option Elem) :
    ∀ (cs : List Elem) (c c2 : Elem), fchildL cs t = some c → g c = some c2 →
      ∃ cs2, modChildL cs t g = some cs2 := by
  intro cs
  induction cs with
  | nil => intro c c2 h; cases h
  | cons d ds ih =>
    intro c c2 hf hg
    by_cases hd : d.tag = t
    · simp only [fchildL, hd, if_pos, Option.some.injEq] at hf
      subst hf
      exact ⟨c2 :: ds, by simp [modChildL, hd, hg]⟩
    · simp only [fchildL, hd, if_neg, if_false] at hf
      obtain ⟨cs2, h2⟩ := ih c c2 hf hg
      exact ⟨d :: cs2, by simp [modChildL, hd, h2]⟩

theorem modSegs_of_getElemSegs (ns : String) (segs : List String) (f : Elem → Option Elem) :
    ∀ (e x x2 : Elem), getElemSegs ns segs e = some x → f x = some x2 →
      ∃ e2, modSegs ns segs f e = some e2 := by
  induction segs with
  | nil =>
    intro e x x2 hg hf
    simp only [getElemSegs, Option.some.injEq] at hg
    subst hg
    exact ⟨x2, hf⟩
  | cons p ps ih =>
    intro e x x2 hg hf
    simp only [getElemSegs] at hg
    cases hc : e.fchild ns p with
    | none => rw [hc] at hg; cases hg
    | some c =>
      rw [hc] at hg
      obtain ⟨c2, hc2⟩ := ih c x x2 hg hf
      obtain ⟨cs2, hcs2⟩ :=
        modChildL_of_fchildL (qn ns p) (modSegs ns ps f) e.children c c2 hc hc2
      exact ⟨{ e with children := cs2 }, by simp [modSegs, modChildNamed, hcs2]⟩

theorem setTitleInWork_tag (ns value : String) (w w2 : Elem)
    (h : setTitleInWork ns value w = some w2) : w2.tag = w.tag := by
  unfold setTitleInWork at h
  by_cases hc : w.children.any
      (fun c => c.tag = qn ns "FRBRalias" && c.getAttr "name" = some "title")
  · rw [if_pos hc] at h
    cases hm : modTitleAlias ns value w.children with
    | none => rw [hm] at h; cases h
    | some cs => rw [hm] at h; simp only [Option.map_some', Option.some.injEq] at h; subst h; rfl
  · rw [if_neg hc] at h
    cases hf : fchildL w.children (qn ns "FRBRuri") with
    | none => rw [hf] at h; cases h
    | some uriEl =>
      rw [hf] at h
      cases hm : modChildL w.children (qn ns "FRBRalias")
          (fun a => some ((a.setAttr "name" "title").setAttr "value" value)) with
      | some cs =>
        rw [hm] at h; simp only [Option.some.injEq] at h; subst h; rfl
      | none =>
        rw [hm] at h
        cases hi : insertAfterTag w.children (qn ns "FRBRuri")
            (Elem.mk (qn ns "FRBRalias") [("name", "title"), ("value", value)] []) with
        | none => rw [hi] at h; cases h
        | some cs =>
          rw [hi] at h; simp only [Option.map_some', Option.some.injEq] at h; subst h; rfl

/-- The tree the C6 counterexample starts from: the Work block holds its
URI element and one alias that is not named "title". -/
def c6root : Elem :=
  Elem.mk (qn akn3uri "akomaNtoso") [] [
    Elem.mk (qn akn3uri "collection") [] [
      Elem.mk (qn akn3uri "meta") [] [
        Elem.mk (qn akn3uri "identification") [] [
          Elem.mk (qn akn3uri "FRBRWork") [] [
            Elem.mk (qn akn3uri "FRBRuri") [("value", "w")] [],
            Elem.mk (qn akn3uri "FRBRalias") [("name", "foo"), ("value", "bar")] []]]]]]

/-- C6 counterexample: on a document whose Work block has no alias named
"title" but does have an alias named "foo", the claim says the setter
creates a new FRBRalias element and leaves other aliases unchanged;
instead the code repurposes the existing "foo" alias: afterwards the Work
block still has exactly two children, the "foo" alias is gone, and that
element now reads name="title" with the new value. -/
theorem c6_counterexample :
    ((getElemSegs akn3uri ["collection", "meta", "identification", "FRBRWork"] c6root).map
      (fun w => w.children.map (fun c => (c.tag, c.getAttr "name", c.getAttr "value"))))
      = some [(qn akn3uri "FRBRuri", none, some "w"),
              (qn akn3uri "FRBRalias", some "foo", some "bar")]
    ∧ ((set_title akn3uri "collection" c6root "X").bind
        (fun r2 => (getElemSegs akn3uri ["collection", "meta", "identification", "FRBRWork"] r2).map
          (fun w => w.children.map (fun c => (c.tag, c.getAttr "name", c.getAttr "value")))))
      = some [(qn akn3uri "FRBRuri", none, some "w"),
              (qn akn3uri "FRBRalias", some "title", some "X")] :=
  ⟨rfl, rfl⟩

/-- C6 (amended): writing the title when an alias named "title" exists
overwrites that alias's value and leaves every other child of the Work
block unchanged; when aliases exist but none is named "title", the first
existing alias is renamed to "title" and given the value (no new element
is created and nothing moves); only when the Work block holds no alias at
all is a fresh FRBRalias carrying name="title" and the value created and
inserted right after the Work block's FRBRuri element. -/
theorem c6_set_title (ns dt value : String) (root w : Elem)
    (hw : getElemSegs ns [dt, "meta", "identification", "FRBRWork"] root = some w) :
    (∀ pre a post, w.children = pre ++ a :: post →
      a.tag = qn ns "FRBRalias" → a.getAttr "name" = some "title" →
      (∀ b ∈ pre, ¬ (b.tag = qn ns "FRBRalias" ∧ b.getAttr "name" = some "title")) →
      ∃ root2, set_title ns dt root value = some root2
        ∧ getElemSegs ns [dt, "meta", "identification", "FRBRWork"] root2
          = some { w with children := pre ++ (a.setAttr "value" value) :: post })
    ∧ (∀ pre a post, w.children = pre ++ a :: post →
      a.tag = qn ns "FRBRalias" →
      (∀ b ∈ w.children, ¬ (b.tag = qn ns "FRBRalias" ∧ b.getAttr "name" = some "title")) →
      (∀ b ∈ pre, b.tag ≠ qn ns "FRBRalias") →
      (fchildL w.children (qn ns "FRBRuri")).isSome →
      ∃ root2, set_title ns dt root value = some root2
        ∧ getElemSegs ns [dt, "meta", "identification", "FRBRWork"] root2
          = some { w with children :=
              pre ++ ((a.setAttr "name" "title").setAttr "value" value) :: post })
    ∧ (∀ pre uriEl post, w.children = pre ++ uriEl :: post →
      uriEl.tag = qn ns "FRBRuri" →
      (∀ b ∈ w.children, b.tag ≠ qn ns "FRBRalias") →
      (∀ b ∈ pre, b.tag ≠ qn ns "FRBRuri") →
      ∃ root2, set_title ns dt root value = some root2
        ∧ getElemSegs ns [dt, "meta", "identification", "FRBRWork"] root2
          = some { w with children := pre ++ uriEl ::
              (Elem.mk (qn ns "FRBRalias") [("name", "title"), ("value", value)] []) :: post }) := by
  have hfin : ∀ w2, setTitleInWork ns value w = some w2 →
      ∃ root2, set_title ns dt root value = some root2
        ∧ getElemSegs ns [dt, "meta", "identification", "FRBRWork"] root2 = some w2 := by
    intro w2 hset
    obtain ⟨root2, hroot2⟩ :=
      modSegs_of_getElemSegs ns [dt, "meta", "identification", "FRBRWork"]
        (setTitleInWork ns value) root w w2 hw hset
    obtain ⟨x, x2, hx, hx2, hx3⟩ :=
      getElemSegs_modSegs ns [dt, "meta", "identification", "FRBRWork"]
        (setTitleInWork ns value) (fun c c2 hc => setTitleInWork_tag ns value c c2 hc)
        root root2 hroot2
    rw [hw] at hx
    have hxw : w = x := Option.some.inj hx
    subst hxw
    rw [hset] at hx2
    have hx2w : w2 = x2 := Option.some.inj hx2
    subst hx2w
    exact ⟨root2, hroot2, hx3⟩
  refine ⟨fun pre a post hsplit ha han hpre => ?_,
    fun pre a post hsplit ha hnone hpre huri => ?_,
    fun pre uriEl post hsplit hu hnoalias hpre => ?_⟩
  · apply hfin
    unfold setTitleInWork
    rw [if_pos (by
      rw [hsplit]
      refine List.any_eq_true.2 ⟨a, by simp, by simp [ha, han]⟩)]
    rw [hsplit, modTitleAlias_split ns value a ha han pre post hpre]
    rfl
  · apply hfin
    unfold setTitleInWork
    rw [if_neg (by
      intro hany
      obtain ⟨b, hb, hbt⟩ := List.any_eq_true.1 hany
      exact hnone b hb (by simpa using hbt))]
    have h1 : modChildL w.children (qn ns "FRBRalias")
        (fun a0 => some ((a0.setAttr "name" "title").setAttr "value" value))
        = some (pre ++ ((a.setAttr "name" "title").setAttr "value" value) :: post) := by
      rw [hsplit, modChildL_split (qn ns "FRBRalias") _ a ha pre post hpre]
      rfl
    cases hfu : fchildL w.children (qn ns "FRBRuri") with
    | none => rw [hfu] at huri; exact absurd huri (by simp)
    | some uriEl =>
      rw [h1]
  · apply hfin
    unfold setTitleInWork
    rw [if_neg (by
      intro hany
      obtain ⟨b, hb, hbt⟩ := List.any_eq_true.1 hany
      have hbtag : b.tag = qn ns "FRBRalias" := by
        simp only [Bool.and_eq_true, decide_eq_true_eq] at hbt
        exact hbt.1
      exact hnoalias b hb hbtag)]
    have h1 : fchildL w.children (qn ns "FRBRuri") = some uriEl := by
      rw [hsplit]; exact fchildL_split _ uriEl hu pre post hpre
    have h2 : modChildL w.children (qn ns "FRBRalias")
        (fun a0 => some ((a0.setAttr "name" "title").setAttr "value" value)) = none :=
      modChildL_none _ _ w.children hnoalias
    have h3 : insertAfterTag w.children (qn ns "FRBRuri")
        (Elem.mk (qn ns "FRBRalias") [("name", "title"), ("value", value)] [])
        = some (pre ++ uriEl ::
            (Elem.mk (qn ns "FRBRalias") [("name", "title"), ("value", value)] []) :: post) := by
      rw [hsplit]; exact insertAfterTag_split _ _ uriEl hu pre post hpre
    rw [h1, h2, h3]
    rfl

/-- Witness for C6 at a concrete input: on the empty collection document,
whose Work block has one alias (named "title"), the setter overwrites
that alias's value in place. -/
theorem c6_witness :
    (∃ root2, set_title akn3uri "collection"
        (Elem.mk (qn akn3uri "akomaNtoso") [] [
          Elem.mk (qn akn3uri "collection") [] [
            Elem.mk (qn akn3uri "meta") [] [
              Elem.mk (qn akn3uri "identification") [] [
                Elem.mk (qn akn3uri "FRBRWork") [] [
                  Elem.mk (qn akn3uri "FRBRuri") [("value", "w")] [],
                  Elem.mk (qn akn3uri "FRBRalias") [("value", "Untitled"), ("name", "title")] []]]]]])
        "New Title" = some root2
      ∧ getElemSegs akn3uri ["collection", "meta", "identification", "FRBRWork"] root2
        = some (Elem.mk (qn akn3uri "FRBRWork") [] [
            Elem.mk (qn akn3uri "FRBRuri") [("value", "w")] [],
            Elem.mk (qn akn3uri "FRBRalias") [("value", "New Title"), ("name", "title")] []])) := by
  have h := (c6_set_title akn3uri "collection" "New Title"
    (Elem.mk (qn akn3uri "akomaNtoso") [] [
      Elem.mk (qn akn3uri "collection") [] [
        Elem.mk (qn akn3uri "meta") [] [
          Elem.mk (qn akn3uri "identification") [] [
            Elem.mk (qn akn3uri "FRBRWork") [] [
              Elem.mk (qn akn3uri "FRBRuri") [("value", "w")] [],
              Elem.mk (qn akn3uri "FRBRalias") [("value", "Untitled"), ("name", "title")] []]]]]])
    (Elem.mk (qn akn3uri "FRBRWork") [] [
      Elem.mk (qn akn3uri "FRBRuri") [("value", "w")] [],
      Elem.mk (qn akn3uri "FRBRalias") [("value", "Untitled"), ("name", "title")] []])
    rfl).1
    [Elem.mk (qn akn3uri "FRBRuri") [("value", "w")] []]
    (Elem.mk (qn akn3uri "FRBRalias") [("value", "Untitled"), ("name", "title")] [])
    [] rfl rfl rfl (by decide)
  simpa using h


/- =================================================================== -/
/- Further list lemmas for the lifecycle development.                   -/
/- =================================================================== -/

theorem fchildL_none_iff (t : String) (cs : List Elem) :
    fchildL cs t = none ↔ ∀ b ∈ cs, b.tag ≠ t := by
  induction cs with
  | nil => simp [fchildL]
  | cons b bs ih =>
    by_cases hb : b.tag = t
    · simp [fchildL, hb]
    · simp [fchildL, hb, ih]

theorem modChildL_tags (t : String) (f : Elem → Option Elem)
    (hf : ∀ c c2, f c = some c2 → c2.tag = c.tag) :
    ∀ (xs ys : List Elem), modChildL xs t f = some ys →
      ys.map (fun c => c.tag) = xs.map (fun c => c.tag) := by
  intro xs
  induction xs with
  | nil => intro ys h; cases h
  | cons x xs ih =>
    intro ys h
    by_cases hx : x.tag = t
    · rw [modChildL, if_pos hx] at h
      cases hfx : f x with
      | none => rw [hfx] at h; cases h
      | some x2 =>
        rw [hfx] at h
        simp only [Option.map_some', Option.some.injEq] at h
        subst h
        simp [hf x x2 hfx]
    · rw [modChildL, if_neg hx] at h
      cases hm : modChildL xs t f with
      | none => rw [hm] at h; cases h
      | some ys1 =>
        rw [hm] at h
        simp only [Option.map_some', Option.some.injEq] at h
        subst h
        simp [ih ys1 hm]

theorem modChildL_pair (t : String) (f : Elem → Option Elem) (a b : Elem)
    (hat : a.tag ≠ t) (hbt : b.tag ≠ t) :
    ∀ (u v ys : List Elem), modChildL (u ++ a :: b :: v) t f = some ys →
      ∃ u2 v2, ys = u2 ++ a :: b :: v2 := by
  intro u
  induction u with
  | nil =>
    intro v ys h
    simp only [List.nil_append, modChildL] at h
    rw [if_neg hat, if_neg hbt] at h
    cases hm : modChildL v t f with
    | none => rw [hm] at h; cases h
    | some v2 =>
      rw [hm] at h
      simp only [Option.map_some', Option.some.injEq] at h
      subst h
      exact ⟨[], v2, rfl⟩
  | cons x xs ih =>
    intro v ys h
    simp only [List.cons_append, modChildL] at h
    by_cases hx : x.tag = t
    · rw [if_pos hx] at h
      cases hfx : f x with
      | none => rw [hfx] at h; cases h
      | some x2 =>
        rw [hfx] at h
        simp only [Option.map_some', Option.some.injEq] at h
        subst h
        exact ⟨x2 :: xs, v, rfl⟩
    · rw [if_neg hx] at h
      simp only [List.append_eq] at h
      cases hm : modChildL (xs ++ a :: b :: v) t f with
      | none => rw [hm] at h; cases h
      | some ys1 =>
        rw [hm] at h
        simp only [Option.map_some', Option.some.injEq] at h
        subst h
        obtain ⟨u2, v2, hsplit⟩ := ih v ys1 hm
        exact ⟨x :: u2, v2, by simp [hsplit]⟩

theorem countP_eq_of_tags_eq (p : String → Bool) (xs ys : List Elem)
    (h : xs.map (fun c => c.tag) = ys.map (fun c => c.tag)) :
    xs.countP (fun c => p c.tag) = ys.countP (fun c => p c.tag) := by
  have h1 : (xs.map (fun c => c.tag)).countP p = (ys.map (fun c => c.tag)).countP p := by
    rw [h]
  simpa [List.countP_map, Function.comp] using h1


/- =================================================================== -/
/- C7: lifecycle and reference idempotence.                             -/
/- =================================================================== -/

/-- One modification at the end of a chain, with its read-back. -/
theorem modChain_step (ns : String) (segs : List String) (root m m2 : Elem)
    (g : Elem → Option Elem)
    (hg : ∀ c c2, g c = some c2 → c2.tag = c.tag)
    (h1 : getElemSegs ns segs root = some m) (h2 : g m = some m2) :
    ∃ root2, modSegs ns segs g root = some root2
      ∧ getElemSegs ns segs root2 = some m2 := by
  obtain ⟨root2, hroot2⟩ := modSegs_of_getElemSegs ns segs g root m m2 h1 h2
  obtain ⟨x, x2, hx, hx2, hx3⟩ := getElemSegs_modSegs ns segs g hg root root2 hroot2
  rw [h1] at hx
  obtain rfl := Option.some.inj hx
  rw [h2] at hx2
  obtain rfl := Option.some.inj hx2
  exact ⟨root2, hroot2, hx3⟩


theorem fchildL_skip_middle (t2 : String) (m : List Elem) (hm : ∀ x ∈ m, x.tag ≠ t2) :
    ∀ (u v : List Elem), fchildL (u ++ m ++ v) t2 = fchildL (u ++ v) t2 := by
  intro u
  induction u with
  | nil =>
    intro v
    simp only [List.nil_append]
    induction m with
    | nil => rfl
    | cons x xs ihm =>
      have hx := hm x (by simp)
      simp only [List.cons_append, fchildL, hx, if_neg, if_false]
      exact ihm (fun y hy => hm y (by simp [hy]))
  | cons x xs ih =>
    intro v
    by_cases hx : x.tag = t2 <;>
      simp [fchildL, hx, ← List.append_assoc, ih v]

/-- C7 (amended): on a document whose meta block carries the insertion
anchor (a publication block, else an identification block), no lifecycle
block yet, and whose references block — when one exists — holds at most
one matching cobalt organization reference, `_ensure_lifecycle` creates
exactly one lifecycle block, placed immediately after the anchor, with
its source attribute set, and exactly one matching organization reference
ends up in the references block; calling it a second time changes nothing
and returns the same block. -/
theorem c7_ensure_lifecycle (ns dt : String) (root metaEl anchor : Elem)
    (pre post : List Elem)
    (h1 : getElemSegs ns [dt, "meta"] root = some metaEl)
    (hsplit : metaEl.children = pre ++ anchor :: post)
    (hpre : ∀ b ∈ pre, b.tag ≠ anchor.tag)
    (hAT : anchor.tag = qn ns "publication"
         ∨ (metaEl.fchild ns "publication" = none ∧ anchor.tag = qn ns "identification"))
    (hlc : ∀ b ∈ metaEl.children, b.tag ≠ qn ns "lifecycle")
    (href : (∀ b ∈ metaEl.children, b.tag ≠ qn ns "references")
         ∨ (∃ refsEl, metaEl.fchild ns "references" = some refsEl
              ∧ refsEl.children.countP (isCobaltOrg ns) ≤ 1)) :
    ∃ root2,
      ensure_lifecycle ns dt root
        = some (root2, Elem.mk (qn ns "lifecycle") [("source", "#cobalt")] [])
      ∧ ensure_lifecycle ns dt root2
        = some (root2, Elem.mk (qn ns "lifecycle") [("source", "#cobalt")] [])
      ∧ ∃ metaEl2, getElemSegs ns [dt, "meta"] root2 = some metaEl2
        ∧ metaEl2.children.countP (fun c => c.tag = qn ns "lifecycle") = 1
        ∧ (∃ u2 v2, metaEl2.children
            = u2 ++ anchor :: (Elem.mk (qn ns "lifecycle") [("source", "#cobalt")] []) :: v2)
        ∧ ∃ refsEl2, metaEl2.fchild ns "references" = some refsEl2
            ∧ refsEl2.children.countP (isCobaltOrg ns) = 1 := by
  have hanchormem : anchor ∈ metaEl.children := by rw [hsplit]; simp
  have hanchorlc : anchor.tag ≠ qn ns "lifecycle" := hlc anchor hanchormem
  have hprelc : ∀ b ∈ pre, b.tag ≠ qn ns "lifecycle" :=
    fun b hb => hlc b (by rw [hsplit]; simp [hb])
  have hpostlc : ∀ b ∈ post, b.tag ≠ qn ns "lifecycle" :=
    fun b hb => hlc b (by rw [hsplit]; simp [hb])
  have hanchorrefs : anchor.tag ≠ qn ns "references" := by
    rcases hAT with h | ⟨_, h⟩ <;> rw [h] <;> exact qn_ne_name (by decide)
  have hlcrefs : qn ns "lifecycle" ≠ qn ns "references" := qn_ne_name (by decide)
  have hrefslc : qn ns "references" ≠ qn ns "lifecycle" := qn_ne_name (by decide)
  -- the anchor tag is what the try/except around meta.publication resolves to
  have hafter : (match metaEl.fchild ns "publication" with
      | some _ => some (qn ns "publication")
      | none => (metaEl.fchild ns "identification").map (fun _ => qn ns "identification"))
      = some anchor.tag := by
    rcases hAT with h | ⟨hn, h⟩
    · have hf : metaEl.fchild ns "publication" = some anchor := by
        show fchildL metaEl.children (qn ns "publication") = some anchor
        rw [hsplit]
        exact fchildL_split _ anchor h pre post (fun b hb => h ▸ hpre b hb)
      rw [hf, h]
    · have hf : metaEl.fchild ns "identification" = some anchor := by
        show fchildL metaEl.children (qn ns "identification") = some anchor
        rw [hsplit]
        exact fchildL_split _ anchor h pre post (fun b hb => h ▸ hpre b hb)
      rw [hn, hf, h]
      rfl
  -- there is no lifecycle block yet
  have hflnone : metaEl.fchild ns "lifecycle" = none :=
    fchildL_none (qn ns "lifecycle") metaEl.children hlc
  have hnolcpath : getElemSegs ns [dt, "meta", "lifecycle"] root = none := by
    rw [show ([dt, "meta", "lifecycle"] : List String) = [dt, "meta"] ++ ["lifecycle"] from rfl,
      getElemSegs_append, h1]
    simp [getElemSegs, hflnone]
  -- step 1: insert the fresh lifecycle element right after the anchor
  have hinsF : (insertAfterTag metaEl.children anchor.tag
        (Elem.mk (qn ns "lifecycle") [] [])).map (fun cs => { metaEl with children := cs })
      = some { metaEl with children :=
          pre ++ anchor :: (Elem.mk (qn ns "lifecycle") [] []) :: post } := by
    rw [hsplit, insertAfterTag_split anchor.tag _ anchor rfl pre post hpre]
    rfl
  obtain ⟨root1, hroot1, hmeta1⟩ := modChain_step ns [dt, "meta"] root metaEl
    { metaEl with children := pre ++ anchor :: (Elem.mk (qn ns "lifecycle") [] []) :: post }
    (fun m => (insertAfterTag m.children anchor.tag
      (Elem.mk (qn ns "lifecycle") [] [])).map (fun cs => { m with children := cs }))
    (by
      intro c c2 hc
      dsimp only at hc
      cases hi : insertAfterTag c.children anchor.tag (Elem.mk (qn ns "lifecycle") [] []) with
      | none => rw [hi] at hc; cases hc
      | some cs =>
        rw [hi] at hc
        simp only [Option.map_some', Option.some.injEq] at hc
        subst hc; rfl)
    h1 hinsF
  -- step 2: set the source attribute on the block just created
  have hg2 : modChildNamed ns "lifecycle" (fun n => some (n.setAttr "source" "#cobalt"))
      { metaEl with children := pre ++ anchor :: (Elem.mk (qn ns "lifecycle") [] []) :: post }
      = some { metaEl with children :=
          pre ++ anchor :: (Elem.mk (qn ns "lifecycle") [("source", "#cobalt")] []) :: post } := by
    unfold modChildNamed
    have hchildren : (pre ++ anchor :: (Elem.mk (qn ns "lifecycle") [] []) :: post)
        = (pre ++ [anchor]) ++ (Elem.mk (qn ns "lifecycle") [] []) :: post := by
      simp
    rw [show ({ metaEl with children :=
          pre ++ anchor :: (Elem.mk (qn ns "lifecycle") [] []) :: post } : Elem).children
        = pre ++ anchor :: (Elem.mk (qn ns "lifecycle") [] []) :: post from rfl, hchildren]
    rw [modChildL_split (qn ns "lifecycle") _ (Elem.mk (qn ns "lifecycle") [] []) rfl
      (pre ++ [anchor]) post (by
        intro b hb
        rcases List.mem_append.1 hb with hb1 | hb1
        · exact hprelc b hb1
        · simpa [List.mem_singleton.1 hb1] using hanchorlc)]
    simp [Elem.setAttr, setAttrL]
  obtain ⟨root2p, hroot2p, hmeta2⟩ := modChain_step ns [dt, "meta"] root1
    { metaEl with children := pre ++ anchor :: (Elem.mk (qn ns "lifecycle") [] []) :: post }
    { metaEl with children :=
        pre ++ anchor :: (Elem.mk (qn ns "lifecycle") [("source", "#cobalt")] []) :: post }
    (modChildNamed ns "lifecycle" (fun n => some (n.setAttr "source" "#cobalt")))
    (fun c c2 hc => modChildNamed_tag ns "lifecycle" _ c c2 hc)
    hmeta1 hg2
  -- shorthand for the two element constants
  set lc1 : Elem := Elem.mk (qn ns "lifecycle") [("source", "#cobalt")] [] with hlc1
  have hlc1tag : lc1.tag = qn ns "lifecycle" := rfl
  have hmeta2children :
      ({ metaEl with children := pre ++ anchor :: lc1 :: post } : Elem).children
      = pre ++ anchor :: lc1 :: post := rfl
  -- the lifecycle count of the meta children after step 2 is exactly one
  have hpre0 : pre.countP (fun c => c.tag = qn ns "lifecycle") = 0 :=
    List.countP_eq_zero.2 (fun b hb => by simpa using hprelc b hb)
  have hpost0 : post.countP (fun c => c.tag = qn ns "lifecycle") = 0 :=
    List.countP_eq_zero.2 (fun b hb => by simpa using hpostlc b hb)
  have hcount2 : (pre ++ anchor :: lc1 :: post).countP
      (fun c => c.tag = qn ns "lifecycle") = 1 := by
    simp [List.countP_append, List.countP_cons, hpre0, hpost0, hanchorlc, hlc1tag]
  -- step 3: ensure the references block and the organization reference
  have hg3 : ∃ metaEl3,
      (do
        let cs1 ← (match fchildL ({ metaEl with children := pre ++ anchor :: lc1 :: post } : Elem).children (qn ns "references") with
          | some _ => some ({ metaEl with children := pre ++ anchor :: lc1 :: post } : Elem).children
          | none => insertAfterTag ({ metaEl with children := pre ++ anchor :: lc1 :: post } : Elem).children (qn ns "lifecycle")
              (Elem.mk (qn ns "references") [] []))
        let cs2 ← modChildL cs1 (qn ns "references") (ensureOrgInRefs ns)
        return { ({ metaEl with children := pre ++ anchor :: lc1 :: post } : Elem) with children := cs2 })
      = some metaEl3
      ∧ metaEl3.children.countP (fun c => c.tag = qn ns "lifecycle") = 1
      ∧ (∃ u2 v2, metaEl3.children = u2 ++ anchor :: lc1 :: v2)
      ∧ (∃ refsEl2, fchildL metaEl3.children (qn ns "references") = some refsEl2
          ∧ refsEl2.children.countP (isCobaltOrg ns) = 1)
      ∧ fchildL metaEl3.children (qn ns "lifecycle") = some lc1
      ∧ (∀ t2, t2 ≠ qn ns "lifecycle" → t2 ≠ qn ns "references" →
          fchildL metaEl3.children t2 = fchildL metaEl.children t2) := by
    have horgP : isCobaltOrg ns (cobaltOrgElem ns) = true := by
      simp [isCobaltOrg, cobaltOrgElem, Elem.getAttr, getAttrL]
    rcases href with hrefA | ⟨refsEl, hrefsB, hcountB⟩
    · -- no references block anywhere: one is created after the lifecycle block
      have hrefsnone2 : fchildL (pre ++ anchor :: lc1 :: post) (qn ns "references") = none := by
        apply fchildL_none
        intro b hb
        rcases List.mem_append.1 hb with hb1 | hb1
        · exact hrefA b (by rw [hsplit]; simp [hb1])
        · rcases List.mem_cons.1 hb1 with hb2 | hb2
          · subst hb2; exact hanchorrefs
          · rcases List.mem_cons.1 hb2 with hb3 | hb3
            · subst hb3; exact hlcrefs
            · exact hrefA b (by rw [hsplit]; simp [hb3])
      have hins2 : insertAfterTag (pre ++ anchor :: lc1 :: post) (qn ns "lifecycle")
          (Elem.mk (qn ns "references") [] [])
          = some (pre ++ anchor :: lc1 :: (Elem.mk (qn ns "references") [] []) :: post) := by
        have hassoc : pre ++ anchor :: lc1 :: post = (pre ++ [anchor]) ++ lc1 :: post := by simp
        rw [hassoc, insertAfterTag_split (qn ns "lifecycle") _ lc1 rfl (pre ++ [anchor]) post
          (by
            intro b hb
            rcases List.mem_append.1 hb with hb1 | hb1
            · exact hprelc b hb1
            · simpa [List.mem_singleton.1 hb1] using hanchorlc)]
        simp
      have hmod2 : modChildL (pre ++ anchor :: lc1 :: (Elem.mk (qn ns "references") [] []) :: post)
          (qn ns "references") (ensureOrgInRefs ns)
          = some (pre ++ anchor :: lc1 ::
              (Elem.mk (qn ns "references") [] [cobaltOrgElem ns]) :: post) := by
        have hassoc : pre ++ anchor :: lc1 :: (Elem.mk (qn ns "references") [] []) :: post
            = (pre ++ [anchor] ++ [lc1]) ++ (Elem.mk (qn ns "references") [] []) :: post := by
          simp
        rw [hassoc, modChildL_split (qn ns "references") _ (Elem.mk (qn ns "references") [] []) rfl
          (pre ++ [anchor] ++ [lc1]) post
          (by
            intro b hb
            rcases List.mem_append.1 hb with hb1 | hb1
            · rcases List.mem_append.1 hb1 with hb2 | hb2
              · exact fun hc => hrefA b (by rw [hsplit]; simp [hb2]) hc
              · simpa [List.mem_singleton.1 hb2] using hanchorrefs
            · simpa [List.mem_singleton.1 hb1] using hlcrefs)]
        simp [ensureOrgInRefs, cobaltOrgElem]
      refine ⟨{ metaEl with children :=
          pre ++ anchor :: lc1 :: (Elem.mk (qn ns "references") [] [cobaltOrgElem ns]) :: post },
        ?_, ?_, ⟨pre, _, rfl⟩, ?_, ?_, ?_⟩
      · simp only [Bind.bind, Option.bind, Option.pure_def, hmeta2children, hrefsnone2,
          hins2, hmod2]
      · simp [List.countP_append, List.countP_cons, hpre0, hpost0, hanchorlc, hlc1tag,
          hrefslc]
      · refine ⟨Elem.mk (qn ns "references") [] [cobaltOrgElem ns], ?_, ?_⟩
        · have hassoc : pre ++ anchor :: lc1 ::
              (Elem.mk (qn ns "references") [] [cobaltOrgElem ns]) :: post
              = (pre ++ [anchor] ++ [lc1]) ++
                (Elem.mk (qn ns "references") [] [cobaltOrgElem ns]) :: post := by
            simp
        -- goal is about children of the record update; reduce first
          show fchildL (pre ++ anchor :: lc1 ::
              (Elem.mk (qn ns "references") [] [cobaltOrgElem ns]) :: post)
              (qn ns "references") = _
          rw [hassoc]
          apply fchildL_split _ _ rfl
          intro b hb
          rcases List.mem_append.1 hb with hb1 | hb1
          · rcases List.mem_append.1 hb1 with hb2 | hb2
            · exact hrefA b (by rw [hsplit]; simp [hb2])
            · simpa [List.mem_singleton.1 hb2] using hanchorrefs
          · simpa [List.mem_singleton.1 hb1] using hlcrefs
        · simp [List.countP_cons, horgP]
      · show fchildL (pre ++ anchor :: lc1 ::
            (Elem.mk (qn ns "references") [] [cobaltOrgElem ns]) :: post)
            (qn ns "lifecycle") = some lc1
        have hassoc : pre ++ anchor :: lc1 ::
            (Elem.mk (qn ns "references") [] [cobaltOrgElem ns]) :: post
            = (pre ++ [anchor]) ++ lc1 ::
              ((Elem.mk (qn ns "references") [] [cobaltOrgElem ns]) :: post) := by
          simp
        rw [hassoc]
        apply fchildL_split _ _ rfl
        intro b hb
        rcases List.mem_append.1 hb with hb1 | hb1
        · exact hprelc b hb1
        · simpa [List.mem_singleton.1 hb1] using hanchorlc
      · intro t2 ht2lc ht2refs
        show fchildL (pre ++ anchor :: lc1 ::
            (Elem.mk (qn ns "references") [] [cobaltOrgElem ns]) :: post) t2
            = fchildL metaEl.children t2
        rw [hsplit]
        have hassoc1 : pre ++ anchor :: lc1 ::
            (Elem.mk (qn ns "references") [] [cobaltOrgElem ns]) :: post
            = (pre ++ [anchor]) ++
              [lc1, Elem.mk (qn ns "references") [] [cobaltOrgElem ns]] ++ post := by
          simp
        have hassoc2 : pre ++ anchor :: post = (pre ++ [anchor]) ++ post := by simp
        rw [hassoc1, hassoc2]
        apply fchildL_skip_middle
        intro x hx
        rcases List.mem_cons.1 hx with hx1 | hx1
        · subst hx1; exact Ne.symm ht2lc
        · rcases List.mem_cons.1 hx1 with hx2 | hx2
          · subst hx2; exact Ne.symm ht2refs
          · cases hx2
    · -- a references block exists and has at most one matching reference
      have hrefs2 : fchildL (pre ++ anchor :: lc1 :: post) (qn ns "references")
          = some refsEl := by
        have hassoc1 : pre ++ anchor :: lc1 :: post
            = (pre ++ [anchor]) ++ [lc1] ++ post := by simp
        have hassoc2 : pre ++ anchor :: post = (pre ++ [anchor]) ++ post := by simp
        rw [hassoc1, fchildL_skip_middle (qn ns "references") [lc1]
          (by intro x hx; rcases List.mem_cons.1 hx with h | h
              · subst h; exact hlcrefs
              · cases h)]
        rw [← hassoc2, ← hsplit]
        exact hrefsB
      have hOrgSome : ∃ refsEl2, ensureOrgInRefs ns refsEl = some refsEl2
          ∧ refsEl2.children.countP (isCobaltOrg ns) = 1
          ∧ refsEl2.tag = refsEl.tag := by
        by_cases hany : refsEl.children.any (isCobaltOrg ns)
        · refine ⟨refsEl, by simp [ensureOrgInRefs, hany], ?_, rfl⟩
          obtain ⟨a, ha, hpa⟩ := List.any_eq_true.1 hany
          have h1le : 1 ≤ refsEl.children.countP (isCobaltOrg ns) :=
            List.countP_pos_iff.2 ⟨a, ha, hpa⟩
          omega
        · refine ⟨{ refsEl with children := cobaltOrgElem ns :: refsEl.children },
            by simp [ensureOrgInRefs, hany], ?_, rfl⟩
          have h0 : refsEl.children.countP (isCobaltOrg ns) = 0 :=
            List.countP_eq_zero.2 (fun a ha hpa => hany (List.any_eq_true.2 ⟨a, ha, hpa⟩))
          simp [List.countP_cons, horgP, h0]
      obtain ⟨refsEl2, hOrg, hOrgCount, hOrgTag⟩ := hOrgSome
      obtain ⟨cs2, hcs2⟩ := modChildL_of_fchildL (qn ns "references") (ensureOrgInRefs ns)
        (pre ++ anchor :: lc1 :: post) refsEl refsEl2 hrefs2 hOrg
      have htagpres : ∀ c c2, ensureOrgInRefs ns c = some c2 → c2.tag = c.tag := by
        intro c c2 hc
        unfold ensureOrgInRefs at hc
        by_cases hany : c.children.any (isCobaltOrg ns)
        · rw [if_pos hany] at hc
          obtain rfl := Option.some.inj hc
          rfl
        · rw [if_neg hany] at hc
          obtain rfl := Option.some.inj hc
          rfl
      obtain ⟨⟨c0, c02, hfind, hfc0, hfind2⟩, hoth⟩ :=
        modChildL_spec (qn ns "references") (ensureOrgInRefs ns) htagpres
          (pre ++ anchor :: lc1 :: post) cs2 hcs2
      rw [hrefs2] at hfind
      obtain rfl := Option.some.inj hfind
      rw [hOrg] at hfc0
      obtain rfl := Option.some.inj hfc0
      have htags : cs2.map (fun c => c.tag)
          = (pre ++ anchor :: lc1 :: post).map (fun c => c.tag) :=
        modChildL_tags (qn ns "references") (ensureOrgInRefs ns) htagpres _ cs2 hcs2
      refine ⟨{ metaEl with children := cs2 }, ?_, ?_, ?_, ⟨refsEl2, hfind2, hOrgCount⟩, ?_, ?_⟩
      · simp only [Bind.bind, Option.bind, Option.pure_def, hmeta2children, hrefs2, hcs2]
      · show cs2.countP (fun c => c.tag = qn ns "lifecycle") = 1
        calc cs2.countP (fun c => c.tag = qn ns "lifecycle")
            = (pre ++ anchor :: lc1 :: post).countP (fun c => c.tag = qn ns "lifecycle") :=
              countP_eq_of_tags_eq (fun s => s = qn ns "lifecycle") cs2 _ htags
          _ = 1 := hcount2
      · obtain ⟨u2, v2, hsplit2⟩ := modChildL_pair (qn ns "references") (ensureOrgInRefs ns)
          anchor lc1 hanchorrefs hlcrefs pre post cs2 hcs2
        exact ⟨u2, v2, hsplit2⟩
      · show fchildL cs2 (qn ns "lifecycle") = some lc1
        rw [hoth (qn ns "lifecycle") hlcrefs]
        have hassoc : pre ++ anchor :: lc1 :: post = (pre ++ [anchor]) ++ lc1 :: post := by simp
        rw [hassoc]
        apply fchildL_split _ _ rfl
        intro b hb
        rcases List.mem_append.1 hb with hb1 | hb1
        · exact hprelc b hb1
        · simpa [List.mem_singleton.1 hb1] using hanchorlc
      · intro t2 ht2lc ht2refs
        show fchildL cs2 t2 = fchildL metaEl.children t2
        rw [hoth t2 (Ne.symm (Ne.symm ht2refs)), hsplit]
        have hassoc1 : pre ++ anchor :: lc1 :: post = (pre ++ [anchor]) ++ [lc1] ++ post := by
          simp
        have hassoc2 : pre ++ anchor :: post = (pre ++ [anchor]) ++ post := by simp
        rw [hassoc1, hassoc2]
        apply fchildL_skip_middle
        intro x hx
        rcases List.mem_cons.1 hx with h | h
        · subst h; exact Ne.symm ht2lc
        · cases h
  obtain ⟨metaEl3, hg3eq, hcount3, hsplit3, hrefs3, hfirstlc3, hobs3⟩ := hg3
  -- run step 3 through the tree
  have hg3tag : ∀ c c2,
      (fun (m : Elem) => (do
        let cs1 ← (match fchildL m.children (qn ns "references") with
          | some _ => some m.children
          | none => insertAfterTag m.children (qn ns "lifecycle")
              (Elem.mk (qn ns "references") [] []))
        let cs2 ← modChildL cs1 (qn ns "references") (ensureOrgInRefs ns)
        return { m with children := cs2 } : Option Elem)) c = some c2 → c2.tag = c.tag := by
    intro c c2 hc
    dsimp only at hc
    cases hm1 : (match fchildL c.children (qn ns "references") with
      | some _ => some c.children
      | none => insertAfterTag c.children (qn ns "lifecycle")
          (Elem.mk (qn ns "references") [] [])) with
    | none =>
      simp only [hm1, Bind.bind, Option.bind] at hc
      exact Option.noConfusion hc
    | some cs1 =>
      simp only [hm1, Bind.bind, Option.bind] at hc
      cases hm2 : modChildL cs1 (qn ns "references") (ensureOrgInRefs ns) with
      | none =>
        simp only [hm2] at hc
        exact Option.noConfusion hc
      | some cs2 =>
        simp only [hm2, Option.pure_def, Option.some.injEq] at hc
        subst hc
        rfl
  obtain ⟨root3, hroot3, hmeta3⟩ := modChain_step ns [dt, "meta"] root2p
    { metaEl with children := pre ++ anchor :: lc1 :: post } metaEl3
    (fun (m : Elem) => (do
      let cs1 ← (match fchildL m.children (qn ns "references") with
        | some _ => some m.children
        | none => insertAfterTag m.children (qn ns "lifecycle")
            (Elem.mk (qn ns "references") [] []))
      let cs2 ← modChildL cs1 (qn ns "references") (ensureOrgInRefs ns)
      return { m with children := cs2 } : Option Elem))
    hg3tag hmeta2 (by
      simpa only [Bind.bind, Option.bind, Option.pure_def] using hg3eq)
  -- the lifecycle block reads back from the final tree
  have hlcp3 : getElemSegs ns [dt, "meta", "lifecycle"] root3 = some lc1 := by
    rw [show ([dt, "meta", "lifecycle"] : List String) = [dt, "meta"] ++ ["lifecycle"] from rfl,
      getElemSegs_append, hmeta3]
    simp [getElemSegs, Elem.fchild, hfirstlc3]
  -- the first call produces (root3, lc1)
  have hcall1 : ensure_lifecycle ns dt root = some (root3, lc1) := by
    rw [ensure_lifecycle]
    simp only [h1, hafter, hnolcpath, Bind.bind, Option.bind, hroot1]
    have hstep2 : modSegs ns [dt, "meta", "lifecycle"]
        (fun n => some (n.setAttr "source" "#cobalt")) root1 = some root2p := hroot2p
    simp only [hstep2]
    have hstep3 : ensureReferenceAfterLifecycle ns dt root2p = some root3 := hroot3
    simp only [hstep3, hlcp3, Option.pure_def]
  -- the second call is a no-op returning the same pair
  have hafter3 : (match metaEl3.fchild ns "publication" with
      | some _ => some (qn ns "publication")
      | none => (metaEl3.fchild ns "identification").map (fun _ => qn ns "identification"))
      = some anchor.tag := by
    have hpubNe1 : qn ns "publication" ≠ qn ns "lifecycle" := qn_ne_name (by decide)
    have hpubNe2 : qn ns "publication" ≠ qn ns "references" := qn_ne_name (by decide)
    have hidNe1 : qn ns "identification" ≠ qn ns "lifecycle" := qn_ne_name (by decide)
    have hidNe2 : qn ns "identification" ≠ qn ns "references" := qn_ne_name (by decide)
    have hpub3 : metaEl3.fchild ns "publication" = metaEl.fchild ns "publication" :=
      hobs3 (qn ns "publication") hpubNe1 hpubNe2
    have hid3 : metaEl3.fchild ns "identification" = metaEl.fchild ns "identification" :=
      hobs3 (qn ns "identification") hidNe1 hidNe2
    rw [show (metaEl3.fchild ns "publication") = fchildL metaEl3.children (qn ns "publication")
      from rfl] at hpub3
    rw [show (metaEl3.fchild ns "identification")
      = fchildL metaEl3.children (qn ns "identification") from rfl] at hid3
    show (match fchildL metaEl3.children (qn ns "publication") with
      | some _ => some (qn ns "publication")
      | none => (fchildL metaEl3.children (qn ns "identification")).map
          (fun _ => qn ns "identification")) = some anchor.tag
    rw [hpub3, hid3]
    exact hafter
  have hcall2 : ensure_lifecycle ns dt root3 = some (root3, lc1) := by
    rw [ensure_lifecycle]
    simp only [hmeta3, hafter3, Bind.bind, Option.bind, hlcp3]
    have : lc1.getAttr "source" = some "#cobalt" := rfl
    simp [this]
  exact ⟨root3, hcall1, hcall2, metaEl3, hmeta3, hcount3, hsplit3,
    (by
      obtain ⟨refsEl2, hf, hc⟩ := hrefs3
      exact ⟨refsEl2, hf, hc⟩)⟩


/-- A document whose meta block already carries two lifecycle blocks. -/
def c7badroot : Elem :=
  Elem.mk (qn akn3uri "akomaNtoso") [] [
    Elem.mk (qn akn3uri "collection") [] [
      Elem.mk (qn akn3uri "meta") [] [
        Elem.mk (qn akn3uri "identification") [] [],
        Elem.mk (qn akn3uri "lifecycle") [] [],
        Elem.mk (qn akn3uri "lifecycle") [] []]]]

/-- C7 counterexample: the claim quantifies over any document, but on a
document that already carries two lifecycle blocks, two successive calls
of `_ensure_lifecycle` leave two lifecycle blocks, not exactly one (the
method only ever looks at the first). -/
theorem c7_counterexample :
    ((ensure_lifecycle akn3uri "collection" c7badroot).bind (fun p1 =>
      (ensure_lifecycle akn3uri "collection" p1.1).bind (fun p2 =>
        (getElemSegs akn3uri ["collection", "meta"] p2.1).map (fun m =>
          m.children.countP (fun c => c.tag = qn akn3uri "lifecycle")))))
      = some 2 := rfl

/-- The concrete document the C7 witness runs on: an identification block
and a references block already holding the cobalt organization. -/
def c7wroot : Elem :=
  Elem.mk (qn akn3uri "akomaNtoso") [] [
    Elem.mk (qn akn3uri "collection") [] [
      Elem.mk (qn akn3uri "meta") [] [
        Elem.mk (qn akn3uri "identification") [("source", "#cobalt")] [],
        Elem.mk (qn akn3uri "references") [("source", "#cobalt")] [
          Elem.mk (qn akn3uri "TLCOrganization")
            [("eId", "cobalt"), ("href", "x"), ("showAs", "cobalt")] []]]]]

/-- Witness for C7 at a concrete input. -/
theorem c7_witness :
    ∃ root2,
      ensure_lifecycle akn3uri "collection" c7wroot
        = some (root2, Elem.mk (qn akn3uri "lifecycle") [("source", "#cobalt")] [])
      ∧ ensure_lifecycle akn3uri "collection" root2
        = some (root2, Elem.mk (qn akn3uri "lifecycle") [("source", "#cobalt")] [])
      ∧ ∃ metaEl2, getElemSegs akn3uri ["collection", "meta"] root2 = some metaEl2
        ∧ metaEl2.children.countP (fun c => c.tag = qn akn3uri "lifecycle") = 1
        ∧ (∃ u2 v2, metaEl2.children
            = u2 ++ (Elem.mk (qn akn3uri "identification") [("source", "#cobalt")] []) ::
              (Elem.mk (qn akn3uri "lifecycle") [("source", "#cobalt")] []) :: v2)
        ∧ ∃ refsEl2, metaEl2.fchild akn3uri "references" = some refsEl2
            ∧ refsEl2.children.countP (isCobaltOrg akn3uri) = 1 :=
  c7_ensure_lifecycle akn3uri "collection" c7wroot
    (Elem.mk (qn akn3uri "meta") [] [
      Elem.mk (qn akn3uri "identification") [("source", "#cobalt")] [],
      Elem.mk (qn akn3uri "references") [("source", "#cobalt")] [
        Elem.mk (qn akn3uri "TLCOrganization")
          [("eId", "cobalt"), ("href", "x"), ("showAs", "cobalt")] []]])
    (Elem.mk (qn akn3uri "identification") [("source", "#cobalt")] [])
    []
    [Elem.mk (qn akn3uri "references") [("source", "#cobalt")] [
      Elem.mk (qn akn3uri "TLCOrganization")
        [("eId", "cobalt"), ("href", "x"), ("showAs", "cobalt")] []]]
    rfl rfl (by simp)
    (Or.inr ⟨rfl, rfl⟩)
    (by decide)
    (Or.inr ⟨Elem.mk (qn akn3uri "references") [("source", "#cobalt")] [
        Elem.mk (qn akn3uri "TLCOrganization")
          [("eId", "cobalt"), ("href", "x"), ("showAs", "cobalt")] []],
      rfl, by decide⟩)


/- =================================================================== -/
/- Lemmas about index paths.                                            -/
/- =================================================================== -/

theorem getAt_append (p q : List Nat) :
    ∀ e, getAt (p ++ q) e = (getAt p e).bind (getAt q) := by
  induction p with
  | nil => intro e; simp [getAt]
  | cons i p ih =>
    intro e
    simp only [List.cons_append, getAt]
    cases e.children[i]? with
    | none => simp
    | some c => simp [ih c]

theorem modifyAt_spec (p : List Nat) (f : Elem → Option Elem) :
    ∀ e e2, modifyAt p f e = some e2 →
      ∃ c c2, getAt p e = some c ∧ f c = some c2 ∧ getAt p e2 = some c2 := by
  induction p with
  | nil =>
    intro e e2 h
    exact ⟨e, e2, rfl, h, rfl⟩
  | cons i p ih =>
    intro e e2 h
    cases hc : e.children[i]? with
    | none =>
      simp only [modifyAt, hc] at h
      exact Option.noConfusion h
    | some c =>
      cases hm : modifyAt p f c with
      | none =>
        simp only [modifyAt, hc, hm, Option.map_none'] at h
        exact Option.noConfusion h
      | some c2 =>
        simp only [modifyAt, hc, hm, Option.map_some', Option.some.injEq] at h
        subst h
        obtain ⟨x, x2, hx, hx2, hx3⟩ := ih c c2 hm
        have hilen : i < e.children.length := by
          by_contra hlen
          rw [List.getElem?_eq_none (by omega)] at hc
          cases hc
        refine ⟨x, x2, ?_, hx2, ?_⟩
        · simp only [getAt, hc, hx]
        · show getAt (i :: p) { e with children := e.children.set i c2 } = some x2
          simp only [getAt, List.getElem?_set_self hilen, hx3]

theorem modifyAt_of_getAt (p : List Nat) (f : Elem → Option Elem) :
    ∀ e c c2, getAt p e = some c → f c = some c2 →
      ∃ e2, modifyAt p f e = some e2 := by
  induction p with
  | nil =>
    intro e c c2 hg hf
    simp only [getAt, Option.some.injEq] at hg
    subst hg
    exact ⟨c2, hf⟩
  | cons i p ih =>
    intro e c c2 hg hf
    cases hc : e.children[i]? with
    | none =>
      simp only [getAt, hc] at hg
      exact Option.noConfusion hg
    | some d =>
      simp only [getAt, hc] at hg
      obtain ⟨d2, hd2⟩ := ih d c c2 hg hf
      exact ⟨{ e with children := e.children.set i d2 }, by
        simp only [modifyAt, hc, hd2, Option.map_some']⟩

theorem getAt_modifyAt_diverge (f : Elem → Option Elem) :
    ∀ (p q : List Nat) (e e2 : Elem), modifyAt p f e = some e2 →
      divergeB p q = true → getAt q e2 = getAt q e := by
  intro p
  induction p with
  | nil => intro q e e2 _ hd; cases q <;> cases hd
  | cons i p ih =>
    intro q e e2 h hd
    cases q with
    | nil => cases hd
    | cons j q =>
      cases hc : e.children[i]? with
      | none =>
      simp only [modifyAt, hc] at h
      exact Option.noConfusion h
      | some c =>
        cases hm : modifyAt p f c with
        | none =>
        simp only [modifyAt, hc, hm, Option.map_none'] at h
        exact Option.noConfusion h
        | some c2 =>
          simp only [modifyAt, hc, hm, Option.map_some', Option.some.injEq] at h
          subst h
          by_cases hij : i = j
          · subst hij
            have hd2 : divergeB p q = true := by
              simpa [divergeB] using hd
            have hilen : i < e.children.length := by
              by_contra hlen
              rw [List.getElem?_eq_none (by omega)] at hc
              cases hc
            show getAt (i :: q) { e with children := e.children.set i c2 } = getAt (i :: q) e
            simp only [getAt, List.getElem?_set_self hilen, hc, ih q c c2 hm hd2]
          · show getAt (j :: q) { e with children := e.children.set i c2 } = getAt (j :: q) e
            simp only [getAt, List.getElem?_set_ne hij]

theorem modifyAt_point_tag (f : Elem → Option Elem) :
    ∀ (p : List Nat) (e e2 : Elem), modifyAt p f e = some e2 →
      (∀ c c2, getAt p e = some c → f c = some c2 → c2.tag = c.tag) →
      e2.tag = e.tag := by
  intro p
  cases p with
  | nil => exact fun e e2 h hf => hf e e2 rfl h
  | cons i p =>
    intro e e2 h _
    cases hc : e.children[i]? with
    | none =>
      simp only [modifyAt, hc] at h
      exact Option.noConfusion h
    | some c =>
      cases hm : modifyAt p f c with
      | none =>
        simp only [modifyAt, hc, hm, Option.map_none'] at h
        exact Option.noConfusion h
      | some c2 =>
        simp only [modifyAt, hc, hm, Option.map_some', Option.some.injEq] at h
        subst h
        rfl

theorem fchildL_eq_findIdx (t : String) :
    ∀ (cs : List Elem), fchildL cs t = (findIdxTag cs t).bind (fun i => cs[i]?) := by
  intro cs
  induction cs with
  | nil => rfl
  | cons c cs ih =>
    by_cases hc : c.tag = t
    · simp [fchildL, findIdxTag, hc]
    · simp only [fchildL, findIdxTag, hc, if_neg, if_false, ih]
      cases findIdxTag cs t <;> simp

theorem findIdxTag_set (t : String) :
    ∀ (cs : List Elem) (i : Nat) (c c2 : Elem), cs[i]? = some c → c2.tag = c.tag →
      findIdxTag (cs.set i c2) t = findIdxTag cs t := by
  intro cs
  induction cs with
  | nil => intro i c c2 h; cases h
  | cons d ds ih =>
    intro i c c2 h htag
    cases i with
    | zero =>
      simp only [List.getElem?_cons_zero, Option.some.injEq] at h
      subst h
      simp [List.set, findIdxTag, htag]
    | succ i =>
      simp only [List.getElem?_cons_succ] at h
      simp [List.set, findIdxTag, ih i c c2 h htag]

theorem resolveSegsPath_getElemSegs (ns : String) (segs : List String) :
    ∀ (e : Elem) (rp : List Nat), resolveSegsPath ns segs e = some rp →
      getElemSegs ns segs e = getAt rp e := by
  induction segs with
  | nil =>
    intro e rp h
    simp only [resolveSegsPath, Option.some.injEq] at h
    subst h
    rfl
  | cons p ps ih =>
    intro e rp h
    cases hidx : findIdxTag e.children (qn ns p) with
    | none =>
      simp only [resolveSegsPath, hidx] at h
      exact Option.noConfusion h
    | some i =>
      cases hc : e.children[i]? with
      | none =>
        simp only [resolveSegsPath, hidx, hc] at h
        exact Option.noConfusion h
      | some c =>
        cases hr : resolveSegsPath ns ps c with
        | none =>
          simp only [resolveSegsPath, hidx, hc, hr, Option.map_none'] at h
          exact Option.noConfusion h
        | some rp1 =>
          simp only [resolveSegsPath, hidx, hc, hr, Option.map_some',
            Option.some.injEq] at h
          subst h
          have hfc : e.fchild ns p = some c := by
            show fchildL e.children (qn ns p) = some c
            rw [fchildL_eq_findIdx, hidx]
            simpa using hc
          simp only [getElemSegs, hfc, getAt, hc]
          exact ih c rp1 hr

theorem resolveSegsPath_modifyAt_stable (ns : String) (segs : List String) :
    ∀ (e e2 : Elem) (q : List Nat) (f : Elem → Option Elem) (rp : List Nat),
      modifyAt q f e = some e2 →
      (∀ c c2, getAt q e = some c → f c = some c2 → c2.tag = c.tag) →
      resolveSegsPath ns segs e = some rp →
      (isPrefixB rp q = true ∨ divergeB rp q = true) →
      resolveSegsPath ns segs e2 = some rp := by
  induction segs with
  | nil =>
    intro e e2 q f rp _ _ hres _
    simp only [resolveSegsPath, Option.some.injEq] at hres ⊢
    exact hres
  | cons p ps ih =>
    intro e e2 q f rp hmod hf hres hcond
    cases hidx : findIdxTag e.children (qn ns p) with
    | none =>
      simp only [resolveSegsPath, hidx] at hres
      exact Option.noConfusion hres
    | some i =>
      cases hc : e.children[i]? with
      | none =>
        simp only [resolveSegsPath, hidx, hc] at hres
        exact Option.noConfusion hres
      | some c =>
        cases hr : resolveSegsPath ns ps c with
        | none =>
          simp only [resolveSegsPath, hidx, hc, hr, Option.map_none'] at hres
          exact Option.noConfusion hres
        | some rp1 =>
          simp only [resolveSegsPath, hidx, hc, hr, Option.map_some',
            Option.some.injEq] at hres
          subst hres
          cases q with
          | nil =>
            rcases hcond with hp | hd
            · cases hp
            · cases hd
          | cons j q =>
            cases hd : e.children[j]? with
            | none =>
              simp only [modifyAt, hd] at hmod
              exact Option.noConfusion hmod
            | some d =>
              cases hm : modifyAt q f d with
              | none =>
                simp only [modifyAt, hd, hm, Option.map_none'] at hmod
                exact Option.noConfusion hmod
              | some d2 =>
                simp only [modifyAt, hd, hm, Option.map_some', Option.some.injEq] at hmod
                subst hmod
                have hd2tag : d2.tag = d.tag := by
                  apply modifyAt_point_tag f q d d2 hm
                  intro x x2 hx hx2
                  exact hf x x2 (by simp [getAt, hd, hx]) hx2
                have hidx2 : findIdxTag (e.children.set j d2) (qn ns p)
                    = findIdxTag e.children (qn ns p) := findIdxTag_set _ _ j d d2 hd hd2tag
                show resolveSegsPath ns (p :: ps)
                    { e with children := e.children.set j d2 } = some (i :: rp1)
                by_cases hij : i = j
                · subst hij
                  have hilen : i < e.children.length := by
                    by_contra hlen
                    rw [List.getElem?_eq_none (by omega)] at hc
                    cases hc
                  have hcd : c = d := by
                    rw [hc] at hd
                    exact Option.some.inj hd
                  subst hcd
                  have hcond2 : isPrefixB rp1 q = true ∨ divergeB rp1 q = true := by
                    rcases hcond with hp | hdv
                    · left; simpa [isPrefixB] using hp
                    · right; simpa [divergeB] using hdv
                  have hfq : ∀ x x2, getAt q c = some x → f x = some x2 → x2.tag = x.tag := by
                    intro x x2 hx hx2
                    exact hf x x2 (by simp [getAt, hc, hx]) hx2
                  simp only [resolveSegsPath, hidx2, hidx, List.getElem?_set_self hilen,
                    ih c d2 q f rp1 hm hfq hr hcond2, Option.map_some']
                · simp only [resolveSegsPath, hidx2, hidx,
                    List.getElem?_set_ne (fun hji => hij hji.symm), hc, hr, Option.map_some']

theorem divergeB_symm : ∀ (p q : List Nat), divergeB p q = divergeB q p := by
  intro p
  induction p with
  | nil => intro q; cases q <;> rfl
  | cons i p ih =>
    intro q
    cases q with
    | nil => rfl
    | cons j q =>
      by_cases hij : i = j
      · subst hij; simp [divergeB, ih q]
      · simp [divergeB, hij, Ne.symm hij]


/- =================================================================== -/
/- The per-component rewrite: specification of updateIdent.             -/
/- =================================================================== -/

theorem setVal_tag (v : String) (c c2 : Elem) (h : setVal v c = some c2) :
    c2.tag = c.tag := by
  obtain rfl := Option.some.inj h
  rfl

theorem innerStep_tag (ns el : String) (v : String) :
    ∀ c c2, modChildNamed ns el (setVal v) c = some c2 → c2.tag = c.tag :=
  fun c c2 h => modChildNamed_tag ns el (setVal v) c c2 h

/-- Writing a value on a named child of a named block: the block keeps
its other children, other blocks are untouched, and the value reads
back. -/
theorem blockSetVal_spec (ns blk el v : String) (s s2 : Elem)
    (h : modChildNamed ns blk (modChildNamed ns el (setVal v)) s = some s2) :
    s2.tag = s.tag ∧ s2.attrs = s.attrs
    ∧ (∀ q, q ≠ blk → s2.fchild ns q = s.fchild ns q)
    ∧ ∃ b b2, s.fchild ns blk = some b ∧ s2.fchild ns blk = some b2
        ∧ b2.tag = b.tag ∧ b2.attrs = b.attrs
        ∧ (∀ q, q ≠ el → b2.fchild ns q = b.fchild ns q)
        ∧ ∃ x, b.fchild ns el = some x
            ∧ b2.fchild ns el = some (x.setAttr "value" v) := by
  obtain ⟨htag, hattrs, ⟨b, b2, hb, hbf, hb2⟩, hoth⟩ :=
    modChildNamed_spec ns blk (modChildNamed ns el (setVal v)) s s2 h
      (innerStep_tag ns el v)
  obtain ⟨hbtag, hbattrs, ⟨x, x2, hx, hx2, hx3⟩, hboth⟩ :=
    modChildNamed_spec ns el (setVal v) b b2 hbf (fun c c2 hc => setVal_tag v c c2 hc)
  obtain rfl := Option.some.inj hx2
  exact ⟨htag, hattrs, hoth, b, b2, hb, hb2, hbtag, hbattrs, hboth, x, hx, hx3⟩

theorem blockSetVal_some (ns blk el v : String) (s b x : Elem)
    (hb : s.fchild ns blk = some b) (hx : b.fchild ns el = some x) :
    ∃ s2, modChildNamed ns blk (modChildNamed ns el (setVal v)) s = some s2 := by
  obtain ⟨cs1, hcs1⟩ := modChildL_of_fchildL (qn ns el) (setVal v) b.children x
    (x.setAttr "value" v) hx rfl
  obtain ⟨cs2, hcs2⟩ := modChildL_of_fchildL (qn ns blk)
    (modChildNamed ns el (setVal v)) s.children b { b with children := cs1 } hb
    (by simp [modChildNamed, hcs1])
  exact ⟨{ s with children := cs2 }, by simp [modChildNamed, hcs2]⟩

theorem fchildL_tag (t : String) :
    ∀ (cs : List Elem) (a : Elem), fchildL cs t = some a → a.tag = t := by
  intro cs
  induction cs with
  | nil => intro a h; cases h
  | cons d ds ih =>
    intro a h
    by_cases hd : d.tag = t
    · simp only [fchildL, hd, if_pos, Option.some.injEq] at h
      subst h; exact hd
    · simp only [fchildL, hd, if_neg, if_false] at h
      exact ih a h

theorem fchildL_splitOf (t : String) :
    ∀ (cs : List Elem) (a : Elem), fchildL cs t = some a →
      ∃ pre post, cs = pre ++ a :: post ∧ ∀ b ∈ pre, b.tag ≠ t := by
  intro cs
  induction cs with
  | nil => intro a h; cases h
  | cons d ds ih =>
    intro a h
    by_cases hd : d.tag = t
    · simp only [fchildL, hd, if_pos, Option.some.injEq] at h
      subst h
      exact ⟨[], ds, rfl, by simp⟩
    · simp only [fchildL, hd, if_neg, if_false] at h
      obtain ⟨p2, q2, hs, hp⟩ := ih a h
      refine ⟨d :: p2, q2, by simp [hs], ?_⟩
      intro b hb
      rcases List.mem_cons.1 hb with h1 | h1
      · subst h1; exact hd
      · exact hp b h1

/-- The ensure-and-set step: succeeds when the anchor (or the element
itself) is present; afterwards the element reads the value and every
other name reads as before. -/
theorem ensureSetVal_spec (ns el after v : String) (w : Elem)
    (hanchor : (w.fchild ns after).isSome) :
    ∃ w2, ensureSetVal ns el after v w = some w2
      ∧ w2.tag = w.tag ∧ w2.attrs = w.attrs
      ∧ (∀ q, q ≠ el → w2.fchild ns q = w.fchild ns q)
      ∧ (w2.fchild ns el).bind (fun x => Elem.getAttr x "value") = some v := by
  unfold ensureSetVal
  cases hfe : fchildL w.children (qn ns el) with
  | some x =>
    obtain ⟨cs1, hcs1⟩ := modChildL_of_fchildL (qn ns el) (setVal v) w.children x
      (x.setAttr "value" v) hfe rfl
    refine ⟨{ w with children := cs1 }, by simp [modChildNamed, hcs1], rfl, rfl, ?_, ?_⟩
    · intro q hq
      obtain ⟨-, hoth⟩ := modChildL_spec (qn ns el) (setVal v)
        (fun c c2 hc => setVal_tag v c c2 hc) w.children cs1 hcs1
      exact hoth (qn ns q) (qn_ne_name hq)
    · obtain ⟨⟨c, c2, hc1, hc2, hc3⟩, -⟩ := modChildL_spec (qn ns el) (setVal v)
        (fun c c2 hc => setVal_tag v c c2 hc) w.children cs1 hcs1
      obtain rfl := Option.some.inj hc2
      show (fchildL cs1 (qn ns el)).bind (fun x => Elem.getAttr x "value") = some v
      rw [hc3]
      simp [Option.bind, Elem.getAttr_setAttr_same]
  | none =>
    cases hfa : fchildL w.children (qn ns after) with
    | none =>
      rw [show w.fchild ns after = fchildL w.children (qn ns after) from rfl, hfa] at hanchor
      exact absurd hanchor (by simp)
    | some a =>
      have hatag : a.tag = qn ns after := fchildL_tag _ w.children a hfa
      obtain ⟨pre2, post2, hsplit2, hpre2⟩ := fchildL_splitOf _ w.children a hfa
      have hins : insertAfterTag w.children (qn ns after)
          (Elem.mk (qn ns el) [("value", v)] [])
          = some (pre2 ++ a :: (Elem.mk (qn ns el) [("value", v)] []) :: post2) := by
        rw [hsplit2]
        exact insertAfterTag_split _ _ a hatag pre2 post2 hpre2
      refine ⟨{ w with children := pre2 ++ a :: (Elem.mk (qn ns el) [("value", v)] []) :: post2 },
        by rw [hins]; rfl, rfl, rfl, ?_, ?_⟩
      · intro q hq
        show fchildL (pre2 ++ a :: (Elem.mk (qn ns el) [("value", v)] []) :: post2) (qn ns q)
            = fchildL w.children (qn ns q)
        obtain ⟨hoth, -⟩ := insertAfterTag_spec (qn ns after)
          (Elem.mk (qn ns el) [("value", v)] []) w.children _ hins
        exact hoth (qn ns q) (qn_ne_name hq)
      · show (fchildL (pre2 ++ a :: (Elem.mk (qn ns el) [("value", v)] []) :: post2)
            (qn ns el)).bind (fun x => Elem.getAttr x "value") = some v
        obtain ⟨-, hnew⟩ := insertAfterTag_spec (qn ns after)
          (Elem.mk (qn ns el) [("value", v)] []) w.children _ hins
        rw [hnew hfe]
        simp [Option.bind, Elem.getAttr, getAttrL]


theorem ensureSetVal_tag (ns el after v : String) :
    ∀ c c2, ensureSetVal ns el after v c = some c2 → c2.tag = c.tag := by
  intro c c2 h
  unfold ensureSetVal at h
  cases hfe : fchildL c.children (qn ns el) with
  | some x =>
    rw [hfe] at h
    exact modChildNamed_tag ns el (setVal v) c c2 h
  | none =>
    rw [hfe] at h
    cases hi : insertAfterTag c.children (qn ns after) (Elem.mk (qn ns el) [("value", v)] []) with
    | none => rw [hi] at h; cases h
    | some cs =>
      rw [hi] at h
      simp only [Option.map_some', Option.some.injEq] at h
      subst h
      rfl

/-- Specification of `updateIdent` on a well-formed identification
block: it succeeds, sets the six URI strings plus country and number
exactly as the loop body does — the Manifestation strings from the
expression-scoped forms — and leaves the Expression date element
untouched. -/
theorem updateIdent_spec (ns : String) (u : FrbrUri) (ident : Elem)
    (hwf : identWFb ns ident = true) :
    ∃ ident2, updateIdent ns u ident = some ident2
      ∧ ident2.tag = ident.tag
      ∧ readIdentVal ns "FRBRWork" "FRBRuri" ident2 = some u.uri
      ∧ readIdentVal ns "FRBRWork" "FRBRthis" ident2 = some (u.work_uri true)
      ∧ readIdentVal ns "FRBRWork" "FRBRcountry" ident2 = some u.place
      ∧ readIdentVal ns "FRBRWork" "FRBRnumber" ident2 = some u.number
      ∧ readIdentVal ns "FRBRExpression" "FRBRuri" ident2 = some (u.expression_uri false)
      ∧ readIdentVal ns "FRBRExpression" "FRBRthis" ident2 = some (u.expression_uri true)
      ∧ readIdentVal ns "FRBRManifestation" "FRBRuri" ident2 = some (u.expression_uri false)
      ∧ readIdentVal ns "FRBRManifestation" "FRBRthis" ident2 = some (u.expression_uri true)
      ∧ ((ident2.fchild ns "FRBRExpression").bind (fun x => x.fchild ns "FRBRdate")
          = (ident.fchild ns "FRBRExpression").bind (fun x => x.fchild ns "FRBRdate")) := by
  -- unpack well-formedness
  unfold identWFb at hwf
  simp only [Bool.and_eq_true] at hwf
  obtain ⟨⟨hwfW, hwfX⟩, hwfM⟩ := hwf
  cases hW0 : ident.fchild ns "FRBRWork" with
  | none => rw [hW0] at hwfW; cases hwfW
  | some w0 =>
  rw [hW0] at hwfW
  simp only [Bool.and_eq_true, Option.isSome_iff_exists] at hwfW
  obtain ⟨⟨⟨xu0, hxu0⟩, xt0, hxt0⟩, xc0, hxc0⟩ := hwfW
  cases hX0 : ident.fchild ns "FRBRExpression" with
  | none => rw [hX0] at hwfX; cases hwfX
  | some x0 =>
  rw [hX0] at hwfX
  simp only [Bool.and_eq_true, Option.isSome_iff_exists] at hwfX
  obtain ⟨⟨xeu0, hxeu0⟩, xet0, hxet0⟩ := hwfX
  cases hM0 : ident.fchild ns "FRBRManifestation" with
  | none => rw [hM0] at hwfM; cases hwfM
  | some m0 =>
  rw [hM0] at hwfM
  simp only [Bool.and_eq_true, Option.isSome_iff_exists] at hwfM
  obtain ⟨⟨xmu0, hxmu0⟩, xmt0, hxmt0⟩ := hwfM
  -- step 1: Work FRBRuri := u.uri()
  obtain ⟨s1, hs1⟩ := blockSetVal_some ns "FRBRWork" "FRBRuri" u.uri ident w0 xu0 hW0 hxu0
  obtain ⟨hs1tag, -, hs1oth, w1a, w1, hw1a, hw1, hw1tag, -, hw1oth, xu1, hxu1, hxu1b⟩ :=
    blockSetVal_spec ns "FRBRWork" "FRBRuri" u.uri ident s1 hs1
  rw [hW0] at hw1a
  obtain rfl := Option.some.inj hw1a
  -- step 2: Work FRBRthis := work_uri()
  obtain ⟨xt1, hxt1⟩ : ∃ x, w1.fchild ns "FRBRthis" = some x := by
    rw [hw1oth "FRBRthis" (by decide)]; exact ⟨xt0, hxt0⟩
  obtain ⟨s2, hs2⟩ := blockSetVal_some ns "FRBRWork" "FRBRthis" (u.work_uri true) s1 w1 xt1 hw1 hxt1
  obtain ⟨hs2tag, -, hs2oth, w2a, w2, hw2a, hw2, hw2tag, -, hw2oth, xt2, hxt2, hxt2b⟩ :=
    blockSetVal_spec ns "FRBRWork" "FRBRthis" (u.work_uri true) s1 s2 hs2
  rw [hw1] at hw2a
  obtain rfl := Option.some.inj hw2a
  -- step 3: Work FRBRcountry := place
  obtain ⟨xc2, hxc2⟩ : ∃ x, w2.fchild ns "FRBRcountry" = some x := by
    rw [hw2oth "FRBRcountry" (by decide), hw1oth "FRBRcountry" (by decide)]
    exact ⟨xc0, hxc0⟩
  obtain ⟨s3, hs3⟩ := blockSetVal_some ns "FRBRWork" "FRBRcountry" u.place s2 w2 xc2 hw2 hxc2
  obtain ⟨hs3tag, -, hs3oth, w3a, w3, hw3a, hw3, hw3tag, -, hw3oth, xc3, hxc3, hxc3b⟩ :=
    blockSetVal_spec ns "FRBRWork" "FRBRcountry" u.place s2 s3 hs3
  rw [hw2] at hw3a
  obtain rfl := Option.some.inj hw3a
  -- step 4: Work FRBRnumber (ensure after FRBRcountry) := number
  have hcountry3 : (w3.fchild ns "FRBRcountry").isSome := by
    rw [hxc3b]; rfl
  obtain ⟨w4, hw4f, hw4tag, -, hw4oth, hw4num⟩ :=
    ensureSetVal_spec ns "FRBRnumber" "FRBRcountry" u.number w3 hcountry3
  obtain ⟨cs4, hcs4⟩ := modChildL_of_fchildL (qn ns "FRBRWork")
    (ensureSetVal ns "FRBRnumber" "FRBRcountry" u.number) s3.children w3 w4 hw3 hw4f
  have hs4 : modChildNamed ns "FRBRWork" (ensureSetVal ns "FRBRnumber" "FRBRcountry" u.number)
      s3 = some { s3 with children := cs4 } := by
    simp [modChildNamed, hcs4]
  obtain ⟨hs4tag, -, ⟨w4a, w4b, hw4a, hfw4, hw4beq⟩, hs4oth⟩ :=
    modChildNamed_spec ns "FRBRWork" (ensureSetVal ns "FRBRnumber" "FRBRcountry" u.number)
      s3 _ hs4 (ensureSetVal_tag ns "FRBRnumber" "FRBRcountry" u.number)
  rw [hw3] at hw4a
  obtain rfl := Option.some.inj hw4a
  rw [hw4f] at hfw4
  obtain rfl := Option.some.inj hfw4
  -- step 5: subtype written or removed; Work URI fields survive either way
  have hstep5 : ∃ s5, (match u.subtype with
      | some st =>
        modChildNamed ns "FRBRWork" (ensureSetVal ns "FRBRsubtype" "FRBRcountry" st)
          { s3 with children := cs4 }
      | none =>
        some ((modChildNamed ns "FRBRWork" (fun w =>
          (removeFirstTag w.children (qn ns "FRBRsubtype")).map
            (fun cs => { w with children := cs })) { s3 with children := cs4 }).getD
          { s3 with children := cs4 })) = some s5
      ∧ s5.tag = ({ s3 with children := cs4 } : Elem).tag
      ∧ (∀ q, q ≠ "FRBRWork" →
          s5.fchild ns q = ({ s3 with children := cs4 } : Elem).fchild ns q)
      ∧ ∃ w5, s5.fchild ns "FRBRWork" = some w5
          ∧ (∀ q, q ≠ "FRBRsubtype" → w5.fchild ns q = w4.fchild ns q) := by
    cases hsub : u.subtype with
    | some st =>
      have hcountry4 : (w4.fchild ns "FRBRcountry").isSome := by
        rw [hw4oth "FRBRcountry" (by decide), hxc3b]; rfl
      obtain ⟨w5, hw5f, hw5tag, -, hw5oth, -⟩ :=
        ensureSetVal_spec ns "FRBRsubtype" "FRBRcountry" st w4 hcountry4
      obtain ⟨cs5, hcs5⟩ := modChildL_of_fchildL (qn ns "FRBRWork")
        (ensureSetVal ns "FRBRsubtype" "FRBRcountry" st)
        ({ s3 with children := cs4 } : Elem).children w4 w5 hw4beq hw5f
      have hs5 : modChildNamed ns "FRBRWork" (ensureSetVal ns "FRBRsubtype" "FRBRcountry" st)
          { s3 with children := cs4 } = some { ({ s3 with children := cs4 } : Elem) with
            children := cs5 } := by
        simp [modChildNamed, hcs5]
      obtain ⟨hs5tag, -, ⟨w5a, w5b, hw5a, h1, h2⟩, hs5oth⟩ :=
        modChildNamed_spec ns "FRBRWork" (ensureSetVal ns "FRBRsubtype" "FRBRcountry" st)
          { s3 with children := cs4 } _ hs5 (ensureSetVal_tag ns "FRBRsubtype" "FRBRcountry" st)
      rw [hw4beq] at hw5a
      obtain rfl := Option.some.inj hw5a
      rw [hw5f] at h1
      obtain rfl := Option.some.inj h1
      exact ⟨_, hs5, hs5tag, hs5oth, w5, h2, hw5oth⟩
    | none =>
      cases hrem : modChildNamed ns "FRBRWork" (fun w =>
          (removeFirstTag w.children (qn ns "FRBRsubtype")).map
            (fun cs => { w with children := cs })) { s3 with children := cs4 } with
      | none =>
        refine ⟨{ s3 with children := cs4 }, rfl, rfl, fun q _ => rfl,
          w4, hw4beq, fun q _ => rfl⟩
      | some s5 =>
        have hremtag : ∀ (c c2 : Elem), (fun (w : Elem) =>
            (removeFirstTag w.children (qn ns "FRBRsubtype")).map
              (fun cs => { w with children := cs })) c = some c2 → c2.tag = c.tag := by
          intro c c2 hc
          dsimp only at hc
          cases hr : removeFirstTag c.children (qn ns "FRBRsubtype") with
          | none => rw [hr] at hc; cases hc
          | some cs =>
            rw [hr] at hc
            simp only [Option.map_some', Option.some.injEq] at hc
            subst hc
            rfl
        obtain ⟨hs5tag, -, ⟨w5a, w5b, hw5a, h1, h2⟩, hs5oth⟩ :=
          modChildNamed_spec ns "FRBRWork" _ { s3 with children := cs4 } s5 hrem hremtag
        rw [hw4beq] at hw5a
        obtain rfl := Option.some.inj hw5a
        refine ⟨s5, rfl, hs5tag, hs5oth, ?_⟩
        cases hr : removeFirstTag w4.children (qn ns "FRBRsubtype") with
        | none => rw [hr] at h1; cases h1
        | some cs =>
          rw [hr] at h1
          simp only [Option.map_some', Option.some.injEq] at h1
          subst h1
          refine ⟨_, h2, ?_⟩
          intro q hq
          show fchildL cs (qn ns q) = fchildL w4.children (qn ns q)
          exact removeFirstTag_spec (qn ns "FRBRsubtype") w4.children cs hr
            (qn ns q) (qn_ne_name hq)
  obtain ⟨s5, hs5eq, hs5tag, hs5oth, w5, hw5, hw5oth⟩ := hstep5
  -- step 6: Expression FRBRuri := expression_uri(False)
  have hXs5 : s5.fchild ns "FRBRExpression" = some x0 := by
    rw [hs5oth "FRBRExpression" (by decide), hs4oth "FRBRExpression" (by decide),
      hs3oth "FRBRExpression" (by decide), hs2oth "FRBRExpression" (by decide),
      hs1oth "FRBRExpression" (by decide)]
    exact hX0
  obtain ⟨s6, hs6⟩ := blockSetVal_some ns "FRBRExpression" "FRBRuri" (u.expression_uri false)
    s5 x0 xeu0 hXs5 hxeu0
  obtain ⟨hs6tag, -, hs6oth, x6a, x6, hx6a, hx6, hx6tag, -, hx6oth, xeu6, hxeu6, hxeu6b⟩ :=
    blockSetVal_spec ns "FRBRExpression" "FRBRuri" (u.expression_uri false) s5 s6 hs6
  rw [hXs5] at hx6a
  obtain rfl := Option.some.inj hx6a
  -- step 7: Expression FRBRthis := expression_uri()
  obtain ⟨xet6, hxet6⟩ : ∃ x, x6.fchild ns "FRBRthis" = some x := by
    rw [hx6oth "FRBRthis" (by decide)]; exact ⟨xet0, hxet0⟩
  obtain ⟨s7, hs7⟩ := blockSetVal_some ns "FRBRExpression" "FRBRthis" (u.expression_uri true)
    s6 x6 xet6 hx6 hxet6
  obtain ⟨hs7tag, -, hs7oth, x7a, x7, hx7a, hx7, hx7tag, -, hx7oth, xet7, hxet7, hxet7b⟩ :=
    blockSetVal_spec ns "FRBRExpression" "FRBRthis" (u.expression_uri true) s6 s7 hs7
  rw [hx6] at hx7a
  obtain rfl := Option.some.inj hx7a
  -- step 8: Manifestation FRBRuri := expression_uri(False)
  have hMs7 : s7.fchild ns "FRBRManifestation" = some m0 := by
    rw [hs7oth "FRBRManifestation" (by decide), hs6oth "FRBRManifestation" (by decide),
      hs5oth "FRBRManifestation" (by decide), hs4oth "FRBRManifestation" (by decide),
      hs3oth "FRBRManifestation" (by decide), hs2oth "FRBRManifestation" (by decide),
      hs1oth "FRBRManifestation" (by decide)]
    exact hM0
  obtain ⟨s8, hs8⟩ := blockSetVal_some ns "FRBRManifestation" "FRBRuri" (u.expression_uri false)
    s7 m0 xmu0 hMs7 hxmu0
  obtain ⟨hs8tag, -, hs8oth, m8a, m8, hm8a, hm8, hm8tag, -, hm8oth, xmu8, hxmu8, hxmu8b⟩ :=
    blockSetVal_spec ns "FRBRManifestation" "FRBRuri" (u.expression_uri false) s7 s8 hs8
  rw [hMs7] at hm8a
  obtain rfl := Option.some.inj hm8a
  -- step 9: Manifestation FRBRthis := expression_uri()
  obtain ⟨xmt8, hxmt8⟩ : ∃ x, m8.fchild ns "FRBRthis" = some x := by
    rw [hm8oth "FRBRthis" (by decide)]; exact ⟨xmt0, hxmt0⟩
  obtain ⟨s9, hs9⟩ := blockSetVal_some ns "FRBRManifestation" "FRBRthis" (u.expression_uri true)
    s8 m8 xmt8 hm8 hxmt8
  obtain ⟨hs9tag, -, hs9oth, m9a, m9, hm9a, hm9, hm9tag, -, hm9oth, xmt9, hxmt9, hxmt9b⟩ :=
    blockSetVal_spec ns "FRBRManifestation" "FRBRthis" (u.expression_uri true) s8 s9 hs9
  rw [hm8] at hm9a
  obtain rfl := Option.some.inj hm9a
  -- assemble
  have hW9 : s9.fchild ns "FRBRWork" = some w5 := by
    rw [hs9oth "FRBRWork" (by decide), hs8oth "FRBRWork" (by decide),
      hs7oth "FRBRWork" (by decide), hs6oth "FRBRWork" (by decide)]
    exact hw5
  have hWuri : w5.fchild ns "FRBRuri" = some (xu1.setAttr "value" u.uri) := by
    rw [hw5oth "FRBRuri" (by decide), hw4oth "FRBRuri" (by decide),
      hw3oth "FRBRuri" (by decide), hw2oth "FRBRuri" (by decide)]
    exact hxu1b
  have hWthis : w5.fchild ns "FRBRthis" = some (xt2.setAttr "value" (u.work_uri true)) := by
    rw [hw5oth "FRBRthis" (by decide), hw4oth "FRBRthis" (by decide),
      hw3oth "FRBRthis" (by decide)]
    exact hxt2b
  have hWcountry : w5.fchild ns "FRBRcountry" = some (xc3.setAttr "value" u.place) := by
    rw [hw5oth "FRBRcountry" (by decide), hw4oth "FRBRcountry" (by decide)]
    exact hxc3b
  have hWnumber : (w5.fchild ns "FRBRnumber").bind (fun x => Elem.getAttr x "value")
      = some u.number := by
    rw [hw5oth "FRBRnumber" (by decide)]
    exact hw4num
  have hX9 : s9.fchild ns "FRBRExpression" = some x7 := by
    rw [hs9oth "FRBRExpression" (by decide), hs8oth "FRBRExpression" (by decide)]
    exact hx7
  have hXuri : x7.fchild ns "FRBRuri"
      = some (xeu6.setAttr "value" (u.expression_uri false)) := by
    rw [hx7oth "FRBRuri" (by decide)]
    exact hxeu6b
  have hMuri : m9.fchild ns "FRBRuri"
      = some (xmu8.setAttr "value" (u.expression_uri false)) := by
    rw [hm9oth "FRBRuri" (by decide)]
    exact hxmu8b
  refine ⟨s9, ?_, ?_, ?_, ?_, ?_, ?_, ?_, ?_, ?_, ?_, ?_⟩
  · show updateIdent ns u ident = some s9
    unfold updateIdent
    simp only [hs1, hs2, hs3, hs4, hs5eq, hs6, hs7, hs8, hs9, Bind.bind, Option.bind]
  · rw [hs9tag, hs8tag, hs7tag, hs6tag, hs5tag, hs4tag, hs3tag, hs2tag, hs1tag]
  · simp [readIdentVal, hW9, hWuri, Option.bind, Elem.getAttr_setAttr_same]
  · simp [readIdentVal, hW9, hWthis, Option.bind, Elem.getAttr_setAttr_same]
  · simp [readIdentVal, hW9, hWcountry, Option.bind, Elem.getAttr_setAttr_same]
  · simpa [readIdentVal, hW9, Option.bind] using hWnumber
  · simp [readIdentVal, hX9, hXuri, Option.bind, Elem.getAttr_setAttr_same]
  · simp [readIdentVal, hX9, hxet7b, Option.bind, Elem.getAttr_setAttr_same]
  · simp [readIdentVal, hm9, hMuri, Option.bind, Elem.getAttr_setAttr_same]
  · simp [readIdentVal, hm9, hxmt9b, Option.bind, Elem.getAttr_setAttr_same]
  · rw [hX9]
    show x7.fchild ns "FRBRdate" = x0.fchild ns "FRBRdate"
    rw [hx7oth "FRBRdate" (by decide), hx6oth "FRBRdate" (by decide)]


theorem divergeB_append_right : ∀ (p q r : List Nat),
    divergeB p q = true → divergeB p (q ++ r) = true := by
  intro p
  induction p with
  | nil => intro q r h; cases q <;> cases h
  | cons i p ih =>
    intro q r h
    cases q with
    | nil => cases h
    | cons j q =>
      simp only [divergeB, List.cons_append] at h ⊢
      by_cases hij : i = j
      · rw [if_pos hij] at h ⊢
        exact ih q r h
      · rw [if_neg hij]

/-- The setter's component loop over a list of entries paired with the
relative identification path of each component: it succeeds, leaves each
component's identification block rewritten for that component's own
work-component name, carries the last name in the returned URI value,
preserves each Expression date element, and leaves subtrees divergent
from every touched identification path untouched. -/
theorem syncFold_spec (ns : String) :
    ∀ (l : List ((Option String × List Nat) × List Nat)) (root : Elem) (u : FrbrUri),
    (∀ pr ∈ l, (getAt pr.1.2 root).bind (findMetaIdentPath ns) = some pr.2
      ∧ ∃ id1, getAt (pr.1.2 ++ pr.2) root = some id1 ∧ identWFb ns id1 = true) →
    List.Pairwise (fun a b => divergeB (a.1.2 ++ a.2) b.1.2 = true) l →
    ∃ rootF, syncFold ns (l.map (fun pr => pr.1)) (root, u)
        = some (rootF,
            { u with work_component := l.foldl (fun _ pr => pr.1.1) u.work_component })
      ∧ (∀ pr ∈ l, ∃ id1 id2,
          getAt (pr.1.2 ++ pr.2) root = some id1
          ∧ getAt (pr.1.2 ++ pr.2) rootF = some id2
          ∧ id2.tag = id1.tag
          ∧ identSet ns { u with work_component := pr.1.1 } id2
          ∧ ((id2.fchild ns "FRBRExpression").bind (fun x => x.fchild ns "FRBRdate")
              = (id1.fchild ns "FRBRExpression").bind (fun x => x.fchild ns "FRBRdate")))
      ∧ (∀ q, (∀ pr ∈ l, divergeB (pr.1.2 ++ pr.2) q = true) →
          getAt q rootF = getAt q root)
      ∧ (∀ segs rp, resolveSegsPath ns segs root = some rp →
          (∀ pr ∈ l, isPrefixB rp (pr.1.2 ++ pr.2) = true
            ∨ divergeB rp (pr.1.2 ++ pr.2) = true) →
          resolveSegsPath ns segs rootF = some rp) := by
  intro l
  induction l with
  | nil =>
    intro root u _ _
    exact ⟨root, rfl, fun pr hpr => absurd hpr (List.not_mem_nil pr), fun q _ => rfl,
      fun segs rp h _ => h⟩
  | cons pr l2 ih =>
    intro root u hall hpw
    obtain ⟨hbind0, id1, hid1, hwf1⟩ := hall pr (List.mem_cons_self pr l2)
    cases hcomp : getAt pr.1.2 root with
    | none => rw [hcomp] at hbind0; cases hbind0
    | some comp =>
    rw [hcomp] at hbind0
    simp only [Option.bind] at hbind0
    have hpwhead := (List.pairwise_cons.mp hpw).1
    have hpwtail := (List.pairwise_cons.mp hpw).2
    obtain ⟨id2, hupd, hid2tag, h3, h4, h5, h6, h7, h8, h9, h10, hdate⟩ :=
      updateIdent_spec ns { u with work_component := pr.1.1 } id1 hwf1
    obtain ⟨root2, hroot2⟩ := modifyAt_of_getAt (pr.1.2 ++ pr.2)
      (updateIdent ns { u with work_component := pr.1.1 }) root id1 id2 hid1 hupd
    have hstep : syncStep ns (root, u) pr.1
        = some (root2, { u with work_component := pr.1.1 }) := by
      simp only [syncStep, hcomp, hbind0, hroot2, Bind.bind, Option.bind, Option.pure_def]
    have hframe2 : ∀ q, divergeB (pr.1.2 ++ pr.2) q = true →
        getAt q root2 = getAt q root :=
      fun q hq => getAt_modifyAt_diverge _ _ _ _ _ hroot2 hq
    have hall2 : ∀ pr2 ∈ l2, (getAt pr2.1.2 root2).bind (findMetaIdentPath ns) = some pr2.2
        ∧ ∃ idx, getAt (pr2.1.2 ++ pr2.2) root2 = some idx ∧ identWFb ns idx = true := by
      intro pr2 hpr2
      obtain ⟨hb, idx, hidx, hwfx⟩ := hall pr2 (List.mem_cons_of_mem pr hpr2)
      refine ⟨?_, idx, ?_, hwfx⟩
      · rw [hframe2 pr2.1.2 (hpwhead pr2 hpr2)]
        exact hb
      · rw [hframe2 (pr2.1.2 ++ pr2.2) (divergeB_append_right _ _ _ (hpwhead pr2 hpr2))]
        exact hidx
    obtain ⟨rootF, hfold2, hents2, hframe3, hframe4⟩ :=
      ih root2 { u with work_component := pr.1.1 } hall2 hpwtail
    refine ⟨rootF, ?_, ?_, ?_, ?_⟩
    · show (syncStep ns (root, u) pr.1).bind
        (syncFold ns (l2.map (fun pr => pr.1))) = _
      rw [hstep]
      show syncFold ns (l2.map (fun pr => pr.1))
        (root2, { u with work_component := pr.1.1 }) = _
      rw [hfold2]
      rfl
    · intro pr2 hpr2
      rcases List.mem_cons.mp hpr2 with rfl | hpr2b
      · refine ⟨id1, id2, hid1, ?_, hid2tag, ⟨h3, h4, h5, h6, h7, h8, h9, h10⟩, hdate⟩
        have hdivq : ∀ pr3 ∈ l2, divergeB (pr3.1.2 ++ pr3.2) (pr2.1.2 ++ pr2.2) = true := by
          intro pr3 hpr3
          rw [divergeB_symm]
          exact divergeB_append_right _ _ _ (hpwhead pr3 hpr3)
        rw [hframe3 (pr2.1.2 ++ pr2.2) hdivq]
        obtain ⟨c, c2, hc, hfc, hc2⟩ := modifyAt_spec _ _ _ _ hroot2
        rw [hid1] at hc
        obtain rfl := Option.some.inj hc
        rw [hupd] at hfc
        obtain rfl := Option.some.inj hfc
        exact hc2
      · obtain ⟨id1b, id2b, hid1b, hid2b, htagb, hsetb, hdateb⟩ := hents2 pr2 hpr2b
        have heq : getAt (pr2.1.2 ++ pr2.2) root2 = getAt (pr2.1.2 ++ pr2.2) root :=
          hframe2 _ (divergeB_append_right _ _ _ (hpwhead pr2 hpr2b))
        exact ⟨id1b, id2b, by rw [← heq]; exact hid1b, hid2b, htagb, hsetb, hdateb⟩
    · intro q hq
      rw [hframe3 q (fun pr2 hpr2 => hq pr2 (List.mem_cons_of_mem pr hpr2)),
        hframe2 q (hq pr (List.mem_cons_self pr l2))]
    · intro segs rp hres hcond
      have hstab : resolveSegsPath ns segs root2 = some rp :=
        resolveSegsPath_modifyAt_stable ns segs root root2 (pr.1.2 ++ pr.2) _ rp hroot2
          (fun c c2 hc hfc => by
            rw [hid1] at hc
            obtain rfl := Option.some.inj hc
            rw [hupd] at hfc
            obtain rfl := Option.some.inj hfc
            exact hid2tag)
          hres (hcond pr (List.mem_cons_self pr l2))
      exact hframe4 segs rp hstab (fun pr2 hpr2 => hcond pr2 (List.mem_cons_of_mem pr hpr2))


/-- C1: After setting `frbr_uri` on a document whose every discovered
component carries a well-formed identification block, every component
(including the primary document) has its six URI strings rewritten with
that component's own work-component name, and the Manifestation FRBRuri
and FRBRthis strings are textually identical to the Expression block's
strings. -/
theorem c1_set_frbr_uri (ns dt : String) (root : Elem) (u0 u1 : FrbrUri)
    (l : List ((Option String × List Nat) × List Nat))
    (hpre : syncPrelude ns dt root u0 = some u1)
    (hcomps : componentEntries ns dt root = some (l.map (fun pr => pr.1)))
    (hids : ∀ pr ∈ l, (getAt pr.1.2 root).bind (findMetaIdentPath ns) = some pr.2
      ∧ (getAt (pr.1.2 ++ pr.2) root).map (identWFb ns) = some true)
    (hdiv : List.Pairwise (fun a b => divergeB (a.1.2 ++ a.2) b.1.2 = true) l) :
    ∃ rootF uF, set_frbr_uri ns dt root u0 = some (rootF, uF)
      ∧ ∀ pr ∈ l, ∃ id2, getAt (pr.1.2 ++ pr.2) rootF = some id2
          ∧ identSet ns { u1 with work_component := pr.1.1 } id2
          ∧ readIdentVal ns "FRBRManifestation" "FRBRuri" id2
              = readIdentVal ns "FRBRExpression" "FRBRuri" id2
          ∧ readIdentVal ns "FRBRManifestation" "FRBRthis" id2
              = readIdentVal ns "FRBRExpression" "FRBRthis" id2 := by
  have hids2 : ∀ pr ∈ l, (getAt pr.1.2 root).bind (findMetaIdentPath ns) = some pr.2
      ∧ ∃ id1, getAt (pr.1.2 ++ pr.2) root = some id1 ∧ identWFb ns id1 = true := by
    intro pr hpr
    obtain ⟨h1, h2⟩ := hids pr hpr
    refine ⟨h1, ?_⟩
    cases hg : getAt (pr.1.2 ++ pr.2) root with
    | none => rw [hg] at h2; cases h2
    | some id1 =>
      rw [hg] at h2
      simp only [Option.map_some', Option.some.injEq] at h2
      exact ⟨id1, rfl, h2⟩
  obtain ⟨rootF, hfold, hents, -, -⟩ := syncFold_spec ns l root u1 hids2 hdiv
  refine ⟨rootF,
    { u1 with work_component := l.foldl (fun _ pr => pr.1.1) u1.work_component }, ?_, ?_⟩
  · show set_frbr_uri ns dt root u0 = _
    unfold set_frbr_uri
    simp only [hpre, hcomps, Bind.bind, Option.bind]
    exact hfold
  · intro pr hpr
    obtain ⟨id1, id2, hid1, hid2, htag, hset, hdate⟩ := hents pr hpr
    obtain ⟨g3, g4, g5, g6, g7, g8, g9, g10⟩ := hset
    exact ⟨id2, hid2, ⟨g3, g4, g5, g6, g7, g8, g9, g10⟩, by rw [g9, g7], by rw [g10, g8]⟩


/-- Element constructor in the witness namespace "x". -/
def wuE (t : String) (attrs : List (String × String)) (ch : List Elem) : Elem :=
  Elem.mk (qn "x" t) attrs ch

/-- A well-formed identification block whose Work FRBRthis carries the
given URI value, with the given Expression date and language. -/
def wuIdent (thisv expd lang : String) : Elem :=
  wuE "identification" [] [
    wuE "FRBRWork" [] [
      wuE "FRBRthis" [("value", thisv)] [],
      wuE "FRBRuri" [("value", "/akn/za/act/2005/1")] [],
      wuE "FRBRcountry" [("value", "za")] [],
      wuE "FRBRdate" [("date", "2005-02-03")] []],
    wuE "FRBRExpression" [] [
      wuE "FRBRuri" [("value", "/akn/za/act/2005/1/eng@2005-02-03")] [],
      wuE "FRBRthis" [("value", "/akn/za/act/2005/1/eng@2005-02-03")] [],
      wuE "FRBRdate" [("date", expd)] [],
      wuE "FRBRlanguage" [("language", lang)] []],
    wuE "FRBRManifestation" [] [
      wuE "FRBRuri" [("value", "/akn/za/act/2005/1/eng@2005-02-03")] [],
      wuE "FRBRthis" [("value", "/akn/za/act/2005/1/eng@2005-02-03")] [],
      wuE "FRBRdate" [("date", "2005-02-03")] []]]

/-- An act with one attachment component named schedule1. -/
def wuDoc : Elem :=
  wuE "akomaNtoso" [] [
    wuE "act" [] [
      wuE "meta" [] [wuIdent "/akn/za/act/2005/1/!main" "2005-02-03" "eng"],
      wuE "body" [] [],
      wuE "attachments" [] [
        wuE "attachment" [] [
          wuE "doc" [] [
            wuE "meta" [] [wuIdent "/akn/za/act/2005/1/!schedule1" "2005-02-03" "eng"],
            wuE "mainBody" [] []]]]]]

/-- `wuDoc` after the expression-date write "2007-01-02" on the main
document's identification block. -/
def wuDocB : Elem :=
  wuE "akomaNtoso" [] [
    wuE "act" [] [
      wuE "meta" [] [wuIdent "/akn/za/act/2005/1/!main" "2007-01-02" "eng"],
      wuE "body" [] [],
      wuE "attachments" [] [
        wuE "attachment" [] [
          wuE "doc" [] [
            wuE "meta" [] [wuIdent "/akn/za/act/2005/1/!schedule1" "2005-02-03" "eng"],
            wuE "mainBody" [] []]]]]]

/-- The URI value the document's manifestation URI parses to. -/
def wuU0 : FrbrUri :=
  { pfx := "akn", country := "za", locality := none, doctype := "act",
    subtype := none, actor := none, date := "2005", number := "1",
    work_component := none, language := "eng", expression_date := "@2005-02-03" }

/-- The prelude's output for `wuDoc` and `wuU0`. -/
def wuU1 : FrbrUri :=
  { wuU0 with work_component := some "main" }

/-- The component entries of `wuDoc` with each component's relative
identification path. -/
def wuEnts : List ((Option String × List Nat) × List Nat) :=
  [((some "main", [0]), [0, 0]), ((some "schedule1", [0, 2, 0, 0]), [0, 0])]

theorem c1_witness :
    syncPrelude "x" "act" wuDoc wuU0 = some wuU1
    ∧ componentEntries "x" "act" wuDoc = some (wuEnts.map (fun pr => pr.1))
    ∧ (∃ rootF uF, set_frbr_uri "x" "act" wuDoc wuU0 = some (rootF, uF)
        ∧ ∀ pr ∈ wuEnts, ∃ id2, getAt (pr.1.2 ++ pr.2) rootF = some id2
            ∧ identSet "x" { wuU1 with work_component := pr.1.1 } id2
            ∧ readIdentVal "x" "FRBRManifestation" "FRBRuri" id2
                = readIdentVal "x" "FRBRExpression" "FRBRuri" id2
            ∧ readIdentVal "x" "FRBRManifestation" "FRBRthis" id2
                = readIdentVal "x" "FRBRExpression" "FRBRthis" id2) :=
  ⟨by decide, by decide,
    c1_set_frbr_uri "x" "act" wuDoc wuU0 wuU1 wuEnts (by decide) (by decide)
      (by decide) (by decide)⟩


theorem foldl_name_getLast :
    ∀ (l : List ((Option String × List Nat) × List Nat)) (hne : l ≠ [])
      (d : Option String),
      l.foldl (fun _ pr => pr.1.1) d = (l.getLast hne).1.1 := by
  intro l
  induction l with
  | nil => intro h; exact absurd rfl h
  | cons a t ih =>
    intro _ d
    cases t with
    | nil => rfl
    | cons b t2 =>
      show (b :: t2).foldl (fun _ pr => pr.1.1) a.1.1 = _
      rw [ih (List.cons_ne_nil b t2) a.1.1]
      rfl

/-- C9: the `frbr_uri` setter mutates the `FrbrUri` value object passed
to it in place: the final state of the caller's object (the URI value
returned by `set_frbr_uri`) keeps every field of the argument except
`language`, `expression_date` and `work_component`, which are
overwritten — the language and expression date with the document's, and
the work component with the name of the last component processed. -/
theorem c9_setter_mutates_argument (ns dt : String) (root : Elem) (u0 : FrbrUri)
    (langEl : Elem) (ed : SimpleDate)
    (l : List ((Option String × List Nat) × List Nat))
    (hlang : getElemSegs ns [dt, "meta", "identification", "FRBRExpression",
      "FRBRlanguage"] root = some langEl)
    (hed : expression_date_get ns dt root = some ed)
    (hcomps : componentEntries ns dt root = some (l.map (fun pr => pr.1)))
    (hids : ∀ pr ∈ l, (getAt pr.1.2 root).bind (findMetaIdentPath ns) = some pr.2
      ∧ (getAt (pr.1.2 ++ pr.2) root).map (identWFb ns) = some true)
    (hdiv : List.Pairwise (fun a b => divergeB (a.1.2 ++ a.2) b.1.2 = true) l)
    (hne : l ≠ []) :
    ∃ rootF, set_frbr_uri ns dt root u0 = some (rootF,
      { u0 with language := (langEl.getAttr "language").getD "eng",
                expression_date := "@" ++ datestring (DateArg.dateV ed),
                work_component := (l.getLast hne).1.1 }) := by
  have hids2 : ∀ pr ∈ l, (getAt pr.1.2 root).bind (findMetaIdentPath ns) = some pr.2
      ∧ ∃ id1, getAt (pr.1.2 ++ pr.2) root = some id1 ∧ identWFb ns id1 = true := by
    intro pr hpr
    obtain ⟨h1, h2⟩ := hids pr hpr
    refine ⟨h1, ?_⟩
    cases hg : getAt (pr.1.2 ++ pr.2) root with
    | none => rw [hg] at h2; cases h2
    | some id1 =>
      rw [hg] at h2
      simp only [Option.map_some', Option.some.injEq] at h2
      exact ⟨id1, rfl, h2⟩
  by_cases hwc : u0.work_component = none
  · have hpre : syncPrelude ns dt root u0 = some
        { u0 with language := (langEl.getAttr "language").getD "eng",
                  expression_date := "@" ++ datestring (DateArg.dateV ed),
                  work_component := some "main" } := by
      unfold syncPrelude
      simp only [hlang, hed, Bind.bind, Option.bind, Option.pure_def, hwc, if_pos]
    obtain ⟨rootF, hfold, -, -, -⟩ := syncFold_spec ns l root
      { u0 with language := (langEl.getAttr "language").getD "eng",
                expression_date := "@" ++ datestring (DateArg.dateV ed),
                work_component := some "main" } hids2 hdiv
    refine ⟨rootF, ?_⟩
    unfold set_frbr_uri
    simp only [hpre, hcomps, Bind.bind, Option.bind]
    rw [hfold]
    rw [foldl_name_getLast l hne]
  · have hpre : syncPrelude ns dt root u0 = some
        { u0 with language := (langEl.getAttr "language").getD "eng",
                  expression_date := "@" ++ datestring (DateArg.dateV ed) } := by
      unfold syncPrelude
      simp only [hlang, hed, Bind.bind, Option.bind, Option.pure_def]
      rw [if_neg]
      exact hwc
    obtain ⟨rootF, hfold, -, -, -⟩ := syncFold_spec ns l root
      { u0 with language := (langEl.getAttr "language").getD "eng",
                expression_date := "@" ++ datestring (DateArg.dateV ed) } hids2 hdiv
    refine ⟨rootF, ?_⟩
    unfold set_frbr_uri
    simp only [hpre, hcomps, Bind.bind, Option.bind]
    rw [hfold]
    rw [foldl_name_getLast l hne]

theorem c9_witness :
    (getElemSegs "x" ["act", "meta", "identification", "FRBRExpression",
        "FRBRlanguage"] wuDoc = some (wuE "FRBRlanguage" [("language", "eng")] []))
    ∧ expression_date_get "x" "act" wuDoc = some ⟨2005, 2, 3⟩
    ∧ wuEnts ≠ []
    ∧ ∃ rootF, set_frbr_uri "x" "act" wuDoc wuU0 = some (rootF,
        { wuU0 with language := "eng", expression_date := "@2005-02-03",
                    work_component := some "schedule1" }) :=
  ⟨rfl, by decide, by decide,
    c9_setter_mutates_argument "x" "act" wuDoc wuU0
      (wuE "FRBRlanguage" [("language", "eng")] []) ⟨2005, 2, 3⟩ wuEnts
      rfl (by decide) (by decide) (by decide) (by decide) (by decide)⟩


theorem getElemSegs_two (ns a b : String) (c : Elem) :
    getElemSegs ns [a, b] c = (c.fchild ns a).bind (fun d => d.fchild ns b) := by
  cases hd : c.fchild ns a with
  | none => simp [getElemSegs, hd]
  | some d =>
    cases he : d.fchild ns b with
    | none => simp [getElemSegs, hd, he, Option.bind]
    | some e2 => simp [getElemSegs, hd, he, Option.bind]

theorem syncPrelude_some (ns dt : String) (root : Elem) (u0 : FrbrUri)
    (langEl : Elem) (ed : SimpleDate)
    (hlang : getElemSegs ns [dt, "meta", "identification", "FRBRExpression",
      "FRBRlanguage"] root = some langEl)
    (hed : expression_date_get ns dt root = some ed) :
    ∃ u1, syncPrelude ns dt root u0 = some u1 := by
  unfold syncPrelude
  simp only [hlang, hed, Bind.bind, Option.bind, Option.pure_def]
  exact ⟨_, rfl⟩


/-- C10: each date-valued setter stores `datestring` of its argument in
the "date" attribute of the targeted FRBRdate element — for
`expression_date` the stored value survives the triggered
resynchronization — and `datestring` maps None to the empty string, a
string through verbatim, and a date to zero-padded YYYY-MM-DD. -/
theorem c10_date_setters (ns dt : String) (root r1 : Elem) (v : DateArg)
    (u0 : FrbrUri) (eW eM : Elem) (langEl : Elem) (ed : SimpleDate)
    (pr0 : (Option String × List Nat) × List Nat)
    (l : List ((Option String × List Nat) × List Nat))
    (hW : getElemSegs ns [dt, "meta", "identification", "FRBRWork", "FRBRdate"] root
      = some eW)
    (hM : getElemSegs ns [dt, "meta", "identification", "FRBRManifestation",
      "FRBRdate"] root = some eM)
    (hmod : modSegs ns [dt, "meta", "identification", "FRBRExpression", "FRBRdate"]
      (fun e => some (e.setAttr "date" (datestring v))) root = some r1)
    (hlang : getElemSegs ns [dt, "meta", "identification", "FRBRExpression",
      "FRBRlanguage"] r1 = some langEl)
    (hed : expression_date_get ns dt r1 = some ed)
    (hread : frbr_uri_get ns dt r1 = some u0)
    (hcomps : componentEntries ns dt r1 = some (l.map (fun pr => pr.1)))
    (hids : ∀ pr ∈ l, (getAt pr.1.2 r1).bind (findMetaIdentPath ns) = some pr.2
      ∧ (getAt (pr.1.2 ++ pr.2) r1).map (identWFb ns) = some true)
    (hdiv : List.Pairwise (fun a b => divergeB (a.1.2 ++ a.2) b.1.2 = true) l)
    (hpr0 : pr0 ∈ l)
    (hres : resolveSegsPath ns [dt, "meta", "identification"] r1
      = some (pr0.1.2 ++ pr0.2))
    (hclear : ∀ pr ∈ l, isPrefixB (pr0.1.2 ++ pr0.2) (pr.1.2 ++ pr.2) = true
        ∨ divergeB (pr0.1.2 ++ pr0.2) (pr.1.2 ++ pr.2) = true) :
    (∃ r2, set_work_date ns dt root v = some r2
      ∧ (getElemSegs ns [dt, "meta", "identification", "FRBRWork", "FRBRdate"] r2).bind
          (fun e => e.getAttr "date") = some (datestring v))
    ∧ (∃ r2, set_manifestation_date ns dt root v = some r2
      ∧ (getElemSegs ns [dt, "meta", "identification", "FRBRManifestation",
          "FRBRdate"] r2).bind (fun e => e.getAttr "date") = some (datestring v))
    ∧ (∃ r2, set_expression_date ns dt root v = some (r2, true)
      ∧ (getElemSegs ns [dt, "meta", "identification", "FRBRExpression",
          "FRBRdate"] r2).bind (fun e => e.getAttr "date") = some (datestring v))
    ∧ datestring DateArg.noneV = ""
    ∧ (∀ s, datestring (DateArg.strV s) = s)
    ∧ (∀ y m d, datestring (DateArg.dateV ⟨y, m, d⟩)
        = padNum 4 y ++ "-" ++ padNum 2 m ++ "-" ++ padNum 2 d) := by
  have hsetattr_tag : ∀ c c2 : Elem,
      (fun e => some (e.setAttr "date" (datestring v))) c = some c2 → c2.tag = c.tag := by
    intro c c2 hc
    obtain rfl := Option.some.inj hc
    rfl
  refine ⟨?_, ?_, ?_, rfl, fun s => rfl, fun y m d => rfl⟩
  · obtain ⟨r2, hr2⟩ := modSegs_of_getElemSegs ns _
      (fun e => some (e.setAttr "date" (datestring v))) root eW
      (eW.setAttr "date" (datestring v)) hW rfl
    obtain ⟨x, x2, hx, hfx, hx2⟩ := getElemSegs_modSegs ns _ _ hsetattr_tag root r2 hr2
    obtain rfl := Option.some.inj hfx
    refine ⟨r2, hr2, ?_⟩
    rw [hx2]
    simp [Option.bind, Elem.getAttr_setAttr_same]
  · obtain ⟨r2, hr2⟩ := modSegs_of_getElemSegs ns _
      (fun e => some (e.setAttr "date" (datestring v))) root eM
      (eM.setAttr "date" (datestring v)) hM rfl
    obtain ⟨x, x2, hx, hfx, hx2⟩ := getElemSegs_modSegs ns _ _ hsetattr_tag root r2 hr2
    obtain rfl := Option.some.inj hfx
    refine ⟨r2, hr2, ?_⟩
    rw [hx2]
    simp [Option.bind, Elem.getAttr_setAttr_same]
  · have hids2 : ∀ pr ∈ l, (getAt pr.1.2 r1).bind (findMetaIdentPath ns) = some pr.2
        ∧ ∃ id1, getAt (pr.1.2 ++ pr.2) r1 = some id1 ∧ identWFb ns id1 = true := by
      intro pr hpr
      obtain ⟨h1, h2⟩ := hids pr hpr
      refine ⟨h1, ?_⟩
      cases hg : getAt (pr.1.2 ++ pr.2) r1 with
      | none => rw [hg] at h2; cases h2
      | some idd =>
        rw [hg] at h2
        simp only [Option.map_some', Option.some.injEq] at h2
        exact ⟨idd, rfl, h2⟩
    obtain ⟨u1, hpre⟩ := syncPrelude_some ns dt r1 u0 langEl ed hlang hed
    obtain ⟨rootF, hfold, hents, -, hstab⟩ := syncFold_spec ns l r1 u1 hids2 hdiv
    have hsed : set_expression_date ns dt root v = some (rootF, true) := by
      unfold set_expression_date resyncSelf set_frbr_uri
      simp only [hmod, hread, hpre, hcomps, Bind.bind, Option.bind, hfold]
    refine ⟨rootF, hsed, ?_⟩
    obtain ⟨id1, id2, hid1, hid2, htag, hset, hdate⟩ := hents pr0 hpr0
    have hstabF : resolveSegsPath ns [dt, "meta", "identification"] rootF
        = some (pr0.1.2 ++ pr0.2) := hstab _ _ hres hclear
    have hg3F : getElemSegs ns [dt, "meta", "identification"] rootF = some id2 := by
      rw [resolveSegsPath_getElemSegs ns _ rootF _ hstabF]
      exact hid2
    have hg3r1 : getElemSegs ns [dt, "meta", "identification"] r1 = some id1 := by
      rw [resolveSegsPath_getElemSegs ns _ r1 _ hres]
      exact hid1
    obtain ⟨x, x2, hx, hfx, hx2⟩ := getElemSegs_modSegs ns _ _ hsetattr_tag root r1 hmod
    obtain rfl := Option.some.inj hfx
    have hsplit : ([dt, "meta", "identification", "FRBRExpression", "FRBRdate"]
        : List String) = [dt, "meta", "identification"] ++ ["FRBRExpression", "FRBRdate"] := rfl
    rw [hsplit, getElemSegs_append, hg3r1] at hx2
    rw [hsplit, getElemSegs_append, hg3F]
    have hx2b : getElemSegs ns ["FRBRExpression", "FRBRdate"] id1
        = some (x.setAttr "date" (datestring v)) := hx2
    rw [getElemSegs_two] at hx2b
    show (Option.bind (getElemSegs ns ["FRBRExpression", "FRBRdate"] id2))
      (fun e => e.getAttr "date") = some (datestring v)
    rw [getElemSegs_two, hdate, hx2b]
    simp [Option.bind, Elem.getAttr_setAttr_same]


theorem c10_witness :
    modSegs "x" ["act", "meta", "identification", "FRBRExpression", "FRBRdate"]
        (fun e => some (e.setAttr "date" (datestring (DateArg.dateV ⟨2007, 1, 2⟩)))) wuDoc
      = some wuDocB
    ∧ frbr_uri_get "x" "act" wuDocB = some wuU0
    ∧ expression_date_get "x" "act" wuDocB = some ⟨2007, 1, 2⟩
    ∧ ((∃ r2, set_work_date "x" "act" wuDoc (DateArg.dateV ⟨2007, 1, 2⟩) = some r2
        ∧ (getElemSegs "x" ["act", "meta", "identification", "FRBRWork", "FRBRdate"]
            r2).bind (fun e => e.getAttr "date")
          = some (datestring (DateArg.dateV ⟨2007, 1, 2⟩)))
      ∧ (∃ r2, set_manifestation_date "x" "act" wuDoc (DateArg.dateV ⟨2007, 1, 2⟩) = some r2
        ∧ (getElemSegs "x" ["act", "meta", "identification", "FRBRManifestation",
            "FRBRdate"] r2).bind (fun e => e.getAttr "date")
          = some (datestring (DateArg.dateV ⟨2007, 1, 2⟩)))
      ∧ (∃ r2, set_expression_date "x" "act" wuDoc (DateArg.dateV ⟨2007, 1, 2⟩)
          = some (r2, true)
        ∧ (getElemSegs "x" ["act", "meta", "identification", "FRBRExpression",
            "FRBRdate"] r2).bind (fun e => e.getAttr "date")
          = some (datestring (DateArg.dateV ⟨2007, 1, 2⟩)))
      ∧ datestring DateArg.noneV = ""
      ∧ (∀ s, datestring (DateArg.strV s) = s)
      ∧ (∀ y m d, datestring (DateArg.dateV ⟨y, m, d⟩)
          = padNum 4 y ++ "-" ++ padNum 2 m ++ "-" ++ padNum 2 d)) :=
  ⟨rfl, by decide, by decide,
    c10_date_setters "x" "act" wuDoc wuDocB (DateArg.dateV ⟨2007, 1, 2⟩) wuU0
      (wuE "FRBRdate" [("date", "2005-02-03")] [])
      (wuE "FRBRdate" [("date", "2005-02-03")] [])
      (wuE "FRBRlanguage" [("language", "eng")] []) ⟨2007, 1, 2⟩
      ((some "main", [0]), [0, 0]) wuEnts
      rfl rfl rfl rfl (by decide) (by decide) (by decide) (by decide) (by decide)
      (by decide) (by decide) (by decide)⟩


theorem splitOnChar_ne_nil (c : Char) : ∀ l, splitOnChar c l ≠ [] := by
  intro l
  cases l with
  | nil => exact fun h => List.noConfusion h
  | cons x xs =>
    show (match splitOnChar c xs with
      | [] => [[x]]
      | h :: t => if x = c then [] :: h :: t else (x :: h) :: t) ≠ []
    cases splitOnChar c xs with
    | nil => exact fun h => List.noConfusion h
    | cons h t =>
      show (if x = c then [] :: h :: t else (x :: h) :: t) ≠ []
      by_cases hx : x = c
      · rw [if_pos hx]; exact fun h => List.noConfusion h
      · rw [if_neg hx]; exact fun h => List.noConfusion h

theorem splitOnChar_cons (c x : Char) (xs : List Char) :
    splitOnChar c (x :: xs) = if x = c then [] :: splitOnChar c xs
      else match splitOnChar c xs with
        | [] => [[x]]
        | h :: t => (x :: h) :: t := by
  show (match splitOnChar c xs with
    | [] => [[x]]
    | h :: t => if x = c then [] :: h :: t else (x :: h) :: t) = _
  cases hs : splitOnChar c xs with
  | nil => exact absurd hs (splitOnChar_ne_nil c xs)
  | cons h t =>
    show (if x = c then [] :: h :: t else (x :: h) :: t) = _
    by_cases hx : x = c
    · rw [if_pos hx]
    · rw [if_neg hx]

theorem splitOnChar_no (c : Char) : ∀ (a : List Char), c ∉ a → splitOnChar c a = [a] := by
  intro a
  induction a with
  | nil => intro _; rfl
  | cons x xs ih =>
    intro hmem
    have hx : x ≠ c := fun h => hmem (h ▸ List.mem_cons_self x xs)
    have hxs : c ∉ xs := fun h => hmem (List.mem_cons_of_mem x h)
    rw [splitOnChar_cons, if_neg hx, ih hxs]

theorem splitOnChar_sep (c : Char) :
    ∀ (a l : List Char), c ∉ a →
      splitOnChar c (a ++ c :: l) = a :: splitOnChar c l := by
  intro a
  induction a with
  | nil =>
    intro l _
    rw [List.nil_append, splitOnChar_cons, if_pos rfl]
  | cons x xs ih =>
    intro l hmem
    have hx : x ≠ c := fun h => hmem (h ▸ List.mem_cons_self x xs)
    have hxs : c ∉ xs := fun h => hmem (List.mem_cons_of_mem x h)
    rw [List.cons_append, splitOnChar_cons, if_neg hx, ih l hxs]

theorem joinChar_cons (c : Char) (x : Char) (h : List Char) (t : List (List Char)) :
    joinChar c ((x :: h) :: t) = x :: joinChar c (h :: t) := by
  cases t with
  | nil => rfl
  | cons b t2 => rfl

theorem joinChar_splitOnChar (c : Char) : ∀ l, joinChar c (splitOnChar c l) = l := by
  intro l
  induction l with
  | nil => rfl
  | cons x xs ih =>
    rw [splitOnChar_cons]
    by_cases hx : x = c
    · rw [if_pos hx]
      cases hs : splitOnChar c xs with
      | nil => exact absurd hs (splitOnChar_ne_nil c xs)
      | cons h t =>
        rw [hs] at ih
        show c :: joinChar c (h :: t) = x :: xs
        rw [ih, hx]
    · rw [if_neg hx]
      cases hs : splitOnChar c xs with
      | nil => exact absurd hs (splitOnChar_ne_nil c xs)
      | cons h t =>
        rw [hs] at ih
        show joinChar c ((x :: h) :: t) = x :: xs
        rw [joinChar_cons, ih]

theorem mem_splitOnChar_subset (c : Char) :
    ∀ (l : List Char) (p : List Char), p ∈ splitOnChar c l → ∀ x ∈ p, x ∈ l := by
  intro l
  induction l with
  | nil =>
    intro p hp x hx
    simp only [splitOnChar, List.mem_singleton] at hp
    subst hp
    cases hx
  | cons y ys ih =>
    intro p hp x hx
    rw [splitOnChar_cons] at hp
    by_cases hy : y = c
    · rw [if_pos hy] at hp
      rcases List.mem_cons.mp hp with rfl | hp2
      · cases hx
      · exact List.mem_cons_of_mem y (ih p hp2 x hx)
    · rw [if_neg hy] at hp
      cases hs : splitOnChar c ys with
      | nil => exact absurd hs (splitOnChar_ne_nil c ys)
      | cons h t =>
        rw [hs] at hp
        have hp2 : p ∈ (y :: h) :: t := hp
        rcases List.mem_cons.mp hp2 with rfl | hp3
        · rcases List.mem_cons.mp hx with rfl | hx2
          · exact List.mem_cons_self x ys
          · refine List.mem_cons_of_mem y (ih h ?_ x hx2)
            rw [hs]
            exact List.mem_cons_self h t
        · refine List.mem_cons_of_mem y (ih p ?_ x hx)
          rw [hs]
          exact List.mem_cons_of_mem h hp3

theorem strExt (a b : String) (h : a.data = b.data) : a = b := by
  cases a
  cases b
  cases h
  rfl

theorem strMkData (s : String) : String.mk s.data = s := rfl

theorem strAppendEmpty (s : String) : s ++ "" = s :=
  strExt _ _ (by simp [String.data_append])


theorem parsePfx_spec (pfx place : String) (rest : List String)
    (h : pfx = "akn" ∨ (pfx = "" ∧ place ≠ "akn")) :
    FrbrUri.parsePfx ((if pfx = "" then [] else [pfx]) ++ place :: rest)
      = (pfx, place :: rest) := by
  rcases h with h | ⟨h1, h2⟩
  · subst h
    rw [if_neg (by decide)]
    show FrbrUri.parsePfx ("akn" :: place :: rest) = _
    simp [FrbrUri.parsePfx]
  · subst h1
    rw [if_pos rfl]
    show FrbrUri.parsePfx (place :: rest) = _
    simp [FrbrUri.parsePfx, h2]

theorem parsePlaceSeg_place (u : FrbrUri) (hcd : '-' ∉ u.country.data) :
    FrbrUri.parsePlaceSeg u.place = (u.country, u.locality) := by
  unfold FrbrUri.place
  cases hl : u.locality with
  | none =>
    show FrbrUri.parsePlaceSeg (u.country ++ "") = _
    rw [strAppendEmpty]
    unfold FrbrUri.parsePlaceSeg
    rw [splitOnChar_no '-' _ hcd]
  | some lx =>
    show FrbrUri.parsePlaceSeg (u.country ++ ("-" ++ lx)) = _
    unfold FrbrUri.parsePlaceSeg
    rw [show (u.country ++ ("-" ++ lx)).data = u.country.data ++ '-' :: lx.data from by
      simp [String.data_append]]
    rw [splitOnChar_sep '-' _ _ hcd]
    cases hs : splitOnChar '-' lx.data with
    | nil => exact absurd hs (splitOnChar_ne_nil '-' lx.data)
    | cons h t =>
      show (String.mk u.country.data, some (String.mk (joinChar '-' (h :: t)))) = _
      have hj : joinChar '-' (h :: t) = lx.data := by
        rw [← hs, joinChar_splitOnChar]
      rw [strMkData, hj, strMkData]

theorem parseSubSeg_spec (subtype : Option String) (date : String) (rest : List String)
    (hdig : date.data.head?.elim false Char.isDigit = true)
    (hst : ∀ st, subtype = some st →
      (st.data.head?.elim false Char.isDigit) = false) :
    FrbrUri.parseSubSeg ((subtype.elim [] (fun st => [st]))
        ++ date :: rest) = (subtype, date :: rest) := by
  cases subtype with
  | none =>
    show FrbrUri.parseSubSeg (date :: rest) = _
    simp [FrbrUri.parseSubSeg, hdig]
  | some st =>
    show FrbrUri.parseSubSeg (st :: date :: rest) = _
    simp [FrbrUri.parseSubSeg, hst st rfl]

theorem parseLangSeg_spec (seg language ed : String) (r : List String)
    (hseg : seg.data = language.data ++ ed.data)
    (hlat : '@' ∉ language.data)
    (hlbang : (language.data.head?.elim false (fun ch => ch = '!') : Bool) = false)
    (hed : ed = "" ∨ ed.data.head? = some '@') :
    FrbrUri.parseLangSeg (seg :: r) = (language, ed, r) := by
  have hbang2 : (seg.data.head?.elim false (fun c => decide (c = '!'))) = false := by
    rw [hseg]
    cases hl : language.data with
    | nil =>
      rcases hed with he | he
      · rw [he]
        rfl
      · cases hd : ed.data with
        | nil => rw [hd] at he; cases he
        | cons a l2 =>
          rw [hd] at he
          obtain rfl := Option.some.inj he
          rfl
    | cons a l2 =>
      rw [hl] at hlbang
      exact hlbang
  simp only [FrbrUri.parseLangSeg]
  rw [if_neg (fun hc => by rw [hbang2] at hc; exact Bool.noConfusion hc)]
  rcases hed with he | he
  · subst he
    rw [hseg, show language.data ++ ("" : String).data = language.data
      from List.append_nil _, splitOnChar_no '@' _ hlat]
    show (seg, "", r) = (language, "", r)
    have hsl : seg = language := strExt _ _ (by rw [hseg]; simp)
    rw [hsl]
  · cases hd : ed.data with
    | nil => rw [hd] at he; cases he
    | cons a tl =>
      rw [hd] at he
      obtain rfl := Option.some.inj he
      rw [hseg, hd, splitOnChar_sep '@' _ _ hlat]
      cases hs : splitOnChar '@' tl with
      | nil => exact absurd hs (splitOnChar_ne_nil '@' tl)
      | cons h t2 =>
        show (String.mk language.data, String.mk ('@' :: joinChar '@' (h :: t2)), r)
          = (language, ed, r)
        have hj : joinChar '@' (h :: t2) = tl := by
          rw [← hs, joinChar_splitOnChar]
        rw [strMkData, hj, show ('@' :: tl) = ed.data from hd.symm, strMkData]


/-- Character membership test. -/
def hasChar (c : Char) : List Char → Bool
  | [] => false
  | x :: xs => x = c || hasChar c xs

theorem hasChar_eq_false (c : Char) : ∀ l, hasChar c l = false ↔ c ∉ l := by
  intro l
  induction l with
  | nil => simp [hasChar]
  | cons x xs ih =>
    simp only [hasChar, Bool.or_eq_false_iff, decide_eq_false_iff_not, ih,
      List.mem_cons, not_or]
    constructor
    · intro ⟨h1, h2⟩
      exact ⟨fun h => h1 h.symm, h2⟩
    · intro ⟨h1, h2⟩
      exact ⟨fun h => h1 h.symm, h2⟩

/-- The shape of `FrbrUri` values whose expression-scoped URI string
parses back to the same value: the scheme prefix is "akn" or empty with a
place not mistakable for it, the mandatory coordinates are non-empty,
no coordinate embeds a separator that would shift the segment structure,
the date leads with a digit, a subtype does not, the language carries no
date separator and cannot be mistaken for a component, and the expression
date is empty or @-led. -/
def wfUriB (u : FrbrUri) : Bool :=
  (decide (u.pfx = "akn") || (decide (u.pfx = "") && decide (u.place ≠ "akn")))
  && decide (u.country ≠ "") && !hasChar '/' u.country.data && !hasChar '-' u.country.data
  && (match u.locality with | some lx => !hasChar '/' lx.data | none => true)
  && decide (u.doctype ≠ "") && !hasChar '/' u.doctype.data
  && (match u.subtype with
      | some st => !hasChar '/' st.data && !(st.data.head?.elim false Char.isDigit)
      | none => true)
  && (u.date.data.head?.elim false Char.isDigit) && !hasChar '/' u.date.data
  && decide (u.number ≠ "") && !hasChar '/' u.number.data
  && !hasChar '/' u.language.data && !hasChar '@' u.language.data
  && !(u.language.data.head?.elim false (fun ch => ch = '!'))
  && !hasChar '/' u.expression_date.data
  && (decide (u.expression_date = "") || decide (u.expression_date.data.head? = some '@'))

theorem splitOnChar_akn (l : List Char) :
    splitOnChar '/' ('a' :: 'k' :: 'n' :: '/' :: l)
      = ['a', 'k', 'n'] :: splitOnChar '/' l := by
  rw [show ('a' :: 'k' :: 'n' :: '/' :: l) = ['a', 'k', 'n'] ++ '/' :: l from rfl]
  exact splitOnChar_sep '/' ['a', 'k', 'n'] l (by decide)

theorem segsOf_expression_uri (u : FrbrUri)
    (hp : '/' ∉ u.place.data) (hd : '/' ∉ u.doctype.data)
    (hst : ∀ st, u.subtype = some st → '/' ∉ st.data)
    (hda : '/' ∉ u.date.data) (hn : '/' ∉ u.number.data)
    (hl : '/' ∉ u.language.data) (he : '/' ∉ u.expression_date.data)
    (hpfx : u.pfx = "akn" ∨ u.pfx = "") :
    FrbrUri.segsOf (u.expression_uri false)
      = "" :: ((if u.pfx = "" then [] else [u.pfx])
          ++ u.place :: u.doctype
          :: ((u.subtype.elim [] (fun st => [st]))
            ++ [u.date, u.number,
                String.mk (u.language.data ++ u.expression_date.data)])) := by
  have hle : '/' ∉ u.language.data ++ u.expression_date.data := by
    intro hmem
    rcases List.mem_append.mp hmem with h1 | h2
    · exact hl h1
    · exact he h2
  simp only [FrbrUri.expression_uri, FrbrUri.workUriBase, FrbrUri.compSuffix,
    FrbrUri.segsOf, String.data_append, List.append_assoc,
    List.nil_append, List.singleton_append]
  rw [if_neg (fun h => Bool.noConfusion h)]
  rcases hpfx with hpfx | hpfx
  · rw [hpfx]
    rw [(by decide : (if ("akn" : String) = "" then ("" : String) else "/" ++ "akn")
        = "/" ++ "akn")]
    rw [(by decide : (if ("akn" : String) = "" then ([] : List String) else ["akn"])
        = ["akn"])]
    cases hsub : u.subtype with
    | none =>
      simp only [String.data_append, List.append_assoc, List.append_nil,
        List.cons_append, List.nil_append, Option.elim]
      rw [splitOnChar_cons, if_pos rfl]
      rw [splitOnChar_akn]
      rw [splitOnChar_sep '/' _ _ hp]
      rw [splitOnChar_sep '/' _ _ hd]
      rw [splitOnChar_sep '/' _ _ hda]
      rw [splitOnChar_sep '/' _ _ hn]
      rw [splitOnChar_no '/' _ hle]
      simp only [List.map, strMkData]
    | some st =>
      simp only [String.data_append, List.append_assoc, List.append_nil,
        List.cons_append, List.nil_append, Option.elim]
      rw [splitOnChar_cons, if_pos rfl]
      rw [splitOnChar_akn]
      rw [splitOnChar_sep '/' _ _ hp]
      rw [splitOnChar_sep '/' _ _ hd]
      rw [splitOnChar_sep '/' _ _ (hst st hsub)]
      rw [splitOnChar_sep '/' _ _ hda]
      rw [splitOnChar_sep '/' _ _ hn]
      rw [splitOnChar_no '/' _ hle]
      simp only [List.map, strMkData]
  · rw [hpfx]
    rw [(by decide : (if ("" : String) = "" then ("" : String) else "/" ++ "")
        = "")]
    rw [(by decide : (if ("" : String) = "" then ([] : List String) else [""])
        = [])]
    cases hsub : u.subtype with
    | none =>
      simp only [String.data_append, List.append_assoc, List.append_nil,
        List.cons_append, List.nil_append, Option.elim,
        (by decide : ("" : String).data = [])]
      rw [splitOnChar_cons, if_pos rfl]
      rw [splitOnChar_sep '/' _ _ hp]
      rw [splitOnChar_sep '/' _ _ hd]
      rw [splitOnChar_sep '/' _ _ hda]
      rw [splitOnChar_sep '/' _ _ hn]
      rw [splitOnChar_no '/' _ hle]
      simp only [List.map, strMkData]
    | some st =>
      simp only [String.data_append, List.append_assoc, List.append_nil,
        List.cons_append, List.nil_append, Option.elim,
        (by decide : ("" : String).data = [])]
      rw [splitOnChar_cons, if_pos rfl]
      rw [splitOnChar_sep '/' _ _ hp]
      rw [splitOnChar_sep '/' _ _ hd]
      rw [splitOnChar_sep '/' _ _ (hst st hsub)]
      rw [splitOnChar_sep '/' _ _ hda]
      rw [splitOnChar_sep '/' _ _ hn]
      rw [splitOnChar_no '/' _ hle]
      simp only [List.map, strMkData]


/-- Modelled-from-spec roundtrip: the expression-scoped URI string of a
well-shaped `FrbrUri` value parses back to the same value, with no actor
and no work component (neither is serialized in this form). -/
theorem parse_expression_uri (u : FrbrUri) (hwf : wfUriB u = true) :
    FrbrUri.parse (u.expression_uri false)
      = some { u with actor := none, work_component := none } := by
  simp only [wfUriB, Bool.and_eq_true, Bool.or_eq_true, decide_eq_true_eq,
    Bool.not_eq_true'] at hwf
  obtain ⟨⟨⟨⟨⟨⟨⟨⟨⟨⟨⟨⟨⟨⟨⟨⟨h1, h2⟩, h3⟩, h4⟩, h5⟩, h6⟩, h7⟩, h8⟩, h9⟩, h10⟩,
    h11⟩, h12⟩, h13⟩, h14⟩, h15⟩, h16⟩, h17⟩ := hwf
  have hcns : '/' ∉ u.country.data := (hasChar_eq_false _ _).mp h3
  have hcd : '-' ∉ u.country.data := (hasChar_eq_false _ _).mp h4
  have hp : '/' ∉ u.place.data := by
    unfold FrbrUri.place
    cases hlc : u.locality with
    | none =>
      intro hmem
      rw [String.data_append] at hmem
      rcases List.mem_append.mp hmem with hx | hx
      · exact hcns hx
      · cases hx
    | some lx =>
      rw [hlc] at h5
      simp only [Bool.not_eq_true'] at h5
      have hlx : '/' ∉ lx.data := (hasChar_eq_false _ _).mp h5
      intro hmem
      rw [String.data_append] at hmem
      rcases List.mem_append.mp hmem with hx | hx
      · exact hcns hx
      · exact hlx (by simpa [String.data_append] using hx)
  have hplacene : u.place ≠ "" := by
    intro h0
    apply h2
    have hdata : u.place.data = [] := by rw [h0]
    unfold FrbrUri.place at hdata
    rw [String.data_append] at hdata
    obtain ⟨hc0, -⟩ := List.append_eq_nil.mp hdata
    exact strExt u.country "" hc0
  have hdtns : '/' ∉ u.doctype.data := (hasChar_eq_false _ _).mp h7
  have hstS : ∀ st, u.subtype = some st → '/' ∉ st.data := by
    intro st hst0
    rw [hst0] at h8
    simp only [Bool.and_eq_true, Bool.not_eq_true'] at h8
    exact (hasChar_eq_false _ _).mp h8.1
  have hstD : ∀ st, u.subtype = some st →
      (st.data.head?.elim false Char.isDigit) = false := by
    intro st hst0
    rw [hst0] at h8
    simp only [Bool.and_eq_true, Bool.not_eq_true'] at h8
    exact h8.2
  have hdans : '/' ∉ u.date.data := (hasChar_eq_false _ _).mp h10
  have hnns : '/' ∉ u.number.data := (hasChar_eq_false _ _).mp h12
  have hlns : '/' ∉ u.language.data := (hasChar_eq_false _ _).mp h13
  have hlat : '@' ∉ u.language.data := (hasChar_eq_false _ _).mp h14
  have hens : '/' ∉ u.expression_date.data := (hasChar_eq_false _ _).mp h16
  have hpfxor : u.pfx = "akn" ∨ u.pfx = "" := by
    rcases h1 with h | ⟨h, -⟩
    · exact Or.inl h
    · exact Or.inr h
  have hpfxor2 : u.pfx = "akn" ∨ (u.pfx = "" ∧ u.place ≠ "akn") := by
    rcases h1 with h | ⟨ha, hb⟩
    · exact Or.inl h
    · exact Or.inr ⟨ha, hb⟩
  have hsegs := segsOf_expression_uri u hp hdtns hstS hdans hnns hlns hens hpfxor
  have e1 := parsePfx_spec u.pfx u.place
    (u.doctype :: ((u.subtype.elim [] (fun st => [st]))
      ++ [u.date, u.number,
          String.mk (u.language.data ++ u.expression_date.data)])) hpfxor2
  have e2 := parsePlaceSeg_place u hcd
  have e3 := parseSubSeg_spec u.subtype u.date
    [u.number, String.mk (u.language.data ++ u.expression_date.data)] h9 hstD
  have e4 := parseLangSeg_spec (String.mk (u.language.data ++ u.expression_date.data))
    u.language u.expression_date [] rfl hlat h15 h17
  simp only [FrbrUri.parse, hsegs, e1, e2, e3, e4, FrbrUri.parseCompSeg,
    hplacene, h6, h9, h11, if_true, if_false, or_self, not_true,
    Bool.false_eq_true]


theorem expression_uri_decomp (u : FrbrUri) :
    u.expression_uri false
      = (u.workUriBase ++ "/") ++ (u.language ++ u.expression_date) :=
  strExt _ _ (by simp [FrbrUri.expression_uri, FrbrUri.workUriBase, FrbrUri.compSuffix,
    String.data_append, List.append_assoc])

/-- C2: setting `language` to L rewrites the FRBRlanguage attribute and
triggers the full resynchronization; reading `frbr_uri` back afterwards
parses the rewritten manifestation URI string and yields a value whose
language is L and whose expression-scoped URI embeds L. -/
theorem c2_set_language (ns dt L : String) (root r1 : Elem)
    (u0 : FrbrUri) (ed : SimpleDate)
    (pr0 : (Option String × List Nat) × List Nat)
    (l : List ((Option String × List Nat) × List Nat))
    (hmod : modSegs ns [dt, "meta", "identification", "FRBRExpression", "FRBRlanguage"]
      (fun e => some (e.setAttr "language" L)) root = some r1)
    (hed : expression_date_get ns dt r1 = some ed)
    (hread : frbr_uri_get ns dt r1 = some u0)
    (hcomps : componentEntries ns dt r1 = some (l.map (fun pr => pr.1)))
    (hids : ∀ pr ∈ l, (getAt pr.1.2 r1).bind (findMetaIdentPath ns) = some pr.2
      ∧ (getAt (pr.1.2 ++ pr.2) r1).map (identWFb ns) = some true)
    (hdiv : List.Pairwise (fun a b => divergeB (a.1.2 ++ a.2) b.1.2 = true) l)
    (hpr0 : pr0 ∈ l)
    (hres : resolveSegsPath ns [dt, "meta", "identification"] r1
      = some (pr0.1.2 ++ pr0.2))
    (hclear : ∀ pr ∈ l, isPrefixB (pr0.1.2 ++ pr0.2) (pr.1.2 ++ pr.2) = true
        ∨ divergeB (pr0.1.2 ++ pr0.2) (pr.1.2 ++ pr.2) = true)
    (hwf : wfUriB { u0 with
        language := L,
        expression_date := "@" ++ datestring (DateArg.dateV ed) } = true) :
    ∃ r2 v, set_language ns dt root L = some (r2, true)
      ∧ frbr_uri_get ns dt r2 = some v
      ∧ v.language = L
      ∧ ∃ pre post, v.expression_uri false = pre ++ (L ++ post) := by
  have hids2 : ∀ pr ∈ l, (getAt pr.1.2 r1).bind (findMetaIdentPath ns) = some pr.2
      ∧ ∃ id1, getAt (pr.1.2 ++ pr.2) r1 = some id1 ∧ identWFb ns id1 = true := by
    intro pr hpr
    obtain ⟨ha, hb⟩ := hids pr hpr
    refine ⟨ha, ?_⟩
    cases hg : getAt (pr.1.2 ++ pr.2) r1 with
    | none => rw [hg] at hb; cases hb
    | some idd =>
      rw [hg] at hb
      simp only [Option.map_some', Option.some.injEq] at hb
      exact ⟨idd, rfl, hb⟩
  obtain ⟨x0, x2, hx0, hfx, hx2⟩ := getElemSegs_modSegs ns _ _
    (fun c c2 hc => by obtain rfl := Option.some.inj hc; rfl) root r1 hmod
  obtain rfl := Option.some.inj hfx
  have hLval : (((x0.setAttr "language" L).getAttr "language").getD "eng") = L := by
    rw [Elem.getAttr_setAttr_same]
    rfl
  have hpre2 : ∃ wc1, syncPrelude ns dt r1 u0 = some { u0 with
      language := L,
      expression_date := "@" ++ datestring (DateArg.dateV ed),
      work_component := wc1 } := by
    by_cases hwc : u0.work_component = none
    · refine ⟨some "main", ?_⟩
      unfold syncPrelude
      simp only [hx2, hed, Bind.bind, Option.bind, Option.pure_def, hLval, hwc, if_pos]
    · refine ⟨u0.work_component, ?_⟩
      unfold syncPrelude
      simp only [hx2, hed, Bind.bind, Option.bind, Option.pure_def, hLval]
      rw [if_neg hwc]
  obtain ⟨wc1, hpre⟩ := hpre2
  obtain ⟨rootF, hfold, hents, -, hstab⟩ := syncFold_spec ns l r1
    { u0 with
      language := L,
      expression_date := "@" ++ datestring (DateArg.dateV ed),
      work_component := wc1 } hids2 hdiv
  have hsl : set_language ns dt root L = some (rootF, true) := by
    unfold set_language resyncSelf set_frbr_uri
    simp only [hmod, hread, hpre, hcomps, Bind.bind, Option.bind, hfold]
  obtain ⟨id1, id2, hid1, hid2, htag, hset, hdate2⟩ := hents pr0 hpr0
  obtain ⟨g3, g4, g5, g6, g7, g8, g9, g10⟩ := hset
  have hstabF := hstab [dt, "meta", "identification"] (pr0.1.2 ++ pr0.2) hres hclear
  have hg3F : getElemSegs ns [dt, "meta", "identification"] rootF = some id2 := by
    rw [resolveSegsPath_getElemSegs ns _ rootF _ hstabF]
    exact hid2
  have hstored : (getElemSegs ns [dt, "meta", "identification", "FRBRManifestation",
      "FRBRuri"] rootF).bind (fun e => e.getAttr "value")
      = some (FrbrUri.expression_uri { u0 with
          language := L,
          expression_date := "@" ++ datestring (DateArg.dateV ed),
          work_component := pr0.1.1 } false) := by
    rw [show ([dt, "meta", "identification", "FRBRManifestation", "FRBRuri"]
        : List String)
      = [dt, "meta", "identification"] ++ ["FRBRManifestation", "FRBRuri"] from rfl,
      getElemSegs_append, hg3F]
    show (getElemSegs ns ["FRBRManifestation", "FRBRuri"] id2).bind
      (fun e => e.getAttr "value") = _
    rw [getElemSegs_two]
    exact g9
  have hwf2 : wfUriB { u0 with
      language := L,
      expression_date := "@" ++ datestring (DateArg.dateV ed),
      work_component := pr0.1.1 } = true := hwf
  have hrt := parse_expression_uri _ hwf2
  have hne2 : FrbrUri.expression_uri { u0 with
      language := L,
      expression_date := "@" ++ datestring (DateArg.dateV ed),
      work_component := pr0.1.1 } false ≠ "" := by
    intro h0
    rw [h0] at hrt
    rw [show FrbrUri.parse "" = none from rfl] at hrt
    exact Option.noConfusion hrt
  refine ⟨rootF, { u0 with
      language := L,
      expression_date := "@" ++ datestring (DateArg.dateV ed),
      actor := none, work_component := none }, hsl, ?_, rfl, ?_⟩
  · unfold frbr_uri_get
    rw [hstored]
    show (if FrbrUri.expression_uri { u0 with
        language := L,
        expression_date := "@" ++ datestring (DateArg.dateV ed),
        work_component := pr0.1.1 } false = "" then none
      else FrbrUri.parse (FrbrUri.expression_uri { u0 with
        language := L,
        expression_date := "@" ++ datestring (DateArg.dateV ed),
        work_component := pr0.1.1 } false)) = _
    rw [if_neg hne2, hrt]
  · exact ⟨_, _, expression_uri_decomp _⟩


/-- `wuDoc` after the language write "fra" on the main document's
identification block. -/
def wuDocC : Elem :=
  wuE "akomaNtoso" [] [
    wuE "act" [] [
      wuE "meta" [] [wuIdent "/akn/za/act/2005/1/!main" "2005-02-03" "fra"],
      wuE "body" [] [],
      wuE "attachments" [] [
        wuE "attachment" [] [
          wuE "doc" [] [
            wuE "meta" [] [wuIdent "/akn/za/act/2005/1/!schedule1" "2005-02-03" "eng"],
            wuE "mainBody" [] []]]]]]

theorem c2_witness :
    modSegs "x" ["act", "meta", "identification", "FRBRExpression", "FRBRlanguage"]
        (fun e => some (e.setAttr "language" "fra")) wuDoc = some wuDocC
    ∧ frbr_uri_get "x" "act" wuDocC = some wuU0
    ∧ wfUriB { wuU0 with
        language := "fra",
        expression_date := "@" ++ datestring (DateArg.dateV ⟨2005, 2, 3⟩) } = true
    ∧ (∃ r2 v, set_language "x" "act" wuDoc "fra" = some (r2, true)
        ∧ frbr_uri_get "x" "act" r2 = some v
        ∧ v.language = "fra"
        ∧ ∃ pre post, v.expression_uri false = pre ++ ("fra" ++ post)) :=
  ⟨rfl, by decide, by decide,
    c2_set_language "x" "act" "fra" wuDoc wuDocC wuU0 ⟨2005, 2, 3⟩
      ((some "main", [0]), [0, 0]) wuEnts
      rfl (by decide) (by decide) (by decide) (by decide) (by decide) (by decide)
      (by decide) (by decide) (by decide)⟩

end Cobalt